import Mathlib

/-!
# Gee-cache: a verification development

Shallow embedding of the Go packages `geecache/lru`, `geecache/consistenthash`
and `geecache` (group orchestration), followed by theorems about them.

Conventions of the embedding

* Go `int64` arithmetic is integer arithmetic followed by `int64`, the signed
  64-bit wrap-around.  Go `int` is taken to be 64 bits wide.
* A Go pointer to a `list.Element` is a natural number `ptr`; the recency list
  `ll` is a Lean list whose head is the front (most recently used) element.
* A Go `map` is an association list, read with `List.lookup`.
* A loop that the source does not bound is run with explicit fuel and returns
  `none` when the fuel is exhausted before the loop condition turns false.
* Calls to externally supplied callbacks are recorded in an explicit call log.
-/

set_option autoImplicit false

/-- Signed 64-bit wrap-around: the value a Go `int64` holds after an operation
whose exact result is `x`. -/
def int64 (x : Int) : Int := (x + 2 ^ 63) % 2 ^ 64 - 2 ^ 63

namespace lru

/-- Go interface `Value`: anything that reports its size through `Len() int`. -/
class Value (V : Type) where
  /-- Result of the method `Len()`. -/
  Len : V → Int

/-- Go struct `entry`: the payload of a list element. -/
structure entry (V : Type) where
  key : String
  value : V
deriving DecidableEq, Repr

/-- Go `*list.Element`: identity `ptr` plus the `*entry` stored in `Value`. -/
structure Element (V : Type) where
  ptr : Nat
  Value : entry V
deriving DecidableEq, Repr

/-- Go struct `Cache`.  `evicted` is the log of the calls made to `OnEvicted`
(arguments in call order) and `OnEvicted` tells whether the callback is non-nil;
`nextPtr` is the allocator state for fresh list elements. -/
structure Cache (V : Type) where
  maxBytes : Int
  nbytes : Int
  ll : List (Element V)
  cache : List (String × Nat)
  OnEvicted : Bool
  evicted : List (String × V)
  nextPtr : Nat
deriving DecidableEq, Repr

variable {V : Type} [Value V]

/-- Go `New(maxBytes, onEvicted)`. -/
def New (maxBytes : Int) (onEvicted : Bool) : Cache V :=
  { maxBytes := maxBytes, nbytes := 0, ll := [], cache := [],
    OnEvicted := onEvicted, evicted := [], nextPtr := 0 }

/-- Dereference of an element pointer held by the list.  The key index only
holds pointers of elements of the list (invariant `Inv`), so in a reachable
state the dereference of an indexed pointer does not fail. -/
def deref (l : List (Element V)) (p : Nat) : Option (Element V) :=
  l.find? (fun e => e.ptr == p)

/-- Go `list.MoveToFront(ele)`: unlink the element and relink it at the front. -/
def MoveToFront (l : List (Element V)) (p : Nat) : List (Element V) :=
  match deref l p with
  | some e => e :: l.filter (fun x => x.ptr != p)
  | none => l

/-- Go `list.Remove(ele)`. -/
def Remove (l : List (Element V)) (p : Nat) : List (Element V) :=
  l.filter (fun x => x.ptr != p)

/-- Go `delete(m, key)` on the key index. -/
def mapDelete (m : List (String × Nat)) (key : String) : List (String × Nat) :=
  m.filter (fun kv => kv.1 != key)

/-- Go `Cache.Get`: on a hit the element moves to the front and its value is
returned; `none` is the Go result `(nil, false)`. -/
def Get (c : Cache V) (key : String) : Cache V × Option V :=
  match c.cache.lookup key with
  | some p =>
    match deref c.ll p with
    | some ele => ({ c with ll := MoveToFront c.ll p }, some ele.Value.value)
    | none => (c, none)
  | none => (c, none)

/-- Go expression `int64(len(kv.key)) + int64(kv.value.Len())`. -/
def entryBytes (key : String) (value : V) : Int :=
  int64 (int64 (key.utf8ByteSize : Int) + int64 (Value.Len value))

/-- Go `Cache.RemoveOldest`. -/
def RemoveOldest (c : Cache V) : Cache V :=
  match c.ll.getLast? with
  | some ele =>
    { c with
      ll := Remove c.ll ele.ptr
      cache := mapDelete c.cache ele.Value.key
      nbytes := int64 (c.nbytes - entryBytes ele.Value.key ele.Value.value)
      evicted :=
        if c.OnEvicted then c.evicted ++ [(ele.Value.key, ele.Value.value)]
        else c.evicted }
  | none => c

/-- First part of Go `Cache.Add` (the `if`/`else` before the loop): update and
promote a resident key, or push a new front element and index it. -/
def Add_store (c : Cache V) (key : String) (value : V) : Cache V :=
  match c.cache.lookup key with
  | some p =>
    match deref c.ll p with
    | some ele =>
      { c with
        ll := { ele with Value := { ele.Value with value := value } } ::
                c.ll.filter (fun x => x.ptr != p)
        nbytes := int64 (c.nbytes +
          int64 (int64 (Value.Len value) - int64 (Value.Len ele.Value.value))) }
    | none => c
  | none =>
    { c with
      ll := { ptr := c.nextPtr, Value := { key := key, value := value } } :: c.ll
      cache := (key, c.nextPtr) :: c.cache
      nbytes := int64 (c.nbytes + entryBytes key value)
      nextPtr := c.nextPtr + 1 }

/-- Loop condition of the eviction loop of `Cache.Add`. -/
def overBudget (c : Cache V) : Bool :=
  c.maxBytes != 0 && decide (c.maxBytes < c.nbytes)

/-- Second part of Go `Cache.Add`: `for c.maxBytes != 0 && c.maxBytes < c.nbytes
{ c.RemoveOldest() }`, run with fuel. -/
def Add_evict : Nat → Cache V → Option (Cache V)
  | 0, c => if overBudget c then none else some c
  | fuel + 1, c => if overBudget c then Add_evict fuel (RemoveOldest c) else some c

/-- Go `Cache.Add`; `none` means the eviction loop was still running when the
fuel ran out. -/
def Add (fuel : Nat) (c : Cache V) (key : String) (value : V) : Option (Cache V) :=
  Add_evict fuel (Add_store c key value)

/-- Go `Cache.Len`. -/
def Len (c : Cache V) : Nat := c.ll.length

/-- A value that reports `len` bytes; `tag` distinguishes values of equal size
(the Go tests use `type String string` with `Len() = len(d)` in this role). -/
structure Blob where
  tag : String
  len : Int
deriving DecidableEq, Repr

instance : Value Blob := ⟨Blob.len⟩

/-- Exact size of a list element: `len(key) + value.Len()` as integers. -/
def size (e : Element V) : Int :=
  (e.Value.key.utf8ByteSize : Int) + Value.Len e.Value.value

/-- Exact sum of the sizes of the elements of a recency list. -/
def sizeSum (l : List (Element V)) : Int := (l.map size).sum

/-- The same sum in the arithmetic of the program (`int64`). -/
def total (l : List (Element V)) : Int := int64 (sizeSum l)

/-- Keys of a recency list, most recent first. -/
def keysOf (l : List (Element V)) : List String := l.map (fun e => e.Value.key)

/-- Key/value pairs of a recency list, most recent first. -/
def pairsOf (l : List (Element V)) : List (String × V) :=
  l.map (fun e => (e.Value.key, e.Value.value))

/-- Caches reachable from the cache `c₀` by any sequence of `Get`, `Add` and
`RemoveOldest` calls (an `Add` counts once it has returned). -/
inductive ReachableFrom (c₀ : Cache V) : Cache V → Prop
  | start : ReachableFrom c₀ c₀
  | get (c : Cache V) (key : String) : ReachableFrom c₀ c → ReachableFrom c₀ (Get c key).1
  | add (c c' : Cache V) (fuel : Nat) (key : String) (value : V) :
      ReachableFrom c₀ c → Add fuel c key value = some c' → ReachableFrom c₀ c'
  | removeOldest (c : Cache V) : ReachableFrom c₀ c → ReachableFrom c₀ (RemoveOldest c)

/-- Caches reachable from some `New(maxBytes, onEvicted)`. -/
def Reachable (c : Cache V) : Prop :=
  ∃ (maxBytes : Int) (onEvicted : Bool), ReachableFrom (New maxBytes onEvicted) c

/-- Representation invariant of a cache: distinct element pointers, one element
per key, an index that holds exactly the keys of the list with the pointers of
their elements, fresh pointers above all used ones, and `nbytes` equal to the
`int64` sum of the entry sizes. -/
structure Inv (c : Cache V) : Prop where
  ptrs : (c.ll.map (fun e => e.ptr)).Nodup
  keys : (keysOf c.ll).Nodup
  index : ∀ k p, c.cache.lookup k = some p ↔ ∃ e ∈ c.ll, e.ptr = p ∧ e.Value.key = k
  fresh : ∀ e ∈ c.ll, e.ptr < c.nextPtr
  bytes : c.nbytes = total c.ll

/-- Outcome of the eviction loop started in state `c`: the `n` most recent
elements survive, the others were removed one by one from the back. -/
structure Evicts (c c' : Cache V) (n : Nat) : Prop where
  le : n ≤ c.ll.length
  ll : c'.ll = c.ll.take n
  evicted : c'.evicted =
    c.evicted ++ (if c.OnEvicted then pairsOf (c.ll.drop n).reverse else [])
  cache : c'.cache = (keysOf (c.ll.drop n).reverse).foldl mapDelete c.cache
  maxBytes : c'.maxBytes = c.maxBytes
  OnEvicted : c'.OnEvicted = c.OnEvicted
  nextPtr : c'.nextPtr = c.nextPtr
  nbytes : c'.nbytes = total (c.ll.take n)
  fits : overBudget c' = false
  longest : ∀ m, n < m → m ≤ c.ll.length →
    c.maxBytes ≠ 0 ∧ c.maxBytes < total (c.ll.take m)

/-- One call on a cache: `Get(key)`, `Add(key, value)` (run with `fuel`) or
`RemoveOldest()`. -/
inductive Op (V : Type) where
  | get (key : String)
  | add (fuel : Nat) (key : String) (value : V)
  | removeOldest

/-- Effect of one call on a cache; `none` when an `Add` has not returned within
its fuel. -/
def step (c : Cache V) : Op V → Option (Cache V)
  | Op.get key => some (Get c key).1
  | Op.add fuel key value => Add fuel c key value
  | Op.removeOldest => some (RemoveOldest c)

/-- Effect of a sequence of calls, the first call first. -/
def run (c : Cache V) : List (Op V) → Option (Cache V)
  | [] => some c
  | op :: ops => (step c op).bind (fun c' => run c' ops)

/-- Value given by the most recent `Add` for `key` in a sequence of calls. -/
def lastAdd (key : String) : List (Op V) → Option V
  | [] => none
  | Op.add _ k v :: ops =>
    match lastAdd key ops with
    | some w => some w
    | none => if k = key then some v else none
  | Op.get _ :: ops => lastAdd key ops
  | Op.removeOldest :: ops => lastAdd key ops

/-- The calls `Add(key, value)` of a list of (fuel, key, value) triples. -/
def addOps (adds : List (Nat × String × V)) : List (Op V) :=
  adds.map (fun a => Op.add a.1 a.2.1 a.2.2)

/-- Example state: budget 18, callback set, after `Add("k1", v1)` with a
6-byte value. -/
def exCache1 : Cache Blob :=
  { maxBytes := 18, nbytes := 8,
    ll := [⟨0, ⟨"k1", ⟨"v1", 6⟩⟩⟩],
    cache := [("k1", 0)],
    OnEvicted := true, evicted := [], nextPtr := 1 }

/-- Example state: budget 18, callback set, after `Add("k1", v1)` and
`Add("k2", v2)` with 6-byte values. -/
def exCache : Cache Blob :=
  { maxBytes := 18, nbytes := 16,
    ll := [⟨1, ⟨"k2", ⟨"v2", 6⟩⟩⟩, ⟨0, ⟨"k1", ⟨"v1", 6⟩⟩⟩],
    cache := [("k2", 1), ("k1", 0)],
    OnEvicted := true, evicted := [], nextPtr := 2 }

/-- Example state: budget 5, no callback, after `Add("a", x)` where the value
`x` reports `Len() = -10`. -/
def exNegCache : Cache Blob :=
  { maxBytes := 5, nbytes := -9,
    ll := [⟨0, ⟨"a", ⟨"x", -10⟩⟩⟩],
    cache := [("a", 0)],
    OnEvicted := false, evicted := [], nextPtr := 1 }

/-- Example state: budget 18, callback set, after `Add("k1", v1)`,
`Add("k2", v2)` with 6-byte values and `RemoveOldest()`. -/
def exCacheAfterRemove : Cache Blob :=
  { maxBytes := 18, nbytes := 8,
    ll := [⟨1, ⟨"k2", ⟨"v2", 6⟩⟩⟩],
    cache := [("k2", 1)],
    OnEvicted := true, evicted := [("k1", ⟨"v1", 6⟩)], nextPtr := 2 }

/-- Example state: budget 5, no callback, after `Add("a", x)` with
`x.Len() = -10`, `Add("k", y)` with `y.Len() = 10` and `RemoveOldest()`. -/
def exNegCacheAfterRemove : Cache Blob :=
  { maxBytes := 5, nbytes := 11,
    ll := [⟨1, ⟨"k", ⟨"y", 10⟩⟩⟩],
    cache := [("k", 1)],
    OnEvicted := false, evicted := [], nextPtr := 2 }

end lru

/-- Go conversion `[]byte(s)`: the UTF-8 bytes of a string. -/
def bytesOf (s : String) : List UInt8 := s.data.flatMap String.utf8EncodeChar

namespace consistenthash

/-- Go type `Hash`, `func(data []byte) uint32`; the result of a hash function
is always read modulo `2 ^ 32` (see `hashOf`). -/
abbrev Hash := List UInt8 → Nat

/-- One shift-and-xor step of the reflected CRC-32 (polynomial `0xEDB88320`). -/
def crcStep (c : Nat) : Nat := if c % 2 = 1 then (c / 2) ^^^ 0xEDB88320 else c / 2

/-- CRC-32 update with one byte. -/
def crcByte (crc : Nat) (b : UInt8) : Nat :=
  crcStep (crcStep (crcStep (crcStep (crcStep (crcStep (crcStep (crcStep
    (crc ^^^ b.toNat))))))))

/-- Go standard library `crc32.ChecksumIEEE`, the default hash of `New`. -/
def ChecksumIEEE : Hash := fun data => (data.foldl crcByte 0xFFFFFFFF) ^^^ 0xFFFFFFFF

/-- Go struct `Map`: hash function, replicas, the ring `keys` and the map from
virtual-node hash to peer id (an association list, newest binding first). -/
structure Map where
  hash : Hash
  replicas : Int
  keys : List Int
  hashMap : List (Int × String)

/-- Go `New(replicas, fn)`; `none` is a nil `fn`. -/
def New (replicas : Int) (fn : Option Hash) : Map :=
  { replicas := replicas,
    hash := match fn with
      | some f => f
      | none => ChecksumIEEE,
    keys := [], hashMap := [] }

/-- Go expression `int(m.hash([]byte(s)))`. -/
def hashOf (m : Map) (s : String) : Int := ((m.hash (bytesOf s) % 2 ^ 32 : Nat) : Int)

/-- Go `strconv.Itoa` on a non-negative number. -/
def Itoa (i : Nat) : String := toString i

/-- Go standard library `sort.Ints`. -/
def sortInts (l : List Int) : List Int := l.insertionSort (fun a b => a ≤ b)

/-- Body of the inner loop of `Map.Add` for the virtual index `i` of `key`. -/
def Add_node (key : String) (m : Map) (i : Nat) : Map :=
  { m with
    keys := m.keys ++ [hashOf m (Itoa i ++ key)]
    hashMap := (hashOf m (Itoa i ++ key), key) :: m.hashMap }

/-- Inner loop of `Map.Add`: `for i := 0; i < m.replicas; i++`. -/
def Add_key (m : Map) (key : String) : Map :=
  (List.range m.replicas.toNat).foldl (Add_node key) m

/-- Go `Map.Add(keys...)`. -/
def Add (m : Map) (keys : List String) : Map :=
  { keys.foldl Add_key m with keys := sortInts (keys.foldl Add_key m).keys }

/-- Loop of the Go standard library `sort.Search`, `i` and `j` being its two
bounds; the loop runs at most `j - i` times, which the fuel covers. -/
def Search_loop (f : Nat → Bool) : Nat → Nat → Nat → Nat
  | 0, i, _ => i
  | fuel + 1, i, j =>
    if i < j then
      if !f ((i + j) / 2) then Search_loop f fuel ((i + j) / 2 + 1) j
      else Search_loop f fuel i ((i + j) / 2)
    else i

/-- Go standard library `sort.Search(n, f)`. -/
def Search (n : Nat) (f : Nat → Bool) : Nat := Search_loop f n 0 n

/-- Go map read `m.hashMap[v]`, the zero value `""` for a missing key. -/
def mapGet (hm : List (Int × String)) (v : Int) : String := (hm.lookup v).getD ""

/-- Go `Map.Get(key)`. -/
def Get (m : Map) (key : String) : String :=
  if m.keys.length = 0 then ""
  else
    mapGet m.hashMap (m.keys.getD
      (Search m.keys.length (fun i => decide (m.keys.getD i 0 ≥ hashOf m key))
        % m.keys.length) 0)

/-- Smallest element of a list of ring values. -/
def least : List Int → Option Int
  | [] => none
  | a :: l => some (l.foldl min a)

/-- Reference definition of `Get`, following the specification: the empty
string on a ring without virtual nodes; otherwise, with `h = hash(key)`, the
peer id mapped from the smallest ring value `≥ h`, and when there is none the
peer id mapped from the smallest ring value overall. -/
def Get_ref (m : Map) (key : String) : String :=
  if m.keys = [] then ""
  else
    match least (m.keys.filter (fun v => decide (hashOf m key ≤ v))) with
    | some v => mapGet m.hashMap v
    | none =>
      match least m.keys with
      | some v => mapGet m.hashMap v
      | none => ""

/-- Owner of a hash: `Owner l h v` says that among the ring values `l`, the
value `v` is the smallest one that is `≥ h`, or the smallest one overall when
none is `≥ h`. -/
def Owner (l : List Int) (h v : Int) : Prop :=
  v ∈ l ∧ ((h ≤ v ∧ ∀ x ∈ l, h ≤ x → v ≤ x) ∨ ((∀ x ∈ l, x < h) ∧ ∀ x ∈ l, v ≤ x))

/-- Virtual nodes that `Add(keys...)` places on the ring of `m`, as pairs of
hash and peer id in the order of the two nested loops. -/
def vnodes (m : Map) (keys : List String) : List (Int × String) :=
  keys.flatMap (fun key =>
    (List.range m.replicas.toNat).map (fun i => (hashOf m (Itoa i ++ key), key)))

/-- Ring states: what `New` followed by any sequence of `Add` calls produces. -/
inductive Reachable : Map → Prop
  | new (replicas : Int) (fn : Option Hash) : Reachable (New replicas fn)
  | add (m : Map) (keys : List String) : Reachable m → Reachable (Add m keys)

/-- Ring built from `New(replicas, fn)` by a sequence of `Add` calls, one list
of ids per call. -/
def build (replicas : Int) (fn : Option Hash) (calls : List (List String)) : Map :=
  calls.foldl Add (New replicas fn)

/-- Example hash: the sum of the bytes. -/
def byteSum : Hash := fun data => (data.map UInt8.toNat).sum

/-- Example ring: 2 replicas, hash `byteSum`, after `Add("A", "C")`. -/
def exRing : Map := Add (New 2 (some byteSum)) ["A", "C"]

end consistenthash

namespace geecache

/-- Modelled from the spec: the immutable value container `ByteView`, whose
source file is not part of the sources at hand.  It wraps a byte payload `b`;
its size is the length of the payload. -/
structure ByteView where
  b : List UInt8
deriving DecidableEq, Repr

/-- Modelled from the spec: `ByteView.Len`, the byte length of the payload. -/
instance : lru.Value ByteView := ⟨fun v => (v.b.length : Int)⟩

/-- Modelled from the spec: `cloneBytes`, a copy of a byte slice. -/
def cloneBytes (b : List UInt8) : List UInt8 := b

/-- Modelled from the spec: the concurrent cache wrapper `cache`, whose source
file is not part of the sources at hand: a byte budget and a lazily constructed
eviction cache (`none` before the first `add`).  Its lock makes each call atomic,
which the sequential embedding already is. -/
structure cache where
  cacheBytes : Int
  lru : Option (lru.Cache ByteView)
deriving DecidableEq, Repr

/-- Modelled from the spec: `cache.add`, which constructs the eviction cache on
first use (with the configured budget and no eviction callback) and adds the
entry to it. -/
def cache.add (fuel : Nat) (c : cache) (key : String) (value : ByteView) : Option cache :=
  match c.lru with
  | some l => (lru.Add fuel l key value).map (fun l' => { c with lru := some l' })
  | none =>
    (lru.Add fuel (lru.New c.cacheBytes false) key value).map
      (fun l' => { c with lru := some l' })

/-- Modelled from the spec: `cache.get`, a miss while the eviction cache is not
constructed yet, otherwise the `Get` of the eviction cache. -/
def cache.get (c : cache) (key : String) : cache × Option ByteView :=
  match c.lru with
  | some l => ({ c with lru := some (lru.Get l key).1 }, (lru.Get l key).2)
  | none => (c, none)

/-- Go `error`: `none` is `nil`, `some msg` an error with that text. -/
abbrev Error := Option String

/-- Go interface `Getter` (and `GetterFunc`).  A loader may be stateful: its
answer depends on the key and on the keys of the calls made to it before. -/
abbrev Getter := List String → String → Except String (List UInt8)

/-- Go interface `PeerGetter`: `Get(in, out)` with `in = {Group, Key}` either
fails or fills `out.Value`. -/
structure PeerGetter where
  Get : String → String → Except String (List UInt8)

/-- Go interface `PeerPicker`: `PickPeer(key)` returns `(peer, true)` or
`(nil, false)`. -/
structure PeerPicker where
  PickPeer : String → Option PeerGetter

/-- Calls that a group makes to its collaborators. -/
inductive Event where
  | load (key : String)
  | pick (key : String)
  | fetch (group key : String)
deriving DecidableEq, Repr

/-- Go struct `Group`; `log` records the calls made to the loader, the
peer-picker and the peer transports, in call order. -/
structure Group where
  name : String
  getter : Getter
  mainCache : cache
  peers : Option PeerPicker
  log : List Event

/-- Keys of the loader calls recorded in a log. -/
def loadsOf : List Event → List String
  | [] => []
  | Event.load key :: l => key :: loadsOf l
  | _ :: l => loadsOf l

/-- Number of peer transport attempts recorded in a log. -/
def fetchesOf : List Event → Nat
  | [] => 0
  | Event.fetch _ _ :: l => fetchesOf l + 1
  | _ :: l => fetchesOf l

/-- Go variable `groups`: the registry from names to groups. -/
abbrev Registry := List (String × Group)

/-- Go `NewGroup(name, cacheBytes, getter)`; `none` is the panic on a nil
getter. -/
def NewGroup (groups : Registry) (name : String) (cacheBytes : Int)
    (getter : Option Getter) : Option (Group × Registry) :=
  match getter with
  | none => none
  | some f =>
    let g : Group :=
      { name := name, getter := f, mainCache := { cacheBytes := cacheBytes, lru := none },
        peers := none, log := [] }
    some (g, (name, g) :: groups)

/-- Go `GetGroup(name)`. -/
def GetGroup (groups : Registry) (name : String) : Option Group := groups.lookup name

/-- Go `Group.RegisterPeers`; `none` is the panic on a second call. -/
def Group.RegisterPeers (g : Group) (peers : PeerPicker) : Option Group :=
  match g.peers with
  | some _ => none
  | none => some { g with peers := some peers }

/-- Go `Group.populateCache`. -/
def Group.populateCache (fuel : Nat) (g : Group) (key : String) (value : ByteView) :
    Option Group :=
  (g.mainCache.add fuel key value).map (fun mc => { g with mainCache := mc })

/-- Go `Group.getLocally`: one loader call, and on success the cloned bytes are
cached and returned. -/
def Group.getLocally (fuel : Nat) (g : Group) (key : String) :
    Option ((ByteView × Error) × Group) :=
  match g.getter (loadsOf g.log) key with
  | Except.error err =>
    some ((⟨[]⟩, some err), { g with log := g.log ++ [Event.load key] })
  | Except.ok bytes =>
    (Group.populateCache fuel { g with log := g.log ++ [Event.load key] } key
        ⟨cloneBytes bytes⟩).map
      (fun g' => ((⟨cloneBytes bytes⟩, none), g'))

/-- Go `Group.getFromPeer`: one call of the peer transport. -/
def Group.getFromPeer (g : Group) (peer : PeerGetter) (key : String) :
    (ByteView × Error) × Group :=
  match peer.Get g.name key with
  | Except.error err => ((⟨[]⟩, some err), { g with log := g.log ++ [Event.fetch g.name key] })
  | Except.ok value => ((⟨value⟩, none), { g with log := g.log ++ [Event.fetch g.name key] })

/-- Go `Group.load`. -/
def Group.load (fuel : Nat) (g : Group) (key : String) :
    Option ((ByteView × Error) × Group) :=
  match g.peers with
  | some peers =>
    match peers.PickPeer key with
    | some peer =>
      match Group.getFromPeer { g with log := g.log ++ [Event.pick key] } peer key with
      | ((value, none), g') => some ((value, none), g')
      | ((_, some _), g') => Group.getLocally fuel g' key
    | none => Group.getLocally fuel { g with log := g.log ++ [Event.pick key] } key
  | none => Group.getLocally fuel g key

/-- Go `Group.Get`; `none` means that the call had not returned when the fuel
(for the eviction loop of the cache) ran out. -/
def Group.Get (fuel : Nat) (g : Group) (key : String) :
    Option ((ByteView × Error) × Group) :=
  if key = "" then some ((⟨[]⟩, some "key is required"), g)
  else
    match (g.mainCache.get key).2 with
    | some v => some ((v, none), { g with mainCache := (g.mainCache.get key).1 })
    | none => Group.load fuel { g with mainCache := (g.mainCache.get key).1 } key

/-- Groups reachable from `NewGroup` by `RegisterPeers` and `Get` calls. -/
inductive Group.Reachable : Group → Prop
  | new (groups groups' : Registry) (name : String) (cacheBytes : Int) (getter : Option Getter)
      (g : Group) : NewGroup groups name cacheBytes getter = some (g, groups') →
      Group.Reachable g
  | registerPeers (g g' : Group) (peers : PeerPicker) : Group.Reachable g →
      g.RegisterPeers peers = some g' → Group.Reachable g'
  | get (g g' : Group) (fuel : Nat) (key : String) (r : ByteView × Error) :
      Group.Reachable g → Group.Get fuel g key = some (r, g') → Group.Reachable g'

/-- Invariant of the cache wrapper: its eviction cache, once constructed, is
well formed and carries the configured budget. -/
def cache.Inv (c : cache) : Prop :=
  ∀ l, c.lru = some l → lru.Inv l ∧ l.maxBytes = c.cacheBytes

/-- Number of entries in a cache wrapper (0 before the eviction cache exists). -/
def cache.len (c : cache) : Nat :=
  match c.lru with
  | some l => l.ll.length
  | none => 0

/-- Example loader: every key loads the single byte `65`. -/
def exGetter : Getter := fun _ _ => Except.ok [65]

/-- Example peer transport that always fails. -/
def exBadPeer : PeerGetter := ⟨fun _ _ => Except.error "down"⟩

/-- Example peer-picker that always selects `exBadPeer`. -/
def exPicker : PeerPicker := ⟨fun _ => some exBadPeer⟩

/-- Invariant of a group: that of its cache wrapper. -/
def Group.Inv (g : Group) : Prop := g.mainCache.Inv

/-- What a call of `Group.Get` or `Group.load` shows to an observer: the
returned pair and the call log of the group afterwards. -/
def observe (r : Option ((ByteView × Error) × Group)) :
    Option ((ByteView × Error) × List Event) :=
  r.map (fun x => (x.1, x.2.log))

/-- Example group: budget `cacheBytes`, loader `exGetter`, no peers. -/
def exGroup (cacheBytes : Int) : Group :=
  { name := "g", getter := exGetter, mainCache := { cacheBytes := cacheBytes, lru := none },
    peers := none, log := [] }

/-- Example group: budget `cacheBytes`, loader `exGetter`, peer-picker
`exPicker`. -/
def exPeerGroup (cacheBytes : Int) : Group :=
  { name := "g", getter := exGetter, mainCache := { cacheBytes := cacheBytes, lru := none },
    peers := some exPicker, log := [] }

/-- Modelled from the spec: `ByteView.ByteSlice`, a copy of the payload. -/
def ByteView.ByteSlice (v : ByteView) : List UInt8 := cloneBytes v.b

/-- Go constant `defaultBasePath`. -/
def defaultBasePath : String := "/_geecache/"

/-- Go constant `defaultReplicas`. -/
def defaultReplicas : Int := 50

/-- Go struct `httpGetter`: the transport to one remote peer. -/
structure httpGetter where
  baseURL : String
deriving DecidableEq, Repr

/-- Go struct `HTTPPool`; `peers` is `none` while the Go pointer is nil, that is
before the first `Set`, and `httpGetters` is a map from peer id to transport. -/
structure HTTPPool where
  self : String
  basePath : String
  peers : Option consistenthash.Map
  httpGetters : List (String × httpGetter)

/-- Go `NewHTTPPool(self)`. -/
def NewHTTPPool (self : String) : HTTPPool :=
  { self := self, basePath := defaultBasePath, peers := none, httpGetters := [] }

/-- Ring that `Set(peers...)` builds: `consistenthash.New(defaultReplicas, nil)`
followed by `Add(peers...)`. -/
def peerRing (peers : List String) : consistenthash.Map :=
  consistenthash.Add (consistenthash.New defaultReplicas none) peers

/-- Go `HTTPPool.Set(peers...)`: a new ring with the default replicas and hash,
and a new map with one transport per peer. -/
def HTTPPool.Set (p : HTTPPool) (peers : List String) : HTTPPool :=
  { p with
    peers := some (peerRing peers)
    httpGetters :=
      peers.foldl (fun m peer => (peer, ({ baseURL := peer ++ p.basePath } : httpGetter)) :: m)
        [] }

/-- Go `HTTPPool.PickPeer(key)`; the outer `none` is the nil dereference on a
pool whose ring does not exist yet; the inner pair is the Go result, the first
component being the map read `p.httpGetters[peer]`. -/
def HTTPPool.PickPeer (p : HTTPPool) (key : String) : Option (Option httpGetter × Bool) :=
  match p.peers with
  | none => none
  | some ring =>
    if consistenthash.Get ring key ≠ "" ∧ consistenthash.Get ring key ≠ p.self then
      some (p.httpGetters.lookup (consistenthash.Get ring key), true)
    else some (none, false)

/-- What the handler writes to the `http.ResponseWriter`. -/
structure Response where
  status : Nat
  contentType : String
  body : List UInt8
deriving DecidableEq, Repr

/-- Go standard library `http.Error(w, msg, code)`: a plain-text reply whose body
is the message followed by a newline. -/
def httpError (msg : String) (code : Nat) : Response :=
  { status := code, contentType := "text/plain; charset=utf-8", body := bytesOf (msg ++ "\n") }

/-- Go standard library `strings.SplitN(s, "/", 2)`: the whole string when it
has no `/`, otherwise what precedes and what follows the first `/`. -/
def SplitN2 (s : List Char) : List (List Char) :=
  match s.span (fun ch => ch != '/') with
  | (a, []) => [a]
  | (a, _ :: b) => [a, b]

/-- Outcome of one call of the handler: a crash (Go panic) or a reply together
with the registry, in which the served group has its new state. -/
inductive Served where
  | crash (msg : String)
  | reply (r : Response) (groups : Registry)

/-- Reply of an outcome, if any. -/
def Served.response : Served → Option Response
  | Served.crash _ => none
  | Served.reply r _ => some r

/-- Go `HTTPPool.ServeHTTP` on the request path `path`.  `Marshal` is the wire
codec (`proto.Marshal` on a response message holding the bytes); `none` means
that the call had not returned when the fuel ran out. -/
def HTTPPool.ServeHTTP (Marshal : List UInt8 → Except String (List UInt8)) (fuel : Nat)
    (p : HTTPPool) (groups : Registry) (path : String) : Option Served :=
  if p.basePath.data.isPrefixOf path.data then
    match SplitN2 (path.data.drop p.basePath.data.length) with
    | [groupName, key] =>
      match GetGroup groups (String.mk groupName) with
      | none =>
        some (Served.reply (httpError ("no such group: " ++ String.mk groupName) 404) groups)
      | some group =>
        match Group.Get fuel group (String.mk key) with
        | none => none
        | some ((_, some err), group') =>
          some (Served.reply (httpError err 500) ((String.mk groupName, group') :: groups))
        | some ((view, none), group') =>
          match Marshal view.ByteSlice with
          | Except.error err =>
            some (Served.reply (httpError err 500) ((String.mk groupName, group') :: groups))
          | Except.ok body =>
            some (Served.reply
              { status := 200, contentType := "application/octet-stream", body := body }
              ((String.mk groupName, group') :: groups))
    | _ => some (Served.reply (httpError "bad request" 400) groups)
  else some (Served.crash ("HTTPPool serving unexpected path: " ++ path))

/-- Example codec: the payload behind a one-byte tag. -/
def exMarshal : List UInt8 → Except String (List UInt8) := fun b => Except.ok (10 :: b)

/-- Example registry: the group `g` (budget 2, loader `exGetter`). -/
def exRegistry : Registry := [("g", exGroup 2)]

/-- Example loader that always fails. -/
def exBadGetter : Getter := fun _ _ => Except.error "no such key"

/-- Example group: budget 4, loader `exBadGetter`, no peers. -/
def exBadGroup : Group :=
  { name := "g", getter := exBadGetter, mainCache := { cacheBytes := 4, lru := none },
    peers := none, log := [] }

end geecache

/-! ## Theorems -/

/-! ### `int64` arithmetic -/

theorem int64_modEq (x : Int) : int64 x ≡ x [ZMOD 2 ^ 64] := by
  unfold int64
  have h : (x + 2 ^ 63) % 2 ^ 64 ≡ x + 2 ^ 63 [ZMOD 2 ^ 64] := Int.mod_modEq _ _
  have := h.sub_right (2 ^ 63)
  simpa using this

theorem int64_congr {a b : Int} (h : a ≡ b [ZMOD 2 ^ 64]) : int64 a = int64 b := by
  unfold int64
  have : (a + 2 ^ 63) % 2 ^ 64 = (b + 2 ^ 63) % 2 ^ 64 := h.add_right _
  rw [this]

theorem int64_lower (x : Int) : -2 ^ 63 ≤ int64 x := by
  unfold int64
  have := Int.emod_nonneg (x + 2 ^ 63) (show (2 : Int) ^ 64 ≠ 0 by norm_num)
  omega

theorem int64_upper (x : Int) : int64 x < 2 ^ 63 := by
  unfold int64
  have := Int.emod_lt_of_pos (x + 2 ^ 63) (show (0 : Int) < 2 ^ 64 by norm_num)
  omega

theorem int64_of_range {x : Int} (h1 : -2 ^ 63 ≤ x) (h2 : x < 2 ^ 63) : int64 x = x := by
  unfold int64
  rw [Int.emod_eq_of_lt (by omega) (by omega)]
  omega

theorem int64_add_left (a b : Int) : int64 (int64 a + b) = int64 (a + b) :=
  int64_congr ((int64_modEq a).add_right b)

theorem int64_add_right (a b : Int) : int64 (a + int64 b) = int64 (a + b) :=
  int64_congr ((int64_modEq b).add_left a)

theorem int64_sub_left (a b : Int) : int64 (int64 a - b) = int64 (a - b) :=
  int64_congr ((int64_modEq a).sub_right b)

theorem int64_sub_right (a b : Int) : int64 (a - int64 b) = int64 (a - b) :=
  int64_congr ((int64_modEq b).sub_left a)

theorem int64_idem (a : Int) : int64 (int64 a) = int64 a :=
  int64_congr (int64_modEq a)

theorem int64_zero : int64 0 = 0 := by decide

namespace lru

variable {V : Type}

/-! ### Recency-list facts -/

theorem entryBytes_eq [Value V] (e : Element V) :
    entryBytes e.Value.key e.Value.value = int64 (size e) := by
  unfold entryBytes size
  rw [int64_add_left, int64_add_right]

theorem sizeSum_nil [Value V] : sizeSum ([] : List (Element V)) = 0 := rfl

theorem sizeSum_cons [Value V] (e : Element V) (l : List (Element V)) :
    sizeSum (e :: l) = size e + sizeSum l := by
  simp [sizeSum]

theorem sizeSum_append [Value V] (l₁ l₂ : List (Element V)) :
    sizeSum (l₁ ++ l₂) = sizeSum l₁ + sizeSum l₂ := by
  simp [sizeSum]

theorem sizeSum_perm [Value V] {l₁ l₂ : List (Element V)} (h : l₁.Perm l₂) :
    sizeSum l₁ = sizeSum l₂ :=
  (h.map size).sum_eq

theorem deref_some {l : List (Element V)} {p : Nat} {e : Element V}
    (h : deref l p = some e) : e ∈ l ∧ e.ptr = p := by
  unfold deref at h
  refine ⟨List.mem_of_find?_eq_some h, ?_⟩
  simpa using List.find?_some h

/-- With distinct pointers, an element splits the list around itself, is what
its pointer dereferences to, and is what filtering on its pointer removes. -/
theorem split_at {l : List (Element V)} (hn : (l.map (fun e => e.ptr)).Nodup)
    {e : Element V} (he : e ∈ l) :
    ∃ l₁ l₂, l = l₁ ++ e :: l₂ ∧ deref l e.ptr = some e ∧
      l.filter (fun x => x.ptr != e.ptr) = l₁ ++ l₂ := by
  obtain ⟨l₁, l₂, rfl⟩ := List.append_of_mem he
  refine ⟨l₁, l₂, rfl, ?_, ?_⟩
  all_goals
    rw [List.map_append, List.map_cons, List.nodup_middle, List.nodup_cons] at hn
    have h1 : ∀ x ∈ l₁, x.ptr ≠ e.ptr := fun x hx hxe =>
      hn.1 (by rw [← hxe]; exact List.mem_append_left _ (List.mem_map_of_mem _ hx))
    have h2 : ∀ x ∈ l₂, x.ptr ≠ e.ptr := fun x hx hxe =>
      hn.1 (by rw [← hxe]; exact List.mem_append_right _ (List.mem_map_of_mem _ hx))
  · unfold deref
    rw [List.find?_append]
    have : l₁.find? (fun x => x.ptr == e.ptr) = none := by
      rw [List.find?_eq_none]
      intro x hx
      simpa using h1 x hx
    simp [this]
  · rw [List.filter_append, List.filter_cons]
    have f1 : l₁.filter (fun x => x.ptr != e.ptr) = l₁ :=
      List.filter_eq_self.2 (fun x hx => by simpa using h1 x hx)
    have f2 : l₂.filter (fun x => x.ptr != e.ptr) = l₂ :=
      List.filter_eq_self.2 (fun x hx => by simpa using h2 x hx)
    simp [f1, f2]

theorem lookup_mapDelete (m : List (String × Nat)) (key k : String) :
    (mapDelete m key).lookup k = if k = key then none else m.lookup k := by
  unfold mapDelete
  induction m with
  | nil => simp
  | cons a m ih =>
    obtain ⟨a1, a2⟩ := a
    by_cases h : a1 = key
    · subst h
      rw [List.filter_cons]
      simp only [bne_self_eq_false, Bool.false_eq_true, if_false]
      rw [ih, List.lookup_cons]
      by_cases hk : k = a1
      · simp [hk]
      · have : (k == a1) = false := by simpa using hk
        simp [this, hk]
    · rw [List.filter_cons]
      have : (a1 != key) = true := by simpa using h
      simp only [this, if_true]
      rw [List.lookup_cons, List.lookup_cons, ih]
      by_cases hk : k = a1
      · subst hk
        simp [h]
      · have : (k == a1) = false := by simpa using hk
        simp [this]

/-! ### Normal forms of the operations on a well-formed cache -/

theorem Inv_lookup_of_mem [Value V] {c : Cache V} (h : Inv c) {e : Element V}
    (he : e ∈ c.ll) : c.cache.lookup e.Value.key = some e.ptr :=
  (h.index _ _).2 ⟨e, he, rfl, rfl⟩

theorem Inv_lookup_none [Value V] {c : Cache V} (h : Inv c) {k : String}
    (hk : k ∉ keysOf c.ll) : c.cache.lookup k = none := by
  cases hl : c.cache.lookup k with
  | none => rfl
  | some p =>
    obtain ⟨e, he, _, hek⟩ := (h.index k p).1 hl
    exact absurd (by rw [← hek]; exact List.mem_map_of_mem _ he) hk

theorem Inv_mem_of_lookup [Value V] {c : Cache V} (h : Inv c) {k : String} {p : Nat}
    (hl : c.cache.lookup k = some p) : k ∈ keysOf c.ll := by
  obtain ⟨e, he, _, hek⟩ := (h.index k p).1 hl
  rw [← hek]
  exact List.mem_map_of_mem _ he

/-- Pointer facts at a known position of the list. -/
theorem at_pos {l l₁ l₂ : List (Element V)} (hn : (l.map (fun e => e.ptr)).Nodup)
    {e : Element V} (hl : l = l₁ ++ e :: l₂) :
    deref l e.ptr = some e ∧ l.filter (fun x => x.ptr != e.ptr) = l₁ ++ l₂ := by
  subst hl
  obtain ⟨m₁, m₂, hm, hd, hf⟩ := split_at hn (e := e) (by simp)
  refine ⟨hd, ?_⟩
  rw [List.map_append, List.map_cons, List.nodup_middle, List.nodup_cons] at hn
  rw [List.filter_append, List.filter_cons]
  have f1 : l₁.filter (fun x => x.ptr != e.ptr) = l₁ :=
    List.filter_eq_self.2 (fun x hx => by
      have : x.ptr ≠ e.ptr := fun hxe =>
        hn.1 (by rw [← hxe]; exact List.mem_append_left _ (List.mem_map_of_mem _ hx))
      simpa using this)
  have f2 : l₂.filter (fun x => x.ptr != e.ptr) = l₂ :=
    List.filter_eq_self.2 (fun x hx => by
      have : x.ptr ≠ e.ptr := fun hxe =>
        hn.1 (by rw [← hxe]; exact List.mem_append_right _ (List.mem_map_of_mem _ hx))
      simpa using this)
  simp [f1, f2]

theorem Get_hit [Value V] {c : Cache V} (h : Inv c) {l₁ l₂ : List (Element V)}
    {e : Element V} (hl : c.ll = l₁ ++ e :: l₂) :
    Get c e.Value.key = ({ c with ll := e :: (l₁ ++ l₂) }, some e.Value.value) := by
  have he : e ∈ c.ll := by rw [hl]; simp
  obtain ⟨hd, hf⟩ := at_pos h.ptrs hl
  unfold Get MoveToFront
  rw [Inv_lookup_of_mem h he]
  simp only [hd, hf]

theorem Get_miss [Value V] {c : Cache V} (h : Inv c) {k : String}
    (hk : k ∉ keysOf c.ll) : Get c k = (c, none) := by
  unfold Get
  rw [Inv_lookup_none h hk]

theorem RemoveOldest_nil [Value V] {c : Cache V} (hl : c.ll = []) : RemoveOldest c = c := by
  unfold RemoveOldest
  rw [hl]
  rfl

theorem RemoveOldest_snoc [Value V] {c : Cache V} (h : Inv c) {l : List (Element V)}
    {e : Element V} (hl : c.ll = l ++ [e]) :
    RemoveOldest c =
      { c with
        ll := l
        cache := mapDelete c.cache e.Value.key
        nbytes := int64 (c.nbytes - entryBytes e.Value.key e.Value.value)
        evicted :=
          if c.OnEvicted then c.evicted ++ [(e.Value.key, e.Value.value)]
          else c.evicted } := by
  have hlast : c.ll.getLast? = some e := by rw [hl]; simp
  have hrem : Remove c.ll e.ptr = l := by
    have hn := h.ptrs
    rw [hl, List.map_append, List.nodup_append] at hn
    unfold Remove
    rw [hl, List.filter_append]
    have f1 : l.filter (fun x => x.ptr != e.ptr) = l :=
      List.filter_eq_self.2 (fun x hx => by
        have : x.ptr ≠ e.ptr := fun hxe =>
          hn.2.2 (List.mem_map_of_mem _ hx) (by rw [hxe]; simp)
        simpa using this)
    simp [f1]
  unfold RemoveOldest
  rw [hlast]
  simp only [hrem]

theorem Add_store_hit [Value V] {c : Cache V} (h : Inv c) {l₁ l₂ : List (Element V)}
    {e : Element V} (hl : c.ll = l₁ ++ e :: l₂) (value : V) :
    Add_store c e.Value.key value =
      { c with
        ll := { ptr := e.ptr, Value := { key := e.Value.key, value := value } } :: (l₁ ++ l₂)
        nbytes := int64 (c.nbytes +
          int64 (int64 (Value.Len value) - int64 (Value.Len e.Value.value))) } := by
  have he : e ∈ c.ll := by rw [hl]; simp
  obtain ⟨hd, hf⟩ := at_pos h.ptrs hl
  unfold Add_store
  rw [Inv_lookup_of_mem h he]
  simp only [hd, hf]

theorem Add_store_miss [Value V] {c : Cache V} (h : Inv c) {key : String}
    (hk : key ∉ keysOf c.ll) (value : V) :
    Add_store c key value =
      { c with
        ll := { ptr := c.nextPtr, Value := { key := key, value := value } } :: c.ll
        cache := (key, c.nextPtr) :: c.cache
        nbytes := int64 (c.nbytes + entryBytes key value)
        nextPtr := c.nextPtr + 1 } := by
  unfold Add_store
  rw [Inv_lookup_none h hk]

/-! ### The representation invariant holds in every reachable state -/

theorem mem_keysOf {l : List (Element V)} {k : String} (hk : k ∈ keysOf l) :
    ∃ e l₁ l₂, l = l₁ ++ e :: l₂ ∧ e.Value.key = k := by
  unfold keysOf at hk
  obtain ⟨e, he, hek⟩ := List.mem_map.1 hk
  obtain ⟨l₁, l₂, hl⟩ := List.append_of_mem he
  exact ⟨e, l₁, l₂, hl, hek⟩

/-- The structural part of the invariant only depends on the key/pointer pairs
of the list, up to reordering. -/
theorem Inv_of_perm [Value V] {c c' : Cache V} (h : Inv c)
    (hp : (c'.ll.map (fun e => (e.Value.key, e.ptr))).Perm
      (c.ll.map (fun e => (e.Value.key, e.ptr))))
    (hc : c'.cache = c.cache) (hn : c.nextPtr ≤ c'.nextPtr)
    (hb : c'.nbytes = total c'.ll) : Inv c' := by
  have hmem : ∀ k p, (∃ e ∈ c'.ll, e.ptr = p ∧ e.Value.key = k) ↔
      (∃ e ∈ c.ll, e.ptr = p ∧ e.Value.key = k) := by
    intro k p
    have := hp.mem_iff (a := (k, p))
    simp only [List.mem_map, Prod.mk.injEq] at this
    constructor
    · rintro ⟨e, he, h1, h2⟩
      obtain ⟨e0, he0, h3, h4⟩ := this.1 ⟨e, he, h2, h1⟩
      exact ⟨e0, he0, h4, h3⟩
    · rintro ⟨e, he, h1, h2⟩
      obtain ⟨e0, he0, h3, h4⟩ := this.2 ⟨e, he, h2, h1⟩
      exact ⟨e0, he0, h4, h3⟩
  refine ⟨?_, ?_, ?_, ?_, hb⟩
  · have h1 := hp.map Prod.snd
    simp only [List.map_map] at h1
    exact (h1.nodup_iff).2 h.ptrs
  · have h1 := hp.map Prod.fst
    simp only [List.map_map] at h1
    exact (h1.nodup_iff).2 h.keys
  · intro k p
    rw [hc, h.index, hmem]
  · intro e he
    obtain ⟨e0, he0, h1, _⟩ := (hmem e.Value.key e.ptr).1 ⟨e, he, rfl, rfl⟩
    have := h.fresh e0 he0
    omega

theorem Inv_New [Value V] (maxBytes : Int) (onEvicted : Bool) :
    Inv (New maxBytes onEvicted : Cache V) := by
  refine ⟨by simp [New], by simp [New, keysOf], ?_, by simp [New], ?_⟩
  · intro k p
    simp [New]
  · simp [New, total, sizeSum, int64_zero]

theorem Inv_Get [Value V] {c : Cache V} (h : Inv c) (key : String) : Inv (Get c key).1 := by
  by_cases hk : key ∈ keysOf c.ll
  · obtain ⟨e, l₁, l₂, hl, rfl⟩ := mem_keysOf hk
    rw [Get_hit h hl]
    refine Inv_of_perm h ?_ rfl (le_refl _) ?_
    · simp only [hl]
      exact (List.perm_middle.symm).map _
    · show c.nbytes = total (e :: (l₁ ++ l₂))
      rw [h.bytes, hl]
      unfold total
      rw [sizeSum_perm (@List.perm_middle _ e l₁ l₂)]
  · rw [Get_miss h hk]
    exact h

theorem Inv_RemoveOldest [Value V] {c : Cache V} (h : Inv c) : Inv (RemoveOldest c) := by
  rcases List.eq_nil_or_concat c.ll with hl | ⟨l, e, hl⟩
  · rw [RemoveOldest_nil hl]
    exact h
  · rw [List.concat_eq_append] at hl
    rw [RemoveOldest_snoc h hl]
    have hp := h.ptrs
    have hk := h.keys
    unfold keysOf at hk
    rw [hl, List.map_append, List.nodup_append] at hp hk
    refine ⟨hp.1, hk.1, ?_, ?_, ?_⟩
    · intro k p
      show (mapDelete c.cache e.Value.key).lookup k = some p ↔ _
      rw [lookup_mapDelete]
      by_cases hke : k = e.Value.key
      · subst hke
        simp only [if_true]
        constructor
        · intro h0
          cases h0
        · rintro ⟨e0, he0, _, h2⟩
          exact (hk.2.2 (List.mem_map_of_mem _ he0) (by rw [h2]; simp)).elim
      · simp only [hke, if_false]
        rw [h.index, hl]
        constructor
        · rintro ⟨e0, he0, h1, h2⟩
          rcases List.mem_append.1 he0 with h3 | h3
          · exact ⟨e0, h3, h1, h2⟩
          · simp only [List.mem_singleton] at h3
            subst h3
            exact absurd h2.symm hke
        · rintro ⟨e0, he0, h1, h2⟩
          exact ⟨e0, List.mem_append_left _ he0, h1, h2⟩
    · intro e0 he0
      exact h.fresh e0 (by rw [hl]; exact List.mem_append_left _ he0)
    · show int64 (c.nbytes - entryBytes e.Value.key e.Value.value) = total l
      rw [h.bytes, hl, entryBytes_eq]
      unfold total
      rw [int64_sub_left, int64_sub_right, sizeSum_append, sizeSum_cons, sizeSum_nil]
      congr 1
      ring

theorem Inv_Add_store [Value V] {c : Cache V} (h : Inv c) (key : String) (value : V) :
    Inv (Add_store c key value) := by
  by_cases hk : key ∈ keysOf c.ll
  · obtain ⟨e, l₁, l₂, hl, rfl⟩ := mem_keysOf hk
    rw [Add_store_hit h hl]
    refine Inv_of_perm h ?_ rfl (le_refl _) ?_
    · simp only [hl]
      have := (@List.perm_middle _ e l₁ l₂).symm.map
        (fun e : Element V => (e.Value.key, e.ptr))
      simpa using this
    · show int64 (c.nbytes +
          int64 (int64 (Value.Len value) - int64 (Value.Len e.Value.value))) =
        total ({ ptr := e.ptr, Value := { key := e.Value.key, value := value } } :: (l₁ ++ l₂))
      rw [h.bytes, hl]
      unfold total
      rw [int64_add_left, int64_add_right]
      apply int64_congr
      have h1 := ((int64_modEq (Value.Len value)).sub
        (int64_modEq (Value.Len e.Value.value))).add_left (sizeSum (l₁ ++ e :: l₂))
      refine h1.trans ?_
      rw [sizeSum_perm (@List.perm_middle _ e l₁ l₂),
        sizeSum_cons, sizeSum_cons]
      simp only [size]
      have : ∀ a b k s : Int, k + b + s + (a - b) = k + a + s := by intros; ring
      rw [this]
  · rw [Add_store_miss h hk]
    refine ⟨?_, ?_, ?_, ?_, ?_⟩
    · simp only [List.map_cons, List.nodup_cons]
      refine ⟨?_, h.ptrs⟩
      intro hm
      obtain ⟨e0, he0, h1⟩ := List.mem_map.1 hm
      have := h.fresh e0 he0
      omega
    · simp only [keysOf, List.map_cons, List.nodup_cons]
      exact ⟨hk, h.keys⟩
    · intro k p
      show List.lookup k ((key, c.nextPtr) :: c.cache) = some p ↔ _
      rw [List.lookup_cons]
      by_cases hkk : k = key
      · subst hkk
        simp only [beq_self_eq_true, Option.some.injEq, List.mem_cons]
        constructor
        · intro hp
          exact ⟨_, Or.inl rfl, hp, rfl⟩
        · rintro ⟨e0, he0 | he0, h1, h2⟩
          · subst he0
            exact h1
          · exact absurd (by rw [← h2]; exact List.mem_map_of_mem _ he0) hk
      · have hb : (k == key) = false := by simpa using hkk
        simp only [hb, List.mem_cons]
        rw [h.index]
        constructor
        · rintro ⟨e0, he0, h1, h2⟩
          exact ⟨e0, Or.inr he0, h1, h2⟩
        · rintro ⟨e0, he0 | he0, h1, h2⟩
          · subst he0
            exact absurd h2.symm hkk
          · exact ⟨e0, he0, h1, h2⟩
    · intro e0 he0
      simp only [List.mem_cons] at he0
      rcases he0 with he0 | he0
      · subst he0
        simp
      · have := h.fresh e0 he0
        show e0.ptr < c.nextPtr + 1
        omega
    · show int64 (c.nbytes + entryBytes key value) = total _
      have hb := entryBytes_eq
        ({ ptr := c.nextPtr, Value := { key := key, value := value } } : Element V)
      simp only at hb
      rw [h.bytes, hb]
      unfold total
      rw [sizeSum_cons, int64_add_left, int64_add_right, add_comm]

theorem Inv_Add_evict [Value V] (fuel : Nat) {c c' : Cache V} (h : Inv c)
    (hr : Add_evict fuel c = some c') : Inv c' := by
  induction fuel generalizing c with
  | zero =>
    unfold Add_evict at hr
    split at hr
    · cases hr
    · cases hr
      exact h
  | succ n ih =>
    unfold Add_evict at hr
    split at hr
    · exact ih (Inv_RemoveOldest h) hr
    · cases hr
      exact h

theorem Inv_Add [Value V] {fuel : Nat} {c c' : Cache V} {key : String} {value : V}
    (h : Inv c) (hr : Add fuel c key value = some c') : Inv c' :=
  Inv_Add_evict fuel (Inv_Add_store h key value) hr

theorem inv_of_reachableFrom [Value V] {c₀ c : Cache V} (h : ReachableFrom c₀ c)
    (h₀ : Inv c₀) : Inv c := by
  induction h with
  | start => exact h₀
  | get c key _ ih => exact Inv_Get ih key
  | add c c' fuel key value _ hr ih => exact Inv_Add ih hr
  | removeOldest c _ ih => exact Inv_RemoveOldest ih

theorem inv_of_reachable [Value V] {c : Cache V} (h : Reachable c) : Inv c := by
  obtain ⟨maxBytes, onEvicted, hr⟩ := h
  exact inv_of_reachableFrom hr (Inv_New maxBytes onEvicted)

/-! ### The eviction loop -/

theorem overBudget_iff [Value V] (c : Cache V) :
    overBudget c = true ↔ c.maxBytes ≠ 0 ∧ c.maxBytes < c.nbytes := by
  simp [overBudget]

theorem Evicts_refl [Value V] {c : Cache V} (h : Inv c) (hf : overBudget c = false) :
    Evicts c c c.ll.length := by
  refine ⟨le_refl _, by simp, ?_, ?_, rfl, rfl, rfl, ?_, hf, ?_⟩
  · simp [pairsOf]
  · simp [keysOf]
  · rw [List.take_length]
    exact h.bytes
  · intro m h1 h2
    omega

theorem RemoveOldest_fields [Value V] (c : Cache V) :
    (RemoveOldest c).maxBytes = c.maxBytes ∧ (RemoveOldest c).OnEvicted = c.OnEvicted ∧
      (RemoveOldest c).nextPtr = c.nextPtr := by
  unfold RemoveOldest
  split <;> simp

theorem Add_evict_char [Value V] (fuel : Nat) {c c' : Cache V} (h : Inv c)
    (hr : Add_evict fuel c = some c') : ∃ n, Evicts c c' n := by
  induction fuel generalizing c with
  | zero =>
    unfold Add_evict at hr
    split at hr
    case isTrue => cases hr
    case isFalse hob =>
      cases hr
      exact ⟨_, Evicts_refl h (by simpa using hob)⟩
  | succ k ih =>
    unfold Add_evict at hr
    split at hr
    case isFalse hob =>
      cases hr
      exact ⟨_, Evicts_refl h (by simpa using hob)⟩
    case isTrue hob =>
      rcases List.eq_nil_or_concat c.ll with hl | ⟨l, e, hl⟩
      · rw [RemoveOldest_nil hl] at hr
        exact ih h hr
      · rw [List.concat_eq_append] at hl
        obtain ⟨n, hn⟩ := ih (Inv_RemoveOldest h) hr
        have hro := RemoveOldest_snoc h hl
        rw [hro] at hn
        have hle : n ≤ l.length := hn.le
        have htake : ∀ m, m ≤ l.length → c.ll.take m = l.take m := by
          intro m hm
          rw [hl, List.take_append_of_le_length hm]
        have hdrop : c.ll.drop n = l.drop n ++ [e] := by
          rw [hl, List.drop_append_of_le_length hle]
        refine ⟨n, ?_, ?_, ?_, ?_, hn.maxBytes, hn.OnEvicted, hn.nextPtr, ?_, hn.fits, ?_⟩
        · rw [hl, List.length_append]
          simp only [List.length_singleton]
          omega
        · rw [htake n hle]
          exact hn.ll
        · rw [hn.evicted, hdrop]
          show (if c.OnEvicted then c.evicted ++ [(e.Value.key, e.Value.value)]
              else c.evicted) ++ (if c.OnEvicted then pairsOf (l.drop n).reverse else []) = _
          cases c.OnEvicted <;> simp [pairsOf]
        · rw [hn.cache, hdrop]
          simp [keysOf]
        · rw [htake n hle]
          exact hn.nbytes
        · intro m h1 h2
          rw [hl, List.length_append] at h2
          simp only [List.length_singleton] at h2
          by_cases hm : m ≤ l.length
          · rw [htake m hm]
            exact hn.longest m h1 hm
          · have hm' : m = c.ll.length := by
              rw [hl, List.length_append]
              simp only [List.length_singleton]
              omega
            rw [hm', List.take_length, ← h.bytes]
            exact (overBudget_iff c).1 hob

theorem Add_evict_total [Value V] (fuel : Nat) {c : Cache V} (h : Inv c)
    (hb : 0 ≤ c.maxBytes) (hf : c.ll.length ≤ fuel) : ∃ c', Add_evict fuel c = some c' := by
  induction fuel generalizing c with
  | zero =>
    have hl : c.ll = [] := List.length_eq_zero.1 (by omega)
    have hnb : c.nbytes = 0 := by
      rw [h.bytes, hl]
      simp [total, sizeSum, int64_zero]
    have : overBudget c = false := by
      cases hob : overBudget c with
      | false => rfl
      | true =>
        have := ((overBudget_iff c).1 hob).2
        omega
    exact ⟨c, by simp [Add_evict, this]⟩
  | succ k ih =>
    unfold Add_evict
    split
    case isFalse => exact ⟨c, rfl⟩
    case isTrue hob =>
      rcases List.eq_nil_or_concat c.ll with hl | ⟨l, e, hl⟩
      · have hnb : c.nbytes = 0 := by
          rw [h.bytes, hl]
          simp [total, sizeSum, int64_zero]
        have := ((overBudget_iff c).1 hob).2
        omega
      · rw [List.concat_eq_append] at hl
        refine ih (Inv_RemoveOldest h) ?_ ?_
        · rw [(RemoveOldest_fields c).1]
          exact hb
        · rw [RemoveOldest_snoc h hl]
          have : c.ll.length = l.length + 1 := by rw [hl]; simp
          show l.length ≤ k
          omega

theorem lookup_foldl_mapDelete (ks : List String) (m : List (String × Nat)) (k : String) :
    (ks.foldl mapDelete m).lookup k = if k ∈ ks then none else m.lookup k := by
  induction ks generalizing m with
  | nil => simp
  | cons a ks ih =>
    rw [List.foldl_cons, ih, lookup_mapDelete]
    by_cases h1 : k ∈ ks
    · simp [h1]
    · by_cases h2 : k = a
      · simp [h2]
      · simp [h1, h2]

theorem maxBytes_of_reachableFrom [Value V] {c₀ c : Cache V} (h : ReachableFrom c₀ c)
    (h₀ : Inv c₀) : c.maxBytes = c₀.maxBytes := by
  induction h with
  | start => rfl
  | get c key hc ih =>
    rw [← ih]
    unfold Get
    split
    · split <;> rfl
    · rfl
  | add c c' fuel key value hc hr ih =>
    obtain ⟨n, hn⟩ := Add_evict_char fuel (Inv_Add_store (inv_of_reachableFrom hc h₀) key value) hr
    rw [hn.maxBytes, ← ih]
    unfold Add_store
    split
    · split <;> rfl
    · rfl
  | removeOldest c _ ih => rw [(RemoveOldest_fields c).1, ih]

theorem Add_store_fields [Value V] (c : Cache V) (key : String) (value : V) :
    (Add_store c key value).maxBytes = c.maxBytes ∧
      (Add_store c key value).OnEvicted = c.OnEvicted ∧
      (Add_store c key value).evicted = c.evicted ∧
      (Add_store c key value).ll.length ≤ c.ll.length + 1 := by
  unfold Add_store
  split
  · split
    · refine ⟨rfl, rfl, rfl, ?_⟩
      simp only [List.length_cons]
      exact Nat.succ_le_succ (List.length_filter_le _ _)
    · exact ⟨rfl, rfl, rfl, by omega⟩
  · exact ⟨rfl, rfl, rfl, by simp⟩

theorem exCache_reachableFrom : ReachableFrom (New 18 true) exCache :=
  ReachableFrom.add exCache1 exCache 3 "k2" ⟨"v2", 6⟩
    (ReachableFrom.add (New 18 true) exCache1 2 "k1" ⟨"v1", 6⟩ ReachableFrom.start
      (by decide))
    (by decide)

theorem exCache_reachable : Reachable exCache := ⟨18, true, exCache_reachableFrom⟩

/-! ### Claims about the eviction cache -/

theorem sizeSum_nonneg [Value V] {l : List (Element V)} (h : ∀ e ∈ l, 0 ≤ size e) :
    0 ≤ sizeSum l := by
  induction l with
  | nil => simp [sizeSum]
  | cons a l ih =>
    rw [sizeSum_cons]
    have h1 := h a (by simp)
    have h2 := ih (fun e he => h e (List.mem_cons_of_mem _ he))
    omega

theorem sizeSum_take_le [Value V] {l : List (Element V)} (h : ∀ e ∈ l, 0 ≤ size e)
    (m : Nat) : sizeSum (l.take m) ≤ sizeSum l := by
  have h1 : sizeSum l = sizeSum (l.take m) + sizeSum (l.drop m) := by
    rw [← sizeSum_append, List.take_append_drop]
  have h2 := sizeSum_nonneg (l := l.drop m) (fun e he => h e (List.mem_of_mem_drop he))
  omega

theorem total_eq_sizeSum [Value V] {l : List (Element V)} (h0 : 0 ≤ sizeSum l)
    (h1 : sizeSum l < 2 ^ 63) : total l = sizeSum l :=
  int64_of_range (by omega) h1

/-- A direct `RemoveOldest` does not raise `nbytes` when the entry sizes are
non-negative and their sum fits in 64 bits. -/
theorem RemoveOldest_nbytes_le [Value V] {c : Cache V} (h : Inv c)
    (hnn : ∀ e ∈ c.ll, 0 ≤ size e) (hfit : sizeSum c.ll < 2 ^ 63) :
    (RemoveOldest c).nbytes ≤ c.nbytes := by
  rcases List.eq_nil_or_concat c.ll with hl | ⟨l, e, hl⟩
  · rw [RemoveOldest_nil hl]
  · rw [List.concat_eq_append] at hl
    have h1 := (Inv_RemoveOldest h).bytes
    rw [RemoveOldest_snoc h hl] at h1 ⊢
    simp only at h1 ⊢
    have hl0 : 0 ≤ sizeSum l :=
      sizeSum_nonneg (fun x hx => hnn x (by rw [hl]; exact List.mem_append_left _ hx))
    have he0 : 0 ≤ size e := hnn e (by rw [hl]; simp)
    have hsum : sizeSum c.ll = sizeSum l + size e := by
      rw [hl, sizeSum_append, sizeSum_cons, sizeSum_nil, add_zero]
    rw [h1, h.bytes, total_eq_sizeSum hl0 (by omega), total_eq_sizeSum (by omega) hfit]
    omega

/-- C2: in every cache reachable from `New` by `Get`, `Add` and `RemoveOldest`
calls, `nbytes` is the `int64` sum of `len(key) + value.Len()` over the entries
of the recency list; it is the exact integer sum whenever that sum fits in 64
bits. -/
theorem lru_nbytes_eq_sum [Value V] (c : Cache V) (hc : Reachable c) :
    c.nbytes = int64 (sizeSum c.ll) ∧
      (-2 ^ 63 ≤ sizeSum c.ll → sizeSum c.ll < 2 ^ 63 → c.nbytes = sizeSum c.ll) := by
  have hb := (inv_of_reachable hc).bytes
  unfold total at hb
  refine ⟨hb, fun h1 h2 => ?_⟩
  rw [hb, int64_of_range h1 h2]

theorem lru_nbytes_eq_sum_witness :
    Reachable exCache ∧ exCache.nbytes = int64 (sizeSum exCache.ll) ∧
      exCache.nbytes = sizeSum exCache.ll :=
  ⟨exCache_reachable, (lru_nbytes_eq_sum exCache exCache_reachable).1,
    (lru_nbytes_eq_sum exCache exCache_reachable).2 (by decide) (by decide)⟩

/-- When the loop has stopped on a bounded cache, the cache is within budget. -/
theorem le_of_fits [Value V] {c : Cache V} (h0 : c.maxBytes ≠ 0)
    (hf : overBudget c = false) : c.nbytes ≤ c.maxBytes := by
  cases hob : decide (c.maxBytes < c.nbytes) with
  | false =>
    have := of_decide_eq_false hob
    omega
  | true => simp [overBudget, hob, h0] at hf

/-- Totality of `Add`: on a well-formed cache with a non-negative budget it
returns, and what it returns is described by `Evicts` from the state after the
insert/promote step. -/
theorem Add_evicts [Value V] {c : Cache V} (h : Inv c) (hb : 0 ≤ c.maxBytes)
    (key : String) (value : V) (fuel : Nat) (hf : c.ll.length + 1 ≤ fuel) :
    ∃ c' n, Add fuel c key value = some c' ∧ Evicts (Add_store c key value) c' n := by
  have hs := Inv_Add_store h key value
  have hfl := Add_store_fields c key value
  obtain ⟨c', hr⟩ := Add_evict_total fuel hs (by rw [hfl.1]; exact hb) (by omega)
  obtain ⟨n, hn⟩ := Add_evict_char fuel hs hr
  exact ⟨c', n, hr, hn⟩

/-- C3: on a reachable cache with budget `> 0`, `Add(key, value)` returns a cache
whose recency list is a prefix (the `n` most recent elements) of the list as it
stands right after the insert/promote step `Add_store`; that prefix is the
longest one whose total size is at most the budget (`total` is the sum as the
program computes it, in `int64`; it is the exact sum whenever that fits in 64
bits, see `total_eq_sizeSum`); the evicted elements, the
remaining suffix, are no longer in the key index while the index of the
survivors is untouched; and the callback log grows, when the callback is set,
by the evicted key/value pairs in least-recent-first order, each exactly once. -/
theorem lru_Add_keeps_longest_prefix [Value V] (c : Cache V) (hc : Reachable c)
    (hb : 0 < c.maxBytes) (key : String) (value : V) (fuel : Nat)
    (hf : c.ll.length + 1 ≤ fuel) :
    ∃ c' n, Add fuel c key value = some c' ∧
      n ≤ (Add_store c key value).ll.length ∧
      c'.ll = (Add_store c key value).ll.take n ∧
      total ((Add_store c key value).ll.take n) ≤ c.maxBytes ∧
      (∀ m, n < m → m ≤ (Add_store c key value).ll.length →
        c.maxBytes < total ((Add_store c key value).ll.take m)) ∧
      (∀ k, c'.cache.lookup k =
        if k ∈ keysOf ((Add_store c key value).ll.drop n) then none
        else (Add_store c key value).cache.lookup k) ∧
      c'.evicted = c.evicted ++
        (if c.OnEvicted then pairsOf ((Add_store c key value).ll.drop n).reverse else []) := by
  have hi := inv_of_reachable hc
  obtain ⟨c', n, hr, hn⟩ := Add_evicts hi (le_of_lt hb) key value fuel hf
  have hfl := Add_store_fields c key value
  refine ⟨c', n, hr, hn.le, hn.ll, ?_, ?_, ?_, ?_⟩
  · have := le_of_fits (c := c') (by rw [hn.maxBytes, hfl.1]; omega) hn.fits
    rw [hn.nbytes, hn.maxBytes, hfl.1] at this
    exact this
  · intro m h1 h2
    have := (hn.longest m h1 h2).2
    rw [hfl.1] at this
    exact this
  · intro k
    rw [hn.cache, lookup_foldl_mapDelete]
    simp [keysOf]
  · rw [hn.evicted, hfl.2.1, hfl.2.2.1]

theorem lru_Add_keeps_longest_prefix_witness :
    Reachable exCache ∧ (0 : Int) < exCache.maxBytes ∧ exCache.ll.length + 1 ≤ 3 ∧
    ∃ c' n, Add 3 exCache "k3" (⟨"v3", 6⟩ : Blob) = some c' ∧
      n ≤ (Add_store exCache "k3" (⟨"v3", 6⟩ : Blob)).ll.length ∧
      c'.ll = (Add_store exCache "k3" (⟨"v3", 6⟩ : Blob)).ll.take n ∧
      total ((Add_store exCache "k3" (⟨"v3", 6⟩ : Blob)).ll.take n) ≤ exCache.maxBytes ∧
      (∀ m, n < m → m ≤ (Add_store exCache "k3" (⟨"v3", 6⟩ : Blob)).ll.length →
        exCache.maxBytes < total ((Add_store exCache "k3" (⟨"v3", 6⟩ : Blob)).ll.take m)) ∧
      (∀ k, c'.cache.lookup k =
        if k ∈ keysOf ((Add_store exCache "k3" (⟨"v3", 6⟩ : Blob)).ll.drop n) then none
        else (Add_store exCache "k3" (⟨"v3", 6⟩ : Blob)).cache.lookup k) ∧
      c'.evicted = exCache.evicted ++
        (if exCache.OnEvicted then
          pairsOf ((Add_store exCache "k3" (⟨"v3", 6⟩ : Blob)).ll.drop n).reverse
        else []) :=
  ⟨exCache_reachable, by decide, by decide,
    lru_Add_keeps_longest_prefix exCache exCache_reachable (by decide) "k3" ⟨"v3", 6⟩ 3
      (by decide)⟩

/-! ### Promotion by `Get` -/

/-- Shape of the recency list after a hit `Get(k)` followed by the
insert/promote step of `Add(k', v')` with `k' ≠ k`: the element of `k'`, then the
element of `k`, then the untouched elements of all other keys. -/
theorem Get_Add_store_shape [Value V] {c : Cache V} (h : Inv c) {k k' : String}
    (hk : k ∈ keysOf c.ll) (hne : k' ≠ k) (v' : V) :
    ∃ hd ek t, (Add_store (Get c k).1 k' v').ll = hd :: ek :: t ∧
      hd.Value.key = k' ∧ ek.Value.key = k ∧ ek ∈ c.ll ∧
      (∀ e, e ∈ t ↔ e ∈ c.ll ∧ e.Value.key ≠ k ∧ e.Value.key ≠ k') ∧
      (Add_store (Get c k).1 k' v').nbytes = (Add_store c k' v').nbytes ∧
      (Add_store (Get c k).1 k' v').maxBytes = c.maxBytes ∧
      (Get c k).1.ll.head? = some ek ∧ (∀ e ∈ t, e ∈ (Get c k).1.ll.tail) := by
  obtain ⟨ek, l₁, l₂, hl, rfl⟩ := mem_keysOf hk
  have hi1 := Inv_Get h ek.Value.key
  rw [Get_hit h hl] at hi1 ⊢
  simp only at hi1 ⊢
  have hkeys := h.keys
  unfold keysOf at hkeys
  rw [hl, List.map_append, List.map_cons, List.nodup_middle, ← List.map_append,
    List.nodup_cons] at hkeys
  have hmemc : ∀ e, e ∈ c.ll ↔ e = ek ∨ e ∈ l₁ ++ l₂ := by
    intro e
    rw [hl]
    simp only [List.mem_append, List.mem_cons]
    tauto
  by_cases hk' : k' ∈ keysOf (ek :: (l₁ ++ l₂))
  · obtain ⟨e', m₁, m₂, hm, rfl⟩ := mem_keysOf hk'
    cases m₁ with
    | nil =>
      simp only [List.nil_append, List.cons.injEq] at hm
      exact absurd (by rw [hm.1]) hne
    | cons a m₁ =>
      simp only [List.cons_append, List.cons.injEq] at hm
      obtain ⟨rfl, hm⟩ := hm
      have hs := @Add_store_hit V _ _ hi1 (ek :: m₁) m₂ e' (by simp [hm]) v'
      have he'c : e' ∈ c.ll := (hmemc e').2 (Or.inr (by rw [hm]; simp))
      obtain ⟨a₁, a₂, ha⟩ := List.append_of_mem he'c
      have hs' := Add_store_hit h ha v'
      rw [hs, hs']
      refine ⟨_, ek, m₁ ++ m₂, rfl, rfl, rfl, (hmemc ek).2 (Or.inl rfl), ?_, rfl, rfl, rfl, ?_⟩
      rotate_left
      · intro e he
        show e ∈ l₁ ++ l₂
        rw [hm]
        simp only [List.mem_append, List.mem_cons] at he ⊢
        tauto
      have hk2 := hkeys.2
      rw [hm, List.map_append, List.map_cons, List.nodup_middle, ← List.map_append,
        List.nodup_cons] at hk2
      intro e
      rw [hmemc e, hm]
      constructor
      · intro he
        refine ⟨Or.inr (by simp only [List.mem_append, List.mem_cons] at he ⊢; tauto), ?_, ?_⟩
        · intro hek
          apply hkeys.1
          rw [← hek, hm]
          apply List.mem_map_of_mem
          simp only [List.mem_append, List.mem_cons] at he ⊢
          tauto
        · intro hek
          apply hk2.1
          rw [← hek]
          exact List.mem_map_of_mem _ he
      · rintro ⟨he | he, h1, h2⟩
        · subst he
          exact absurd rfl h1
        · simp only [List.mem_append, List.mem_cons] at he ⊢
          rcases he with he | he | he
          · exact Or.inl he
          · subst he
            exact absurd rfl h2
          · exact Or.inr he
  · have hk'c : k' ∉ keysOf c.ll := by
      intro hmem
      apply hk'
      unfold keysOf at hmem ⊢
      obtain ⟨e, he, hek⟩ := List.mem_map.1 hmem
      rw [← hek]
      apply List.mem_map_of_mem
      rcases (hmemc e).1 he with h1 | h1
      · subst h1
        simp
      · exact List.mem_cons_of_mem _ h1
    have hs := Add_store_miss hi1 hk' v'
    have hs' := Add_store_miss h hk'c v'
    rw [hs, hs']
    refine ⟨_, ek, l₁ ++ l₂, rfl, rfl, rfl, (hmemc ek).2 (Or.inl rfl), ?_, rfl, rfl, rfl,
      fun e he => he⟩
    intro e
    rw [hmemc e]
    constructor
    · intro he
      refine ⟨Or.inr he, ?_, ?_⟩
      · intro hek
        apply hkeys.1
        rw [← hek]
        exact List.mem_map_of_mem _ he
      · intro hek
        apply hk'
        rw [← hek]
        exact List.mem_map_of_mem _ (List.mem_cons_of_mem _ he)
    · rintro ⟨he | he, h1, _⟩
      · subst he
        exact absurd rfl h1
      · exact he

theorem mem_keysOf_Add_store [Value V] {c : Cache V} (h : Inv c) (key : String) (value : V)
    (j : String) : j ∈ keysOf (Add_store c key value).ll ↔ j = key ∨ j ∈ keysOf c.ll := by
  by_cases hk : key ∈ keysOf c.ll
  · obtain ⟨e, l₁, l₂, hl, rfl⟩ := mem_keysOf hk
    rw [Add_store_hit h hl, hl]
    simp only [keysOf, List.map_cons, List.map_append, List.mem_cons, List.mem_append]
    tauto
  · rw [Add_store_miss h hk]
    simp [keysOf]

theorem hit_resident [Value V] {c : Cache V} (h : Inv c) {k : String} {v : V}
    (hit : (Get c k).2 = some v) : k ∈ keysOf c.ll := by
  by_contra hk
  rw [Get_miss h hk] at hit
  cases hit

/-- If the loop stops with fewer elements than it started with, the last element
of the starting list is gone. -/
theorem last_evicted [Value V] {c c' : Cache V} {n : Nat} (h : Inv c) (hn : Evicts c c' n)
    (hlt : n < c.ll.length) {p : List (Element V)} {e : Element V}
    (hl : c.ll = p ++ [e]) : e.Value.key ∉ keysOf c'.ll := by
  have hk := h.keys
  unfold keysOf at hk ⊢
  rw [hl, List.map_append, List.nodup_append] at hk
  rw [hn.ll, hl, List.take_append_of_le_length (by rw [hl] at hlt; simp at hlt; omega)]
  intro hmem
  obtain ⟨x, hx, hxe⟩ := List.mem_map.1 hmem
  exact hk.2.2 (List.mem_map_of_mem _ (List.mem_of_mem_take hx)) (by rw [hxe]; simp)

/-- C4 (amended): on a reachable cache, after a hit `Get(k)` the key `k` is the
most recent one, and a following `Add(k', v')` with `k' ≠ k` that returns
(1) drops `k` only if it also drops every key that was resident at the time of
the `Get`, other than `k'` itself; and
(2) whenever the same `Add` issued without the `Get` would have dropped `k` and
some key other than `k` and `k'` was resident, drops an element that is
untouched (same element as before the `Get`), belongs to a key other than `k`
and `k'`, and lies behind `k` in the recency order. -/
theorem lru_Get_promotes [Value V] (c : Cache V) (hc : Reachable c) (k k' : String)
    (v v' : V) (hit : (Get c k).2 = some v) (hne : k' ≠ k) (fuel : Nat) (c2 : Cache V)
    (hadd : Add fuel (Get c k).1 k' v' = some c2) :
    ((Get c k).1.ll.head?.map (fun e => e.Value.key) = some k) ∧
    (k ∉ keysOf c2.ll → ∀ j ∈ keysOf c.ll, j ≠ k' → j ∉ keysOf c2.ll) ∧
    (∀ fuel' c2', Add fuel' c k' v' = some c2' → k ∉ keysOf c2'.ll →
      (∃ j ∈ keysOf c.ll, j ≠ k ∧ j ≠ k') →
      ∃ e ∈ (Get c k).1.ll.tail, e ∈ c.ll ∧ e.Value.key ≠ k ∧ e.Value.key ≠ k' ∧
        e.Value.key ∉ keysOf c2.ll) := by
  have hi := inv_of_reachable hc
  have hk := hit_resident hi hit
  obtain ⟨hd, ek, t, hs, hhd, hek, hekc, ht, hnb, hmb, hhead, htail⟩ :=
    Get_Add_store_shape hi hk hne v'
  have his := Inv_Add_store (Inv_Get hi k) k' v'
  obtain ⟨n, hn⟩ := Add_evict_char fuel his hadd
  refine ⟨by rw [hhead]; simp [hek], ?_, ?_⟩
  · intro hkout j hj hjk' hjin
    have hn1 : n ≤ 1 := by
      by_contra hcon
      apply hkout
      rw [hn.ll, hs]
      obtain ⟨m, rfl⟩ : ∃ m, n = m + 2 := ⟨n - 2, by omega⟩
      simp [keysOf, hek]
    rw [hn.ll, hs] at hjin
    unfold keysOf at hjin
    obtain ⟨x, hx, hxj⟩ := List.mem_map.1 hjin
    have hx' : x ∈ [hd] := by
      have := List.mem_of_mem_take (List.take_take n 1 (hd :: ek :: t) ▸
        (by rw [Nat.min_eq_left hn1]; exact hx : x ∈ (hd :: ek :: t).take (min n 1)))
      simpa using this
    simp only [List.mem_singleton] at hx'
    apply hjk'
    rw [← hxj, hx', hhd]
  · rintro fuel' c2' hadd' hkout' ⟨j, hj, hjk, hjk'⟩
    have his' := Inv_Add_store hi k' v'
    obtain ⟨n', hn'⟩ := Add_evict_char fuel' his' hadd'
    have hlt' : n' < (Add_store c k' v').ll.length := by
      by_contra hcon
      apply hkout'
      rw [hn'.ll, List.take_of_length_le (by omega)]
      exact (mem_keysOf_Add_store hi k' v' k).2 (Or.inr hk)
    have hover := hn'.longest _ hlt' (le_refl _)
    rw [List.take_length, ← his'.bytes, ← hnb] at hover
    have hfl' := Add_store_fields c k' v'
    rw [hfl'.1, ← hmb] at hover
    have hlt : n < (Add_store (Get c k).1 k' v').ll.length := by
      by_contra hcon
      have hfit := hn.fits
      have h1 : c2.nbytes = (Add_store (Get c k).1 k' v').nbytes := by
        rw [hn.nbytes, List.take_of_length_le (by omega), ← his.bytes]
      have h2 := le_of_fits (c := c2) (by rw [hn.maxBytes]; exact hover.1) hfit
      rw [h1, hn.maxBytes] at h2
      omega
    obtain ⟨ej, hejc, hejk⟩ : ∃ e ∈ c.ll, e.Value.key = j := by
      unfold keysOf at hj
      obtain ⟨e, he, hek⟩ := List.mem_map.1 hj
      exact ⟨e, he, hek⟩
    have hejt : ej ∈ t := (ht ej).2 ⟨hejc, by rw [hejk]; exact hjk, by rw [hejk]; exact hjk'⟩
    have htne : t ≠ [] := List.ne_nil_of_mem hejt
    have hlast : t.getLast htne ∈ t := List.getLast_mem htne
    have hsplit : (Add_store (Get c k).1 k' v').ll =
        (hd :: ek :: t.dropLast) ++ [t.getLast htne] := by
      rw [hs]
      simp [List.dropLast_append_getLast htne]
    have hgone := last_evicted his hn hlt hsplit
    obtain ⟨h1, h2, h3⟩ := (ht _).1 hlast
    exact ⟨t.getLast htne, htail _ hlast, h1, h2, h3, hgone⟩

theorem lru_Get_promotes_witness :
    Reachable exCache ∧ (Get exCache "k1").2 = some (⟨"v1", 6⟩ : Blob) ∧ "k3" ≠ "k1" ∧
    Add 3 (Get exCache "k1").1 "k3" (⟨"v3", 6⟩ : Blob) =
      some { maxBytes := 18, nbytes := 16,
             ll := [⟨2, ⟨"k3", ⟨"v3", 6⟩⟩⟩, ⟨0, ⟨"k1", ⟨"v1", 6⟩⟩⟩],
             cache := [("k3", 2), ("k1", 0)],
             OnEvicted := true, evicted := [("k2", ⟨"v2", 6⟩)], nextPtr := 3 } ∧
    (Get exCache "k1").1.ll.head?.map (fun e => e.Value.key) = some "k1" ∧
    ∃ e ∈ (Get exCache "k1").1.ll.tail, e ∈ exCache.ll ∧ e.Value.key ≠ "k1" ∧
      e.Value.key ≠ "k3" ∧
      e.Value.key ∉ keysOf [(⟨2, ⟨"k3", ⟨"v3", 6⟩⟩⟩ : Element Blob), ⟨0, ⟨"k1", ⟨"v1", 6⟩⟩⟩] :=
  have h := lru_Get_promotes exCache exCache_reachable "k1" "k3" ⟨"v1", 6⟩ ⟨"v3", 6⟩
    (by decide) (by decide) 3
    { maxBytes := 18, nbytes := 16,
      ll := [⟨2, ⟨"k3", ⟨"v3", 6⟩⟩⟩, ⟨0, ⟨"k1", ⟨"v1", 6⟩⟩⟩],
      cache := [("k3", 2), ("k1", 0)],
      OnEvicted := true, evicted := [("k2", ⟨"v2", 6⟩)], nextPtr := 3 } (by decide)
  ⟨exCache_reachable, by decide, by decide, by decide, h.1,
    h.2.2 3
      { maxBytes := 18, nbytes := 16,
        ll := [⟨2, ⟨"k3", ⟨"v3", 6⟩⟩⟩, ⟨1, ⟨"k2", ⟨"v2", 6⟩⟩⟩],
        cache := [("k3", 2), ("k2", 1)],
        OnEvicted := true, evicted := [("k1", ⟨"v1", 6⟩)], nextPtr := 3 }
      (by decide) (by decide) ⟨"k2", by decide, by decide, by decide⟩⟩

/-- C4 as stated fails when the added key is itself resident: with budget 18 and
the entries `k2`, `k1` of 8 bytes each, `Get("k1")` hits, and the following
`Add("k2", w)` with a 12-byte value evicts `k1` although `k2`, resident when
`Get` was called, stays; `k1` is the only eviction, so no older entry is evicted
in its place either. -/
theorem lru_Get_promotes_counterexample :
    Reachable exCache ∧ (Get exCache "k1").2 = some (⟨"v1", 6⟩ : Blob) ∧ "k2" ≠ "k1" ∧
    ∃ c2, Add 3 (Get exCache "k1").1 "k2" (⟨"w", 12⟩ : Blob) = some c2 ∧
      "k1" ∉ keysOf c2.ll ∧
      (∃ j ∈ keysOf exCache.ll, j ≠ "k1" ∧ j ∈ keysOf c2.ll) ∧
      c2.evicted = [("k1", ⟨"v1", 6⟩)] :=
  ⟨exCache_reachable, by decide, by decide,
    { maxBytes := 18, nbytes := 14,
      ll := [⟨1, ⟨"k2", ⟨"w", 12⟩⟩⟩],
      cache := [("k2", 1)],
      OnEvicted := true, evicted := [("k1", ⟨"v1", 6⟩)], nextPtr := 2 },
    by decide, by decide, ⟨"k2", by decide, by decide, by decide⟩, by decide⟩

/-! ### Insert then read back -/

/-- After the insert/promote step the element of the added key, holding the
added value, is at the front, and the rest are old elements. -/
theorem Add_store_head [Value V] {c : Cache V} (h : Inv c) (key : String) (value : V) :
    ∃ p t, (Add_store c key value).ll = ⟨p, ⟨key, value⟩⟩ :: t ∧ (∀ e ∈ t, e ∈ c.ll) ∧
      ((∀ e ∈ c.ll, 0 ≤ size e) → sizeSum t ≤ sizeSum c.ll) := by
  by_cases hk : key ∈ keysOf c.ll
  · obtain ⟨e, l₁, l₂, hl, rfl⟩ := mem_keysOf hk
    rw [Add_store_hit h hl]
    refine ⟨e.ptr, l₁ ++ l₂, rfl, ?_, ?_⟩
    · intro x hx
      rw [hl]
      simp only [List.mem_append, List.mem_cons] at hx ⊢
      tauto
    · intro hnn
      have := hnn e (by rw [hl]; simp)
      rw [hl, sizeSum_append, sizeSum_append, sizeSum_cons]
      omega
  · rw [Add_store_miss h hk]
    exact ⟨c.nextPtr, c.ll, rfl, fun e he => he, fun _ => le_refl _⟩

/-- C10 (amended): on a reachable cache with budget `> 0` in which every entry
has a non-negative size, adding an entry of non-negative size without leaving
the `int64` range makes `Add(k, v)` return a cache on which `Get(k)` returns
`(v, true)` exactly when `len(k) + v.Len() ≤ budget`; when the entry alone
exceeds the budget the returned cache is empty with `nbytes = 0`. -/
theorem lru_Add_then_Get [Value V] (c : Cache V) (hc : Reachable c) (hb : 0 < c.maxBytes)
    (k : String) (v : V) (hnn : ∀ e ∈ c.ll, 0 ≤ size e)
    (hv : 0 ≤ (k.utf8ByteSize : Int) + Value.Len v)
    (hfit : sizeSum c.ll + ((k.utf8ByteSize : Int) + Value.Len v) < 2 ^ 63)
    (fuel : Nat) (hf : c.ll.length + 1 ≤ fuel) :
    ∃ c', Add fuel c k v = some c' ∧
      ((Get c' k).2 = some v ↔ (k.utf8ByteSize : Int) + Value.Len v ≤ c.maxBytes) ∧
      (c.maxBytes < (k.utf8ByteSize : Int) + Value.Len v → c'.ll = [] ∧ c'.nbytes = 0) := by
  have hi := inv_of_reachable hc
  obtain ⟨c', n, hr, hn⟩ := Add_evicts hi (le_of_lt hb) k v fuel hf
  have hi' : Inv c' := Inv_Add hi hr
  have hfl := Add_store_fields c k v
  obtain ⟨p, t, hs, ht, hsum⟩ := Add_store_head hi k v
  have hsz : size (⟨p, ⟨k, v⟩⟩ : Element V) = (k.utf8ByteSize : Int) + Value.Len v := rfl
  have hnn' : ∀ e ∈ (Add_store c k v).ll, 0 ≤ size e := by
    intro e he
    rw [hs] at he
    rcases List.mem_cons.1 he with h1 | h1
    · rw [h1, hsz]
      exact hv
    · exact hnn e (ht e h1)
  have hlt : sizeSum (Add_store c k v).ll < 2 ^ 63 := by
    have := hsum hnn
    rw [hs, sizeSum_cons, hsz]
    omega
  have htot : ∀ m, total ((Add_store c k v).ll.take m) =
      sizeSum ((Add_store c k v).ll.take m) := by
    intro m
    have h1 := sizeSum_take_le hnn' m
    exact total_eq_sizeSum
      (sizeSum_nonneg (fun e he => hnn' e (List.mem_of_mem_take he))) (by omega)
  have hfits : total ((Add_store c k v).ll.take n) ≤ c.maxBytes := by
    have := le_of_fits (c := c') (by rw [hn.maxBytes, hfl.1]; omega) hn.fits
    rw [hn.nbytes, hn.maxBytes, hfl.1] at this
    exact this
  have hbig : c.maxBytes < (k.utf8ByteSize : Int) + Value.Len v → n = 0 := by
    intro hgt
    by_contra hn0
    obtain ⟨m, rfl⟩ : ∃ m, n = m + 1 := ⟨n - 1, by omega⟩
    rw [htot, hs, List.take_succ_cons, sizeSum_cons, hsz] at hfits
    have := sizeSum_nonneg (l := t.take m)
      (fun e he => hnn e (ht e (List.mem_of_mem_take he)))
    omega
  have hsmall : (k.utf8ByteSize : Int) + Value.Len v ≤ c.maxBytes → 0 < n := by
    intro hle
    by_contra hn0
    have hn0 : n = 0 := by omega
    have := (hn.longest 1 (by omega) (by rw [hs]; simp)).2
    rw [htot, hs, hfl.1] at this
    simp only [List.take_succ_cons, List.take_zero, sizeSum_cons, sizeSum_nil, hsz] at this
    omega
  refine ⟨c', hr, ⟨?_, ?_⟩, ?_⟩
  · intro hget
    by_contra hgt
    have hn0 := hbig (by omega)
    have hl : c'.ll = [] := by rw [hn.ll, hn0]; simp
    rw [Get_miss hi' (by rw [hl]; simp [keysOf])] at hget
    cases hget
  · intro hle
    have hpos := hsmall hle
    obtain ⟨m, rfl⟩ : ∃ m, n = m + 1 := ⟨n - 1, by omega⟩
    have hl : c'.ll = [] ++ (⟨p, ⟨k, v⟩⟩ : Element V) :: t.take m := by
      rw [hn.ll, hs]
      simp
    have := Get_hit hi' hl
    simp only at this
    rw [this]
  · intro hgt
    have hn0 := hbig hgt
    refine ⟨by rw [hn.ll, hn0]; simp, ?_⟩
    rw [hn.nbytes, hn0]
    simp [total, sizeSum, int64_zero]

theorem lru_Add_then_Get_witness :
    Reachable exCache ∧ (0 : Int) < exCache.maxBytes ∧
    (∀ e ∈ exCache.ll, 0 ≤ size e) ∧
    0 ≤ (("k3".utf8ByteSize : Nat) : Int) + Value.Len (⟨"v3", 6⟩ : Blob) ∧
    sizeSum exCache.ll + ((("k3".utf8ByteSize : Nat) : Int) + Value.Len (⟨"v3", 6⟩ : Blob))
      < 2 ^ 63 ∧
    exCache.ll.length + 1 ≤ 3 ∧
    ∃ c', Add 3 exCache "k3" (⟨"v3", 6⟩ : Blob) = some c' ∧
      ((Get c' "k3").2 = some (⟨"v3", 6⟩ : Blob) ↔
        (("k3".utf8ByteSize : Nat) : Int) + Value.Len (⟨"v3", 6⟩ : Blob) ≤ exCache.maxBytes) ∧
      (exCache.maxBytes < (("k3".utf8ByteSize : Nat) : Int) + Value.Len (⟨"v3", 6⟩ : Blob) →
        c'.ll = [] ∧ c'.nbytes = 0) :=
  ⟨exCache_reachable, by decide, by decide, by decide, by decide, by decide,
    lru_Add_then_Get exCache exCache_reachable (by decide) "k3" ⟨"v3", 6⟩ (by decide)
      (by decide) (by decide) 3 (by decide)⟩

/-- C10 as stated fails when a resident value reports a negative `Len()`: with
budget 5 and the resident entry `("a", x)`, `x.Len() = -10`, the call
`Add("k", y)` with `y.Len() = 10` leaves `nbytes = 2`, evicts nothing, and
`Get("k")` returns `(y, true)` although `len("k") + y.Len() = 11 > 5`. -/
theorem lru_Add_then_Get_counterexample :
    Reachable exNegCache ∧ (0 : Int) < exNegCache.maxBytes ∧
    ∃ c', Add 2 exNegCache "k" (⟨"y", 10⟩ : Blob) = some c' ∧
      (Get c' "k").2 = some (⟨"y", 10⟩ : Blob) ∧
      ¬ ((("k".utf8ByteSize : Nat) : Int) + Value.Len (⟨"y", 10⟩ : Blob) ≤ exNegCache.maxBytes) ∧
      c'.ll ≠ [] ∧ c'.nbytes = 2 :=
  ⟨⟨5, false, ReachableFrom.add (New 5 false) exNegCache 1 "a" ⟨"x", -10⟩
      ReachableFrom.start (by decide)⟩,
    by decide,
    { maxBytes := 5, nbytes := 2,
      ll := [⟨1, ⟨"k", ⟨"y", 10⟩⟩⟩, ⟨0, ⟨"a", ⟨"x", -10⟩⟩⟩],
      cache := [("k", 1), ("a", 0)],
      OnEvicted := false, evicted := [], nextPtr := 2 },
    by decide, by decide, by decide, by decide, by decide⟩

end lru

namespace consistenthash

/-! ### Binary search -/

/-- On a predicate that is monotone below `n`, the loop of `sort.Search` returns
the boundary between the indices where it is false and those where it is true. -/
theorem Search_loop_spec (f : Nat → Bool) (n : Nat)
    (mono : ∀ a b, a ≤ b → b < n → f a = true → f b = true) (fuel i j : Nat)
    (hij : i ≤ j) (hjn : j ≤ n) (hfuel : j - i ≤ fuel)
    (hlo : ∀ k, k < i → f k = false) (hhi : ∀ k, j ≤ k → k < n → f k = true) :
    Search_loop f fuel i j ≤ n ∧ (∀ k, k < Search_loop f fuel i j → f k = false) ∧
      (∀ k, Search_loop f fuel i j ≤ k → k < n → f k = true) := by
  induction fuel generalizing i j with
  | zero =>
    have : i = j := by omega
    subst this
    exact ⟨hjn, hlo, hhi⟩
  | succ fuel ih =>
    unfold Search_loop
    by_cases hlt : i < j
    · simp only [hlt, if_true]
      have h1 : i ≤ (i + j) / 2 := by omega
      have h2 : (i + j) / 2 < j := by omega
      cases hf : f ((i + j) / 2) with
      | false =>
        simp only [Bool.not_false, if_true]
        refine ih _ _ (by omega) hjn (by omega) ?_ hhi
        intro k hk
        cases hfk : f k with
        | false => rfl
        | true =>
          have := mono k ((i + j) / 2) (by omega) (by omega) hfk
          rw [hf] at this
          cases this
      | true =>
        simp only [Bool.not_true, Bool.false_eq_true, if_false]
        refine ih _ _ h1 (by omega) (by omega) hlo ?_
        intro k hk hkn
        exact mono _ k hk hkn hf
    · simp only [hlt, if_false]
      have : i = j := by omega
      subst this
      exact ⟨hjn, hlo, hhi⟩

theorem Search_spec (f : Nat → Bool) (n : Nat)
    (mono : ∀ a b, a ≤ b → b < n → f a = true → f b = true) :
    Search n f ≤ n ∧ (∀ k, k < Search n f → f k = false) ∧
      (∀ k, Search n f ≤ k → k < n → f k = true) :=
  Search_loop_spec f n mono n 0 n (Nat.zero_le _) (le_refl _) (by omega)
    (fun k hk => absurd hk (Nat.not_lt_zero k)) (fun k hk hkn => absurd hkn (by omega))

/-! ### The ring value that owns a hash -/

theorem Owner_unique {l : List Int} {h v w : Int} (hv : Owner l h v) (hw : Owner l h w) :
    v = w := by
  obtain ⟨hvl, hv⟩ := hv
  obtain ⟨hwl, hw⟩ := hw
  rcases hv with ⟨h1, h2⟩ | ⟨h1, h2⟩ <;> rcases hw with ⟨h3, h4⟩ | ⟨h3, h4⟩
  · exact le_antisymm (h2 w hwl h3) (h4 v hvl h1)
  · have := h3 v hvl
    omega
  · have := h1 w hwl
    omega
  · exact le_antisymm (h2 w hwl) (h4 v hvl)

/-- The owner only depends on which values are on the ring. -/
theorem Owner_congr {l l' : List Int} (hmem : ∀ x, x ∈ l ↔ x ∈ l') {h v : Int}
    (hv : Owner l h v) : Owner l' h v := by
  obtain ⟨hvl, hv⟩ := hv
  refine ⟨(hmem v).1 hvl, ?_⟩
  rcases hv with ⟨h1, h2⟩ | ⟨h1, h2⟩
  · exact Or.inl ⟨h1, fun x hx => h2 x ((hmem x).2 hx)⟩
  · exact Or.inr ⟨fun x hx => h1 x ((hmem x).2 hx), fun x hx => h2 x ((hmem x).2 hx)⟩

/-- An owner that already belongs to a smaller ring is the owner there. -/
theorem Owner_restrict {l l' : List Int} (hsub : ∀ x, x ∈ l → x ∈ l') {h v : Int}
    (hv : Owner l' h v) (hvl : v ∈ l) : Owner l h v := by
  obtain ⟨_, hv⟩ := hv
  refine ⟨hvl, ?_⟩
  rcases hv with ⟨h1, h2⟩ | ⟨h1, h2⟩
  · exact Or.inl ⟨h1, fun x hx => h2 x (hsub x hx)⟩
  · exact Or.inr ⟨fun x hx => h1 x (hsub x hx), fun x hx => h2 x (hsub x hx)⟩

theorem getD_eq_getElem (l : List Int) {i : Nat} (hi : i < l.length) :
    l.getD i 0 = l[i] := by
  simp [List.getD, List.getElem?_eq_getElem hi]

/-- On a sorted non-empty ring the value that `Get` reads is the owner. -/
theorem Owner_of_Search {l : List Int} (hs : l.Sorted (fun a b => a ≤ b)) (hne : l ≠ [])
    (h : Int) :
    Owner l h (l.getD (Search l.length (fun i => decide (l.getD i 0 ≥ h)) % l.length) 0) := by
  have hlen : 0 < l.length := List.length_pos.2 hne
  have hsorted : ∀ a b (ha : a < l.length) (hb : b < l.length), a ≤ b → l[a] ≤ l[b] := by
    intro a b ha hb hab
    rcases Nat.eq_or_lt_of_le hab with h1 | h1
    · subst h1
      exact le_refl _
    · exact List.pairwise_iff_getElem.1 hs a b ha hb h1
  have mono : ∀ a b, a ≤ b → b < l.length →
      (fun i => decide (l.getD i 0 ≥ h)) a = true →
      (fun i => decide (l.getD i 0 ≥ h)) b = true := by
    intro a b hab hb hfa
    simp only [decide_eq_true_eq] at hfa ⊢
    rw [getD_eq_getElem l hb]
    rw [getD_eq_getElem l (by omega)] at hfa
    have := hsorted a b (by omega) hb hab
    omega
  obtain ⟨hr, hlo, hhi⟩ := Search_spec _ l.length mono
  generalize Search l.length (fun i => decide (l.getD i 0 ≥ h)) = r at hr hlo hhi
  simp only [decide_eq_true_eq, decide_eq_false_iff_not] at hlo hhi
  rcases Nat.eq_or_lt_of_le hr with hrl | hrl
  · subst hrl
    rw [Nat.mod_self, getD_eq_getElem l hlen]
    refine ⟨List.getElem_mem _, Or.inr ⟨?_, ?_⟩⟩
    · intro x hx
      obtain ⟨i, hi, rfl⟩ := List.getElem_of_mem hx
      have := hlo i hi
      rw [getD_eq_getElem l hi] at this
      omega
    · intro x hx
      obtain ⟨i, hi, rfl⟩ := List.getElem_of_mem hx
      exact hsorted 0 i hlen hi (Nat.zero_le _)
  · rw [Nat.mod_eq_of_lt hrl, getD_eq_getElem l hrl]
    refine ⟨List.getElem_mem _, Or.inl ⟨?_, ?_⟩⟩
    · have := hhi r (le_refl _) hrl
      rw [getD_eq_getElem l hrl] at this
      exact this
    · intro x hx hhx
      obtain ⟨i, hi, rfl⟩ := List.getElem_of_mem hx
      by_cases hir : i < r
      · have := hlo i hir
        rw [getD_eq_getElem l hi] at this
        omega
      · exact hsorted r i hrl hi (by omega)

theorem foldl_min_spec (l : List Int) (a : Int) :
    l.foldl min a ∈ a :: l ∧ ∀ x ∈ a :: l, l.foldl min a ≤ x := by
  induction l generalizing a with
  | nil => simp
  | cons b l ih =>
    obtain ⟨h1, h2⟩ := ih (min a b)
    simp only [List.foldl_cons]
    constructor
    · rcases List.mem_cons.1 h1 with h | h
      · rw [h]
        rcases min_choice a b with hm | hm <;> rw [hm] <;> simp
      · exact List.mem_cons_of_mem _ (List.mem_cons_of_mem _ h)
    · intro x hx
      have h0 := h2 (min a b) (by simp)
      rcases List.mem_cons.1 hx with h | h
      · rw [h]
        exact le_trans h0 (min_le_left a b)
      · rcases List.mem_cons.1 h with h | h
        · rw [h]
          exact le_trans h0 (min_le_right a b)
        · exact h2 x (List.mem_cons_of_mem _ h)

theorem least_eq_some {l : List Int} {v : Int} (h : least l = some v) :
    v ∈ l ∧ ∀ x ∈ l, v ≤ x := by
  cases l with
  | nil => cases h
  | cons a l =>
    simp only [least, Option.some.injEq] at h
    rw [← h]
    exact foldl_min_spec l a

theorem least_eq_none {l : List Int} (h : least l = none) : l = [] := by
  cases l with
  | nil => rfl
  | cons a l => cases h

theorem least_isSome {l : List Int} (hne : l ≠ []) : ∃ v, least l = some v := by
  cases l with
  | nil => exact absurd rfl hne
  | cons a l => exact ⟨_, rfl⟩

/-- On a non-empty ring the reference definition reads the map at the owner. -/
theorem Get_ref_owner (m : Map) (key : String) (hne : m.keys ≠ []) :
    ∃ v, Owner m.keys (hashOf m key) v ∧ Get_ref m key = mapGet m.hashMap v := by
  unfold Get_ref
  simp only [hne, if_false]
  cases hl : least (m.keys.filter (fun v => decide (hashOf m key ≤ v))) with
  | some v =>
    obtain ⟨h1, h2⟩ := least_eq_some hl
    simp only [List.mem_filter, decide_eq_true_eq] at h1 h2
    exact ⟨v, ⟨h1.1, Or.inl ⟨h1.2, fun x hx hhx => h2 x ⟨hx, hhx⟩⟩⟩, rfl⟩
  | none =>
    have hf := least_eq_none hl
    obtain ⟨v, hv⟩ := least_isSome hne
    obtain ⟨h1, h2⟩ := least_eq_some hv
    refine ⟨v, ⟨h1, Or.inr ⟨?_, h2⟩⟩, by simp only [hv]⟩
    intro x hx
    by_contra hcon
    have : x ∈ m.keys.filter (fun v => decide (hashOf m key ≤ v)) := by
      simp only [List.mem_filter, decide_eq_true_eq]
      exact ⟨hx, by omega⟩
    rw [hf] at this
    cases this

/-- On a sorted non-empty ring `Get` reads the map at the owner. -/
theorem Get_owner (m : Map) (key : String) (hs : m.keys.Sorted (fun a b => a ≤ b))
    (hne : m.keys ≠ []) :
    ∃ v, Owner m.keys (hashOf m key) v ∧ Get m key = mapGet m.hashMap v := by
  refine ⟨_, Owner_of_Search hs hne (hashOf m key), ?_⟩
  unfold Get
  have : ¬ m.keys.length = 0 := fun h => hne (List.length_eq_zero.1 h)
  simp only [this, if_false]

theorem Get_empty (m : Map) (key : String) (he : m.keys = []) : Get m key = "" := by
  unfold Get
  simp [he]

theorem sortInts_sorted (l : List Int) : (sortInts l).Sorted (fun a b => a ≤ b) :=
  List.sorted_insertionSort _ l

theorem mem_sortInts (l : List Int) (x : Int) : x ∈ sortInts l ↔ x ∈ l :=
  (List.perm_insertionSort _ l).mem_iff

/-- Whatever algorithm `sort.Ints` runs, its result is `sortInts`: an ascending
rearrangement of a list of integers is unique. -/
theorem sortInts_unique {l l' : List Int} (hp : l'.Perm l)
    (hs : l'.Sorted (fun a b => a ≤ b)) : l' = sortInts l :=
  List.eq_of_perm_of_sorted (hp.trans (List.perm_insertionSort _ l).symm) hs
    (sortInts_sorted l)

theorem sorted_of_reachable {m : Map} (h : Reachable m) :
    m.keys.Sorted (fun a b => a ≤ b) := by
  cases h with
  | new replicas fn => simp [New]
  | add m keys _ => exact sortInts_sorted _

/-! ### Claims about the hash ring -/

/-- C5: on every ring state (anything `New` and `Add` calls produce) and for
every key, `Get` equals the reference definition `Get_ref`: the empty string on
a ring without virtual nodes, otherwise the peer id mapped from the smallest
ring value `≥ hash(key)`, wrapping to the smallest ring value overall. -/
theorem ring_Get_eq_reference (m : Map) (hm : Reachable m) (key : String) :
    Get m key = Get_ref m key := by
  by_cases hne : m.keys = []
  · rw [Get_empty m key hne]
    unfold Get_ref
    simp [hne]
  · obtain ⟨v, hv, hg⟩ := Get_owner m key (sorted_of_reachable hm) hne
    obtain ⟨w, hw, hr⟩ := Get_ref_owner m key hne
    rw [hg, hr, Owner_unique hv hw]

theorem ring_Get_eq_reference_witness :
    Reachable exRing ∧ Get exRing "zz" = Get_ref exRing "zz" ∧ Get exRing "zz" = "A" :=
  ⟨Reachable.add _ _ (Reachable.new 2 (some byteSum)),
    ring_Get_eq_reference exRing (Reachable.add _ _ (Reachable.new 2 (some byteSum))) "zz",
    by decide⟩

/-! ### What `Add` does to the ring -/

theorem foldl_Add_node (key : String) (is : List Nat) (m : Map) :
    (is.foldl (Add_node key) m).hash = m.hash ∧
      (is.foldl (Add_node key) m).replicas = m.replicas ∧
      (is.foldl (Add_node key) m).keys =
        m.keys ++ is.map (fun i => hashOf m (Itoa i ++ key)) ∧
      (is.foldl (Add_node key) m).hashMap =
        (is.map (fun i => (hashOf m (Itoa i ++ key), key))).reverse ++ m.hashMap := by
  induction is generalizing m with
  | nil => simp
  | cons i is ih =>
    obtain ⟨h1, h2, h3, h4⟩ := ih (Add_node key m i)
    have hh : ∀ s, hashOf (Add_node key m i) s = hashOf m s := fun s => rfl
    simp only [List.foldl_cons, h1, h2, h3, h4, hh]
    refine ⟨rfl, rfl, ?_, ?_⟩
    · simp [Add_node]
    · simp [Add_node]

theorem foldl_Add_key (keys : List String) (m : Map) :
    (keys.foldl Add_key m).hash = m.hash ∧
      (keys.foldl Add_key m).replicas = m.replicas ∧
      (keys.foldl Add_key m).keys = m.keys ++ (vnodes m keys).map Prod.fst ∧
      (keys.foldl Add_key m).hashMap = (vnodes m keys).reverse ++ m.hashMap := by
  induction keys generalizing m with
  | nil => simp [vnodes]
  | cons key keys ih =>
    obtain ⟨h1, h2, h3, h4⟩ := ih (Add_key m key)
    obtain ⟨g1, g2, g3, g4⟩ := foldl_Add_node key (List.range m.replicas.toNat) m
    have hv : vnodes (Add_key m key) keys = vnodes m keys := by
      unfold vnodes
      have hh : ∀ s, hashOf (Add_key m key) s = hashOf m s := by
        intro s
        unfold hashOf Add_key
        rw [g1]
      have hr : (Add_key m key).replicas = m.replicas := g2
      simp only [hh, hr]
    simp only [List.foldl_cons, h1, h2, h3, h4, hv]
    refine ⟨g1, g2, ?_, ?_⟩
    · unfold Add_key
      rw [g3]
      simp [vnodes, List.map_map, Function.comp_def]
    · unfold Add_key
      rw [g4]
      simp [vnodes]

theorem Add_fields (m : Map) (keys : List String) :
    (Add m keys).hash = m.hash ∧
      (Add m keys).keys = sortInts (m.keys ++ (vnodes m keys).map Prod.fst) ∧
      (Add m keys).hashMap = (vnodes m keys).reverse ++ m.hashMap := by
  obtain ⟨h1, _, h3, h4⟩ := foldl_Add_key keys m
  unfold Add
  simp only [h1, h3, h4]
  trivial

theorem mem_vnodes {m : Map} {keys : List String} {x : Int} {id : String}
    (h : (x, id) ∈ vnodes m keys) : id ∈ keys := by
  unfold vnodes at h
  obtain ⟨key, hkey, hmem⟩ := List.mem_flatMap.1 h
  obtain ⟨i, _, hi⟩ := List.mem_map.1 hmem
  simp only [Prod.mk.injEq] at hi
  rw [← hi.2]
  exact hkey

theorem mem_of_lookup {l : List (Int × String)} {k : Int} {v : String}
    (h : l.lookup k = some v) : (k, v) ∈ l := by
  obtain ⟨l₁, l₂, hl, _⟩ := List.lookup_eq_some_iff.1 h
  rw [hl]
  simp

/-- Reading the map after `Add`: a hash placed by this `Add` is mapped to one of
the added ids, any other hash is mapped as before. -/
theorem mapGet_Add (m : Map) (keys : List String) (x : Int) :
    (x ∈ (vnodes m keys).map Prod.fst → mapGet (Add m keys).hashMap x ∈ keys) ∧
      (x ∉ (vnodes m keys).map Prod.fst →
        mapGet (Add m keys).hashMap x = mapGet m.hashMap x) := by
  rw [(Add_fields m keys).2.2]
  unfold mapGet
  rw [List.lookup_append]
  cases hl : (vnodes m keys).reverse.lookup x with
  | some id =>
    have hmem : (x, id) ∈ vnodes m keys := List.mem_reverse.1 (mem_of_lookup hl)
    constructor
    · intro _
      simpa using mem_vnodes hmem
    · intro hx
      exact absurd (List.mem_map_of_mem Prod.fst hmem) hx
  | none =>
    constructor
    · intro hx
      obtain ⟨p, hp, hpx⟩ := List.mem_map.1 hx
      have := List.lookup_eq_none_iff.1 hl p (List.mem_reverse.2 hp)
      simp [hpx] at this
    · intro _
      simp

/-- C6: on every ring state, for every list of ids passed to `Add` and every
key, `Get(key)` after the `Add` is `Get(key)` before it or one of the ids just
added; so a key whose owner after the `Add` is not one of the added ids has kept
its owner. -/
theorem ring_Add_moves_keys_only_to_added (m : Map) (hm : Reachable m) (ids : List String)
    (key : String) :
    (Get (Add m ids) key = Get m key ∨ Get (Add m ids) key ∈ ids) ∧
      (Get (Add m ids) key ∉ ids → Get (Add m ids) key = Get m key) := by
  have main : Get (Add m ids) key = Get m key ∨ Get (Add m ids) key ∈ ids := by
    obtain ⟨hh, hk, _⟩ := Add_fields m ids
    have hhash : hashOf (Add m ids) key = hashOf m key := by
      unfold hashOf
      rw [hh]
    have hmem : ∀ x, x ∈ (Add m ids).keys ↔ x ∈ m.keys ∨ x ∈ (vnodes m ids).map Prod.fst := by
      intro x
      rw [hk, mem_sortInts, List.mem_append]
    by_cases hne : (Add m ids).keys = []
    · have hme : m.keys = [] := by
        cases hmk : m.keys with
        | nil => rfl
        | cons a l =>
          have : a ∈ (Add m ids).keys := (hmem a).2 (Or.inl (by rw [hmk]; simp))
          rw [hne] at this
          cases this
      left
      rw [Get_empty _ key hne, Get_empty _ key hme]
    · obtain ⟨v, hv, hg⟩ := Get_owner (Add m ids) key
        (sorted_of_reachable (Reachable.add m ids hm)) hne
      rw [hhash] at hv
      by_cases hnew : v ∈ (vnodes m ids).map Prod.fst
      · right
        rw [hg]
        exact (mapGet_Add m ids v).1 hnew
      · left
        have hvm : v ∈ m.keys := by
          rcases (hmem v).1 hv.1 with h | h
          · exact h
          · exact absurd h hnew
        have hne' : m.keys ≠ [] := List.ne_nil_of_mem hvm
        obtain ⟨w, hw, hg'⟩ := Get_owner m key (sorted_of_reachable hm) hne'
        have hvo : Owner m.keys (hashOf m key) v :=
          Owner_restrict (fun x hx => (hmem x).2 (Or.inl hx)) hv hvm
        rw [hg, hg', (mapGet_Add m ids v).2 hnew, Owner_unique hvo hw]
  refine ⟨main, fun hnot => ?_⟩
  rcases main with h | h
  · exact h
  · exact absurd h hnot

theorem ring_Add_moves_keys_only_to_added_witness :
    Reachable exRing ∧
      (Get (Add exRing ["B"]) "r" = Get exRing "r" ∨ Get (Add exRing ["B"]) "r" ∈ ["B"]) ∧
      (Get (Add exRing ["B"]) "r" ∉ ["B"] → Get (Add exRing ["B"]) "r" = Get exRing "r") ∧
      Get exRing "r" = "A" ∧ Get (Add exRing ["B"]) "r" = "B" :=
  have h := ring_Add_moves_keys_only_to_added exRing
    (Reachable.add _ _ (Reachable.new 2 (some byteSum))) ["B"] "r"
  ⟨Reachable.add _ _ (Reachable.new 2 (some byteSum)), h.1, h.2, by decide, by decide⟩

end consistenthash

namespace lru

variable {V : Type}

theorem Get_maxBytes [Value V] (c : Cache V) (key : String) :
    (Get c key).1.maxBytes = c.maxBytes := by
  unfold Get
  split
  · split <;> rfl
  · rfl

/-- A `Get` that finds nothing leaves the cache as it was. -/
theorem Get_none [Value V] {c : Cache V} (h : Inv c) {key : String}
    (hm : (Get c key).2 = none) : (Get c key).1 = c := by
  by_cases hk : key ∈ keysOf c.ll
  · obtain ⟨e, l₁, l₂, hl, rfl⟩ := mem_keysOf hk
    rw [Get_hit h hl] at hm
    cases hm
  · rw [Get_miss h hk]

theorem Add_maxBytes [Value V] {fuel : Nat} {c c' : Cache V} {key : String} {value : V}
    (h : Inv c) (hr : Add fuel c key value = some c') : c'.maxBytes = c.maxBytes := by
  obtain ⟨n, hn⟩ := Add_evict_char fuel (Inv_Add_store h key value) hr
  rw [hn.maxBytes, (Add_store_fields c key value).1]

/-- An entry that fits the budget (or any entry when the budget is 0) is found
by `Get` right after its `Add`. -/
theorem Add_then_Get_fits [Value V] {c : Cache V} (h : Inv c) (key : String) (value : V)
    (hb : c.maxBytes = 0 ∨
      (0 ≤ (key.utf8ByteSize : Int) + Value.Len value ∧
        (key.utf8ByteSize : Int) + Value.Len value ≤ c.maxBytes ∧ c.maxBytes < 2 ^ 63))
    (fuel : Nat) (hf : c.ll.length + 1 ≤ fuel) :
    ∃ c', Add fuel c key value = some c' ∧ (Get c' key).2 = some value := by
  have hb0 : 0 ≤ c.maxBytes := by
    rcases hb with h0 | ⟨h1, h2, _⟩
    · omega
    · omega
  obtain ⟨c', n, hr, hn⟩ := Add_evicts h hb0 key value fuel hf
  have hi' : Inv c' := Inv_Add h hr
  have hfl := Add_store_fields c key value
  obtain ⟨p, t, hs, _, _⟩ := Add_store_head h key value
  have hpos : 0 < n := by
    by_contra hn0
    have hlong := hn.longest 1 (by omega) (by rw [hs]; simp)
    rw [hfl.1] at hlong
    rcases hb with h0 | ⟨h1, h2, h3⟩
    · exact hlong.1 h0
    · have hlt := hlong.2
      rw [hs] at hlt
      simp only [List.take_succ_cons, List.take_zero, total, sizeSum_cons, sizeSum_nil,
        add_zero] at hlt
      rw [int64_of_range (by simp only [size]; omega) (by simp only [size]; omega)] at hlt
      simp only [size] at hlt
      omega
  obtain ⟨m, rfl⟩ : ∃ m, n = m + 1 := ⟨n - 1, by omega⟩
  have hl : c'.ll = [] ++ (⟨p, ⟨key, value⟩⟩ : Element V) :: t.take m := by
    rw [hn.ll, hs]
    simp
  refine ⟨c', hr, ?_⟩
  have := Get_hit hi' hl
  simp only at this
  rw [this]

end lru

namespace geecache

/-! ### The cache wrapper and the group invariant -/

theorem cache_get_Inv {c : cache} (h : c.Inv) (key : String) : (c.get key).1.Inv := by
  unfold cache.get
  cases hl : c.lru with
  | none => simpa using h
  | some l =>
    obtain ⟨h1, h2⟩ := h l hl
    intro l' hl'
    simp only [Option.some.injEq] at hl'
    subst hl'
    exact ⟨lru.Inv_Get h1 key, by rw [lru.Get_maxBytes]; exact h2⟩

theorem cache_get_miss {c : cache} (h : c.Inv) {key : String}
    (hm : (c.get key).2 = none) : (c.get key).1 = c := by
  unfold cache.get at hm ⊢
  cases hl : c.lru with
  | none => rfl
  | some l =>
    rw [hl] at hm
    simp only at hm ⊢
    rw [lru.Get_none (h l hl).1 hm, ← hl]

theorem cache_add_Inv {c c' : cache} (h : c.Inv) {fuel : Nat} {key : String}
    {value : ByteView} (hr : c.add fuel key value = some c') :
    c'.Inv ∧ c'.cacheBytes = c.cacheBytes := by
  unfold cache.add at hr
  cases hl : c.lru with
  | none =>
    rw [hl] at hr
    simp only [Option.map_eq_some'] at hr
    obtain ⟨l', hadd, rfl⟩ := hr
    refine ⟨?_, rfl⟩
    intro l hl'
    simp only [Option.some.injEq] at hl'
    subst hl'
    exact ⟨lru.Inv_Add (lru.Inv_New _ _) hadd,
      by rw [lru.Add_maxBytes (lru.Inv_New _ _) hadd]; rfl⟩
  | some l =>
    rw [hl] at hr
    simp only [Option.map_eq_some'] at hr
    obtain ⟨l', hadd, rfl⟩ := hr
    obtain ⟨h1, h2⟩ := h l hl
    refine ⟨?_, rfl⟩
    intro l0 hl'
    simp only [Option.some.injEq] at hl'
    subst hl'
    exact ⟨lru.Inv_Add h1 hadd, by rw [lru.Add_maxBytes h1 hadd]; exact h2⟩

/-- With a non-negative budget `cache.add` returns. -/
theorem cache_add_total {c : cache} (h : c.Inv) (hb : 0 ≤ c.cacheBytes) (key : String)
    (value : ByteView) {fuel : Nat} (hf : c.len + 1 ≤ fuel) :
    ∃ c', c.add fuel key value = some c' := by
  cases hl : c.lru with
  | none =>
    obtain ⟨l', _, hadd, _⟩ := lru.Add_evicts (lru.Inv_New c.cacheBytes false) hb key value
      fuel (by simp only [lru.New, List.length_nil]; omega)
    exact ⟨{ c with lru := some l' }, by simp only [cache.add, hl, hadd, Option.map_some']⟩
  | some l =>
    simp only [cache.len, hl] at hf
    obtain ⟨h1, h2⟩ := h l hl
    obtain ⟨l', _, hadd, _⟩ := lru.Add_evicts h1 (by rw [h2]; exact hb) key value fuel hf
    exact ⟨{ c with lru := some l' }, by simp only [cache.add, hl, hadd, Option.map_some']⟩

/-- An entry that fits the budget (or any entry when the budget is 0) is found
by `cache.get` right after `cache.add`. -/
theorem cache_add_then_get {c : cache} (h : c.Inv) (key : String) (value : ByteView)
    (hb : c.cacheBytes = 0 ∨
      ((key.utf8ByteSize : Int) + (value.b.length : Int) ≤ c.cacheBytes ∧
        c.cacheBytes < 2 ^ 63))
    {fuel : Nat} (hf : c.len + 1 ≤ fuel) :
    ∃ c', c.add fuel key value = some c' ∧ (c'.get key).2 = some value := by
  have hsz : lru.Value.Len value = (value.b.length : Int) := rfl
  have hb' : ∀ mb : Int, mb = c.cacheBytes → mb = 0 ∨
      (0 ≤ (key.utf8ByteSize : Int) + lru.Value.Len value ∧
        (key.utf8ByteSize : Int) + lru.Value.Len value ≤ mb ∧ mb < 2 ^ 63) := by
    intro mb hmb
    rw [hmb, hsz]
    rcases hb with h0 | ⟨h1, h2⟩
    · exact Or.inl h0
    · exact Or.inr ⟨by omega, h1, h2⟩
  cases hl : c.lru with
  | none =>
    obtain ⟨l', hadd, hget⟩ := lru.Add_then_Get_fits (lru.Inv_New c.cacheBytes false)
      key value (hb' _ rfl) fuel (by simp only [lru.New, List.length_nil]; omega)
    refine ⟨{ c with lru := some l' },
      by simp only [cache.add, hl, hadd, Option.map_some'], ?_⟩
    simp only [cache.get, hget]
  | some l =>
    simp only [cache.len, hl] at hf
    obtain ⟨h1, h2⟩ := h l hl
    obtain ⟨l', hadd, hget⟩ := lru.Add_then_Get_fits h1 key value (hb' _ h2) fuel hf
    refine ⟨{ c with lru := some l' },
      by simp only [cache.add, hl, hadd, Option.map_some'], ?_⟩
    simp only [cache.get, hget]

theorem getFromPeer_mainCache (g : Group) (peer : PeerGetter) (key : String) :
    (Group.getFromPeer g peer key).2.mainCache = g.mainCache ∧
      (Group.getFromPeer g peer key).2.log = g.log ++ [Event.fetch g.name key] := by
  unfold Group.getFromPeer
  split <;> exact ⟨rfl, rfl⟩

theorem getLocally_Inv {g g' : Group} {fuel : Nat} {key : String} {r : ByteView × Error}
    (h : g.mainCache.Inv) (hr : Group.getLocally fuel g key = some (r, g')) :
    g'.mainCache.Inv := by
  unfold Group.getLocally at hr
  split at hr
  · simp only [Option.some.injEq, Prod.mk.injEq] at hr
    rw [← hr.2]
    exact h
  · simp only [Group.populateCache, Option.map_map, Option.map_eq_some',
      Function.comp_apply, Prod.mk.injEq] at hr
    obtain ⟨mc, hadd, _, rfl⟩ := hr
    exact (cache_add_Inv h hadd).1

theorem load_Inv {g g' : Group} {fuel : Nat} {key : String} {r : ByteView × Error}
    (h : g.mainCache.Inv) (hr : Group.load fuel g key = some (r, g')) :
    g'.mainCache.Inv := by
  unfold Group.load at hr
  split at hr
  · split at hr
    · split at hr
      next hfp =>
        simp only [Option.some.injEq, Prod.mk.injEq] at hr
        have := (getFromPeer_mainCache _ _ _).1.symm.trans (congrArg (fun x => x.2.mainCache) hfp)
        rw [← hr.2]
        simp only at this
        rw [← this]
        exact h
      next hfp =>
        refine getLocally_Inv ?_ hr
        have := (getFromPeer_mainCache _ _ _).1.symm.trans (congrArg (fun x => x.2.mainCache) hfp)
        simp only at this
        rw [← this]
        exact h
    · refine getLocally_Inv ?_ hr
      exact h
  · exact getLocally_Inv h hr

theorem Get_Inv {g g' : Group} {fuel : Nat} {key : String} {r : ByteView × Error}
    (h : g.mainCache.Inv) (hr : Group.Get fuel g key = some (r, g')) :
    g'.mainCache.Inv := by
  unfold Group.Get at hr
  split at hr
  · simp only [Option.some.injEq, Prod.mk.injEq] at hr
    rw [← hr.2]
    exact h
  · split at hr
    · simp only [Option.some.injEq, Prod.mk.injEq] at hr
      rw [← hr.2]
      exact cache_get_Inv h key
    · exact load_Inv (g := { g with mainCache := (g.mainCache.get key).1 })
        (cache_get_Inv h key) hr

theorem Inv_of_reachable_group {g : Group} (h : Group.Reachable g) : g.mainCache.Inv := by
  induction h with
  | new groups groups' name cacheBytes getter g hn =>
    unfold NewGroup at hn
    split at hn
    · cases hn
    · simp only [Option.some.injEq, Prod.mk.injEq] at hn
      rw [← hn.1]
      intro l hl
      cases hl
  | registerPeers g g' peers _ hr ih =>
    unfold Group.RegisterPeers at hr
    split at hr
    · cases hr
    · simp only [Option.some.injEq] at hr
      rw [← hr]
      exact ih
  | get g g' fuel key r _ hr ih => exact Get_Inv ih hr

theorem loadsOf_append (l₁ l₂ : List Event) : loadsOf (l₁ ++ l₂) = loadsOf l₁ ++ loadsOf l₂ := by
  induction l₁ with
  | nil => rfl
  | cons a l ih =>
    cases a <;> simp [loadsOf, ih]

/-- A successful local load on a group with a non-negative budget: one loader
call, the bytes are returned and the entry is handed to the cache. -/
theorem getLocally_ok {g : Group} (h : g.mainCache.Inv) (hb : 0 ≤ g.mainCache.cacheBytes)
    {key : String} {bytes : List UInt8} (hload : g.getter (loadsOf g.log) key = Except.ok bytes)
    (fuel : Nat) (hf : g.mainCache.len + 1 ≤ fuel) :
    ∃ mc, g.mainCache.add fuel key ⟨bytes⟩ = some mc ∧
      Group.getLocally fuel g key =
        some ((⟨bytes⟩, none), { g with log := g.log ++ [Event.load key], mainCache := mc }) := by
  obtain ⟨mc, hadd⟩ := cache_add_total h hb key ⟨bytes⟩ hf
  refine ⟨mc, hadd, ?_⟩
  unfold Group.getLocally
  simp only [hload, Group.populateCache, cloneBytes, hadd, Option.map_some']

/-! ### Claims about the group -/

/-- C9: in every state of every group, `Get("")` returns the error
`key is required` with an empty value and leaves the whole group as it was: no
loader call, no peer consulted (the call log is unchanged) and the cache
untouched. -/
theorem group_Get_empty_key (g : Group) (fuel : Nat) :
    Group.Get fuel g "" = some ((⟨[]⟩, some "key is required"), g) := by
  simp [Group.Get]

/-- C7 (amended): for a reachable group without peer-picker and a non-empty
key, (1) a cache hit returns the cached value and calls nothing; (2) with a
budget `≥ 0`, a cache miss whose loader call succeeds returns the loaded bytes
after exactly one loader call; and (3) when in addition the budget is 0 or the
entry fits it (`len(key) + len(bytes) ≤ budget`, the budget being an `int64`),
an immediately following `Get` of the same key returns the same bytes and calls
nothing. -/
theorem group_Get_hit_and_miss (g : Group) (hg : Group.Reachable g) (hp : g.peers = none)
    (key : String) (hk : key ≠ "") :
    (∀ v, (g.mainCache.get key).2 = some v →
      ∀ fuel, ∃ g', Group.Get fuel g key = some ((v, none), g') ∧ g'.log = g.log) ∧
    (∀ bytes, (g.mainCache.get key).2 = none →
      g.getter (loadsOf g.log) key = Except.ok bytes → 0 ≤ g.mainCache.cacheBytes →
      ∀ fuel, g.mainCache.len + 1 ≤ fuel →
        ∃ g', Group.Get fuel g key = some ((⟨bytes⟩, none), g') ∧
          g'.log = g.log ++ [Event.load key] ∧
          ((g.mainCache.cacheBytes = 0 ∨
              ((key.utf8ByteSize : Int) + (bytes.length : Int) ≤ g.mainCache.cacheBytes ∧
                g.mainCache.cacheBytes < 2 ^ 63)) →
            ∀ fuel', ∃ g'', Group.Get fuel' g' key = some ((⟨bytes⟩, none), g'') ∧
              g''.log = g'.log)) := by
  have hi := Inv_of_reachable_group hg
  constructor
  · intro v hv fuel
    exact ⟨{ g with mainCache := (g.mainCache.get key).1 },
      by simp only [Group.Get, hk, if_false, hv], rfl⟩
  · intro bytes hmiss hload hb fuel hf
    have hsame := cache_get_miss hi hmiss
    obtain ⟨mc, hadd, hloc⟩ := getLocally_ok hi hb hload fuel hf
    have hl : Group.load fuel g key = Group.getLocally fuel g key := by
      unfold Group.load
      split
      · next pp hpp =>
          rw [hp] at hpp
          cases hpp
      · rfl
    have hget : Group.Get fuel g key =
        some ((⟨bytes⟩, none), { g with log := g.log ++ [Event.load key], mainCache := mc }) := by
      simp only [Group.Get, hk, if_false, hmiss, hsame]
      exact hl.trans hloc
    refine ⟨_, hget, rfl, ?_⟩
    intro hfit fuel'
    obtain ⟨mc', hadd', hhit⟩ := cache_add_then_get hi key ⟨bytes⟩ hfit hf
    rw [hadd] at hadd'
    simp only [Option.some.injEq] at hadd'
    subst hadd'
    exact ⟨{ g with log := g.log ++ [Event.load key], mainCache := (mc.get key).1 },
      by simp only [Group.Get, hk, if_false, hhit], rfl⟩

theorem group_Get_hit_and_miss_witness :
    Group.Reachable (exGroup 2) ∧ (exGroup 2).peers = none ∧ "k" ≠ "" ∧
    ∃ g', Group.Get 1 (exGroup 2) "k" = some ((⟨[65]⟩, none), g') ∧
      g'.log = (exGroup 2).log ++ [Event.load "k"] ∧
      ∀ fuel', ∃ g'', Group.Get fuel' g' "k" = some ((⟨[65]⟩, none), g'') ∧
        g''.log = g'.log :=
  have hr : Group.Reachable (exGroup 2) :=
    Group.Reachable.new [] [("g", exGroup 2)] "g" 2 (some exGetter) (exGroup 2) rfl
  have h := (group_Get_hit_and_miss (exGroup 2) hr rfl "k" (by decide)).2 [65] (by decide) rfl
    (by decide) 1 (by decide)
  ⟨hr, rfl, by decide,
    h.elim fun g' hg' => ⟨g', hg'.1, hg'.2.1, hg'.2.2 (Or.inr ⟨by decide, by decide⟩)⟩⟩

/-- C7 as stated fails for a budget that the loaded entry does not fit: with
budget 1, the 2-byte entry `("k", [65])` evicts itself on insertion, so the
second `Get("k")` misses again and calls the loader a second time. -/
theorem group_Get_hit_and_miss_counterexample :
    Group.Reachable (exGroup 1) ∧ (exGroup 1).peers = none ∧ "k" ≠ "" ∧
    ((exGroup 1).mainCache.get "k").2 = none ∧
    (exGroup 1).getter (loadsOf (exGroup 1).log) "k" = Except.ok [65] ∧
    observe (Group.Get 5 (exGroup 1) "k") = some ((⟨[65]⟩, none), [Event.load "k"]) ∧
    observe ((Group.Get 5 (exGroup 1) "k").bind (fun r => Group.Get 5 r.2 "k")) =
      some ((⟨[65]⟩, none), [Event.load "k", Event.load "k"]) :=
  ⟨Group.Reachable.new [] [("g", exGroup 1)] "g" 1 (some exGetter) (exGroup 1) rfl,
    rfl, by decide, by decide, rfl, by decide, by decide⟩

/-- C8 (amended): for a reachable group with a byte budget `≥ 0` whose
peer-picker selects for the non-empty, uncached key a peer whose transport
fails, and whose loader call for the key succeeds: `Group.load` and `Group.Get`
return the loader's bytes with no error, after exactly one `PickPeer`, one
attempt on the peer transport and one loader call, in this order. -/
theorem group_load_falls_back_to_loader (g : Group) (hg : Group.Reachable g)
    (picker : PeerPicker) (hp : g.peers = some picker) (key : String) (hk : key ≠ "")
    (peer : PeerGetter) (hpick : picker.PickPeer key = some peer)
    (err : String) (hfail : peer.Get g.name key = Except.error err)
    (hmiss : (g.mainCache.get key).2 = none)
    (bytes : List UInt8) (hload : g.getter (loadsOf g.log) key = Except.ok bytes)
    (hb : 0 ≤ g.mainCache.cacheBytes) (fuel : Nat) (hf : g.mainCache.len + 1 ≤ fuel) :
    (∃ g', Group.load fuel g key = some ((⟨bytes⟩, none), g') ∧
      g'.log = g.log ++ [Event.pick key, Event.fetch g.name key, Event.load key]) ∧
    (∃ g', Group.Get fuel g key = some ((⟨bytes⟩, none), g') ∧
      g'.log = g.log ++ [Event.pick key, Event.fetch g.name key, Event.load key]) := by
  have hi := Inv_of_reachable_group hg
  have hload' : g.getter
      (loadsOf (g.log ++ [Event.pick key] ++ [Event.fetch g.name key])) key =
        Except.ok bytes := by
    rw [loadsOf_append, loadsOf_append]
    simpa [loadsOf] using hload
  obtain ⟨mc, hadd, hloc⟩ := getLocally_ok
    (g := { g with log := g.log ++ [Event.pick key] ++ [Event.fetch g.name key] })
    hi hb hload' fuel hf
  have hl : Group.load fuel g key =
      some ((⟨bytes⟩, none),
        { g with
          log := g.log ++ [Event.pick key] ++ [Event.fetch g.name key] ++ [Event.load key]
          mainCache := mc }) := by
    unfold Group.load
    simp only [hp] at hloc
    simp only [hp, hpick, Group.getFromPeer, hfail]
    exact hloc
  have hlog : g.log ++ [Event.pick key] ++ [Event.fetch g.name key] ++ [Event.load key] =
      g.log ++ [Event.pick key, Event.fetch g.name key, Event.load key] := by simp
  have hsame := cache_get_miss hi hmiss
  refine ⟨⟨_, hl, hlog⟩, ⟨{ g with
      log := g.log ++ [Event.pick key] ++ [Event.fetch g.name key] ++ [Event.load key]
      mainCache := mc }, ?_, hlog⟩⟩
  simp only [Group.Get, hk, if_false, hmiss, hsame]
  exact hl

theorem group_load_falls_back_to_loader_witness :
    Group.Reachable (exPeerGroup 4) ∧ (exPeerGroup 4).peers = some exPicker ∧ "k" ≠ "" ∧
    exPicker.PickPeer "k" = some exBadPeer ∧
    exBadPeer.Get (exPeerGroup 4).name "k" = Except.error "down" ∧
    ((exPeerGroup 4).mainCache.get "k").2 = none ∧
    (exPeerGroup 4).getter (loadsOf (exPeerGroup 4).log) "k" = Except.ok [65] ∧
    (0 : Int) ≤ (exPeerGroup 4).mainCache.cacheBytes ∧
    (exPeerGroup 4).mainCache.len + 1 ≤ 1 ∧
    (∃ g', Group.load 1 (exPeerGroup 4) "k" = some ((⟨[65]⟩, none), g') ∧
      g'.log = (exPeerGroup 4).log ++
        [Event.pick "k", Event.fetch (exPeerGroup 4).name "k", Event.load "k"]) ∧
    (∃ g', Group.Get 1 (exPeerGroup 4) "k" = some ((⟨[65]⟩, none), g') ∧
      g'.log = (exPeerGroup 4).log ++
        [Event.pick "k", Event.fetch (exPeerGroup 4).name "k", Event.load "k"]) :=
  have hr : Group.Reachable (exPeerGroup 4) :=
    Group.Reachable.registerPeers (exGroup 4) (exPeerGroup 4) exPicker
      (Group.Reachable.new [] [("g", exGroup 4)] "g" 4 (some exGetter) (exGroup 4) rfl) rfl
  have h := group_load_falls_back_to_loader (exPeerGroup 4) hr exPicker rfl "k" (by decide)
    exBadPeer rfl "down" rfl (by decide) [65] rfl (by decide) 1 (by decide)
  ⟨hr, rfl, by decide, rfl, rfl, by decide, rfl, by decide, by decide, h.1, h.2⟩

/-- On an empty cache with a negative budget the eviction loop never stops. -/
theorem Add_evict_negative_empty (c : lru.Cache ByteView) (hl : c.ll = [])
    (hn : c.nbytes = 0) (hb : c.maxBytes < 0) (fuel : Nat) : lru.Add_evict fuel c = none := by
  have hob : lru.overBudget c = true := by
    rw [lru.overBudget_iff]
    omega
  induction fuel with
  | zero => simp [lru.Add_evict, hob]
  | succ n ih =>
    unfold lru.Add_evict
    simp only [hob, if_true]
    rw [lru.RemoveOldest_nil hl]
    exact ih

/-- C8 as stated fails for a group with a negative byte budget: with budget `-1`
the eviction loop that follows the insertion of the loaded entry never stops,
so neither `Group.load` nor `Group.Get` returns, whatever the fuel. -/
theorem group_load_falls_back_to_loader_counterexample :
    Group.Reachable (exPeerGroup (-1)) ∧ (exPeerGroup (-1)).peers = some exPicker ∧
    "k" ≠ "" ∧ exPicker.PickPeer "k" = some exBadPeer ∧
    exBadPeer.Get (exPeerGroup (-1)).name "k" = Except.error "down" ∧
    ((exPeerGroup (-1)).mainCache.get "k").2 = none ∧
    (exPeerGroup (-1)).getter (loadsOf (exPeerGroup (-1)).log) "k" = Except.ok [65] ∧
    ∀ fuel, Group.load fuel (exPeerGroup (-1)) "k" = none ∧
      Group.Get fuel (exPeerGroup (-1)) "k" = none := by
  refine ⟨Group.Reachable.registerPeers (exGroup (-1)) (exPeerGroup (-1)) exPicker
      (Group.Reachable.new [] [("g", exGroup (-1))] "g" (-1) (some exGetter) (exGroup (-1)) rfl)
      rfl, rfl, by decide, rfl, rfl, by decide, rfl, ?_⟩
  intro fuel
  have hadd : lru.Add fuel (lru.New (-1) false) "k" (⟨[65]⟩ : ByteView) = none := by
    unfold lru.Add
    cases fuel with
    | zero => decide
    | succ n =>
      unfold lru.Add_evict
      have hob : lru.overBudget
          (lru.Add_store (lru.New (-1) false) "k" (⟨[65]⟩ : ByteView)) = true := by decide
      simp only [hob, if_true]
      exact Add_evict_negative_empty _ (by decide) (by decide) (by decide) n
  have hl : Group.load fuel (exPeerGroup (-1)) "k" = none := by
    simp only [Group.load, exPeerGroup, exPicker, exBadPeer, Group.getFromPeer,
      Group.getLocally, exGetter, Group.populateCache, cache.add, cloneBytes, hadd,
      Option.map_none']
  refine ⟨hl, ?_⟩
  have hm : ((exPeerGroup (-1)).mainCache.get "k") = ((exPeerGroup (-1)).mainCache, none) := rfl
  simp only [Group.Get, hm]
  exact hl

end geecache

namespace lru

variable {V : Type}

/-! ### Sequences of calls -/

theorem run_reachableFrom [Value V] (ops : List (Op V)) {c₀ c : Cache V}
    (h : run c₀ ops = some c) : ReachableFrom c₀ c := by
  have key : ∀ (ops : List (Op V)) (c₁ : Cache V), ReachableFrom c₀ c₁ →
      run c₁ ops = some c → ReachableFrom c₀ c := by
    intro ops
    induction ops with
    | nil =>
      intro c₁ h₁ hr
      simp only [run, Option.some.injEq] at hr
      rw [← hr]
      exact h₁
    | cons op ops ih =>
      intro c₁ h₁ hr
      simp only [run, Option.bind_eq_some] at hr
      obtain ⟨c₂, hs, hr⟩ := hr
      refine ih c₂ ?_ hr
      cases op with
      | get key =>
        simp only [step, Option.some.injEq] at hs
        rw [← hs]
        exact ReachableFrom.get c₁ key h₁
      | add fuel key value => exact ReachableFrom.add c₁ c₂ fuel key value h₁ hs
      | removeOldest =>
        simp only [step, Option.some.injEq] at hs
        rw [← hs]
        exact ReachableFrom.removeOldest c₁ h₁
  exact key ops c₀ ReachableFrom.start h

/-- The elements of the list after `Get` are those before it. -/
theorem mem_Get [Value V] {c : Cache V} (h : Inv c) (key : String) (e : Element V) :
    e ∈ (Get c key).1.ll ↔ e ∈ c.ll := by
  by_cases hk : key ∈ keysOf c.ll
  · obtain ⟨e₀, l₁, l₂, hl, rfl⟩ := mem_keysOf hk
    rw [Get_hit h hl, hl]
    simp only [List.mem_cons, List.mem_append]
    tauto
  · rw [Get_miss h hk]

theorem mem_RemoveOldest [Value V] {c : Cache V} (h : Inv c) {e : Element V}
    (he : e ∈ (RemoveOldest c).ll) : e ∈ c.ll := by
  rcases List.eq_nil_or_concat c.ll with hl | ⟨l, e₀, hl⟩
  · rw [RemoveOldest_nil hl] at he
    exact he
  · rw [List.concat_eq_append] at hl
    rw [RemoveOldest_snoc h hl] at he
    rw [hl]
    exact List.mem_append_left _ he

/-- The elements after a returned `Add(key, value)`: the element of `key`, now
holding `value`, or an old element of another key. -/
theorem mem_Add [Value V] {c c' : Cache V} (h : Inv c) {fuel : Nat} {key : String}
    {value : V} (hr : Add fuel c key value = some c') {e : Element V} (he : e ∈ c'.ll) :
    (e.Value.key = key ∧ e.Value.value = value) ∨ (e ∈ c.ll ∧ e.Value.key ≠ key) := by
  have hs := Inv_Add_store h key value
  obtain ⟨n, hn⟩ := Add_evict_char fuel hs hr
  obtain ⟨p, t, hst, ht, _⟩ := Add_store_head h key value
  rw [hn.ll] at he
  have he' := List.mem_of_mem_take he
  rw [hst] at he'
  rcases List.mem_cons.1 he' with h1 | h1
  · left
    rw [h1]
    exact ⟨rfl, rfl⟩
  · right
    refine ⟨ht e h1, ?_⟩
    have hk := hs.keys
    rw [hst] at hk
    simp only [keysOf, List.map_cons, List.nodup_cons] at hk
    intro hek
    exact hk.1 (by rw [← hek]; exact List.mem_map_of_mem _ h1)

/-- Every resident entry holds the value of the most recent `Add` for its key. -/
theorem run_lastAdd [Value V] (ops : List (Op V)) (c₀ c : Cache V) (f : String → Option V)
    (h₀ : Inv c₀) (hf : ∀ e ∈ c₀.ll, f e.Value.key = some e.Value.value)
    (hr : run c₀ ops = some c) :
    ∀ e ∈ c.ll, (match lastAdd e.Value.key ops with
      | some w => some w
      | none => f e.Value.key) = some e.Value.value := by
  induction ops generalizing c₀ f with
  | nil =>
    simp only [run, Option.some.injEq] at hr
    subst hr
    intro e he
    simp only [lastAdd]
    exact hf e he
  | cons op ops ih =>
    simp only [run, Option.bind_eq_some] at hr
    obtain ⟨c₁, hs, hr⟩ := hr
    cases op with
    | get key =>
      simp only [step, Option.some.injEq] at hs
      subst hs
      intro e he
      simp only [lastAdd]
      exact ih (Get c₀ key).1 f (Inv_Get h₀ key)
        (fun x hx => hf x ((mem_Get h₀ key x).1 hx)) hr e he
    | removeOldest =>
      simp only [step, Option.some.injEq] at hs
      subst hs
      intro e he
      simp only [lastAdd]
      exact ih (RemoveOldest c₀) f (Inv_RemoveOldest h₀)
        (fun x hx => hf x (mem_RemoveOldest h₀ hx)) hr e he
    | add fuel key value =>
      simp only [step] at hs
      intro e he
      have := ih c₁ (fun k => if key = k then some value else f k) (Inv_Add h₀ hs)
        (fun x hx => by
          rcases mem_Add h₀ hs hx with ⟨h1, h2⟩ | ⟨h1, h2⟩
          · simp [h1, h2]
          · have : ¬ key = x.Value.key := fun h => h2 h.symm
            simp only [this, if_false]
            exact hf x h1) hr e he
      simp only [lastAdd]
      cases hl : lastAdd e.Value.key ops with
      | some w =>
        rw [hl] at this
        exact this
      | none =>
        rw [hl] at this
        simp only at this ⊢
        by_cases hk : key = e.Value.key
        · simp only [hk, if_true] at this ⊢
          exact this
        · simp only [hk, if_false] at this ⊢
          exact this

theorem mem_pairsOf {l : List (Element V)} {key : String} {v : V} :
    (key, v) ∈ pairsOf l ↔ ∃ e ∈ l, e.Value.key = key ∧ e.Value.value = v := by
  simp [pairsOf, List.mem_map]

/-- C11: on a cache reached from `New` by any sequence `ops` of `Get`, `Add` and
`RemoveOldest` calls, `Get(key)` returns `(v, true)` exactly when the pair
`(key, v)` is resident, and then `v` is the value of the most recent `Add` for
`key` in `ops`; it returns not-found exactly when `key` is not resident.  `Get`
keeps the resident key/value pairs (up to order), `nbytes` and `Len`.  On a hit
the whole state is the old one except that the element of `key` has moved to
the front of the recency list, the others keeping their order; on a miss the
state is unchanged. -/
theorem lru_Get_frame [Value V] (maxBytes : Int) (onEvicted : Bool) (ops : List (Op V))
    (c : Cache V) (hc : run (New maxBytes onEvicted) ops = some c) (key : String) :
    (∀ v, (Get c key).2 = some v ↔ (key, v) ∈ pairsOf c.ll) ∧
    ((Get c key).2 = none ↔ key ∉ keysOf c.ll) ∧
    (∀ v, (key, v) ∈ pairsOf c.ll → lastAdd key ops = some v) ∧
    (pairsOf (Get c key).1.ll).Perm (pairsOf c.ll) ∧
    (Get c key).1.nbytes = c.nbytes ∧
    Len (Get c key).1 = Len c ∧
    (∀ l₁ e l₂, c.ll = l₁ ++ e :: l₂ → e.Value.key = key →
      (Get c key).1 = { c with ll := e :: (l₁ ++ l₂) }) ∧
    (key ∉ keysOf c.ll → (Get c key).1 = c) := by
  have hi : Inv c := inv_of_reachableFrom (run_reachableFrom ops hc) (Inv_New maxBytes onEvicted)
  have hperm : ((Get c key).1.ll).Perm c.ll := by
    by_cases hk : key ∈ keysOf c.ll
    · obtain ⟨e, l₁, l₂, hl, rfl⟩ := mem_keysOf hk
      rw [Get_hit hi hl, hl]
      exact List.perm_middle.symm
    · rw [Get_miss hi hk]
  have hsome : ∀ v, (Get c key).2 = some v ↔ (key, v) ∈ pairsOf c.ll := by
    intro v
    rw [mem_pairsOf]
    constructor
    · intro hget
      obtain ⟨e, l₁, l₂, hl, rfl⟩ := mem_keysOf (hit_resident hi hget)
      rw [Get_hit hi hl] at hget
      simp only [Option.some.injEq] at hget
      exact ⟨e, by rw [hl]; simp, rfl, hget⟩
    · rintro ⟨e, he, rfl, rfl⟩
      obtain ⟨l₁, l₂, hl⟩ := List.append_of_mem he
      rw [Get_hit hi hl]
  refine ⟨hsome, ?_, ?_, hperm.map _, ?_, hperm.length_eq, ?_, fun hk => ?_⟩
  · constructor
    · intro hnone hk
      obtain ⟨e, l₁, l₂, hl, rfl⟩ := mem_keysOf hk
      rw [Get_hit hi hl] at hnone
      cases hnone
    · intro hk
      rw [Get_miss hi hk]
  · intro v hv
    obtain ⟨e, he, rfl, rfl⟩ := mem_pairsOf.1 hv
    have := run_lastAdd ops (New maxBytes onEvicted) c (fun _ => none)
      (Inv_New maxBytes onEvicted) (fun x hx => by simp [New] at hx) hc e he
    cases hl : lastAdd e.Value.key ops with
    | some w =>
      rw [hl] at this
      exact this
    | none =>
      rw [hl] at this
      cases this
  · unfold Get
    split
    · split <;> rfl
    · rfl
  · rintro l₁ e l₂ hl rfl
    rw [Get_hit hi hl]
  · rw [Get_miss hi hk]

theorem lru_Get_frame_witness :
    run (New 18 true)
      [Op.add 2 "k1" (⟨"v1", 6⟩ : Blob), Op.add 3 "k2" ⟨"v2", 6⟩] = some exCache ∧
    (Get exCache "k1").2 = some (⟨"v1", 6⟩ : Blob) ∧
    lastAdd "k1" [Op.add 2 "k1" (⟨"v1", 6⟩ : Blob), Op.add 3 "k2" ⟨"v2", 6⟩] =
      some (⟨"v1", 6⟩ : Blob) ∧
    (Get exCache "k1").1 =
      { exCache with ll := [⟨0, ⟨"k1", ⟨"v1", 6⟩⟩⟩, ⟨1, ⟨"k2", ⟨"v2", 6⟩⟩⟩] } ∧
    (Get exCache "k9").1 = exCache :=
  have h := lru_Get_frame 18 true
    [Op.add 2 "k1" (⟨"v1", 6⟩ : Blob), Op.add 3 "k2" ⟨"v2", 6⟩] exCache (by decide)
  ⟨by decide, ((h "k1").1 _).2 (by decide), (h "k1").2.2.1 _ (by decide),
    (h "k1").2.2.2.2.2.2.1 [⟨1, ⟨"k2", ⟨"v2", 6⟩⟩⟩] ⟨0, ⟨"k1", ⟨"v1", 6⟩⟩⟩ [] rfl rfl,
    (h "k9").2.2.2.2.2.2.2 (by decide)⟩

/-- C12: on a reachable cache, the part of `Add(key, value)` that runs before
the eviction loop (`Add_store`) leaves one element per key.  For a resident
`key` it moves the element of `key` to the front with `value` in place of the
old value, the other elements keeping their order and the entry count staying
the same, and adds `value.Len()` minus the old value's `Len()` to `nbytes`.
For a non-resident `key` it puts one new element in front of the unchanged
list and adds `len(key) + value.Len()` to `nbytes`.  The additions are those of
the program (`int64`), exact whenever the result fits in 64 bits. -/
theorem lru_Add_store_effect [Value V] (c : Cache V) (hc : Reachable c) (key : String)
    (value : V) :
    (∀ fuel, Add fuel c key value = Add_evict fuel (Add_store c key value)) ∧
    (keysOf (Add_store c key value).ll).Nodup ∧
    (∀ l₁ e l₂, c.ll = l₁ ++ e :: l₂ → e.Value.key = key →
      (Add_store c key value).ll = ⟨e.ptr, ⟨key, value⟩⟩ :: (l₁ ++ l₂) ∧
      (Add_store c key value).ll.length = c.ll.length ∧
      (Add_store c key value).nbytes =
        int64 (c.nbytes + (Value.Len value - Value.Len e.Value.value)) ∧
      (-2 ^ 63 ≤ c.nbytes + (Value.Len value - Value.Len e.Value.value) →
        c.nbytes + (Value.Len value - Value.Len e.Value.value) < 2 ^ 63 →
        (Add_store c key value).nbytes =
          c.nbytes + (Value.Len value - Value.Len e.Value.value))) ∧
    (key ∉ keysOf c.ll →
      (Add_store c key value).ll = ⟨c.nextPtr, ⟨key, value⟩⟩ :: c.ll ∧
      (Add_store c key value).nbytes =
        int64 (c.nbytes + ((key.utf8ByteSize : Int) + Value.Len value)) ∧
      (-2 ^ 63 ≤ c.nbytes + ((key.utf8ByteSize : Int) + Value.Len value) →
        c.nbytes + ((key.utf8ByteSize : Int) + Value.Len value) < 2 ^ 63 →
        (Add_store c key value).nbytes =
          c.nbytes + ((key.utf8ByteSize : Int) + Value.Len value))) := by
  have hi := inv_of_reachable hc
  refine ⟨fun _ => rfl, (Inv_Add_store hi key value).keys, ?_, ?_⟩
  · rintro l₁ e l₂ hl rfl
    have hnb : (Add_store c e.Value.key value).nbytes =
        int64 (c.nbytes + (Value.Len value - Value.Len e.Value.value)) := by
      rw [Add_store_hit hi hl]
      show int64 (c.nbytes +
        int64 (int64 (Value.Len value) - int64 (Value.Len e.Value.value))) = _
      rw [int64_add_right, int64_congr
        (((int64_modEq (Value.Len value)).sub
          (int64_modEq (Value.Len e.Value.value))).add_left c.nbytes)]
    refine ⟨by rw [Add_store_hit hi hl], ?_, hnb, fun h1 h2 => ?_⟩
    · rw [Add_store_hit hi hl, hl]
      simp only [List.length_cons, List.length_append]
      omega
    · rw [hnb, int64_of_range h1 h2]
  · intro hk
    have hnb : (Add_store c key value).nbytes =
        int64 (c.nbytes + ((key.utf8ByteSize : Int) + Value.Len value)) := by
      rw [Add_store_miss hi hk]
      have hb := entryBytes_eq
        ({ ptr := c.nextPtr, Value := { key := key, value := value } } : Element V)
      simp only [size] at hb
      show int64 (c.nbytes + entryBytes key value) = _
      rw [hb, int64_add_right]
    refine ⟨by rw [Add_store_miss hi hk], hnb, fun h1 h2 => ?_⟩
    rw [hnb, int64_of_range h1 h2]

theorem lru_Add_store_effect_witness :
    Reachable exCache ∧
    (Add_store exCache "k1" (⟨"w", 9⟩ : Blob)).ll =
      [⟨0, ⟨"k1", ⟨"w", 9⟩⟩⟩, ⟨1, ⟨"k2", ⟨"v2", 6⟩⟩⟩] ∧
    (Add_store exCache "k1" (⟨"w", 9⟩ : Blob)).ll.length = exCache.ll.length ∧
    (Add_store exCache "k1" (⟨"w", 9⟩ : Blob)).nbytes = exCache.nbytes + (9 - 6) ∧
    (Add_store exCache "k3" (⟨"v3", 6⟩ : Blob)).ll =
      (⟨2, ⟨"k3", ⟨"v3", 6⟩⟩⟩ : Element Blob) :: exCache.ll ∧
    (Add_store exCache "k3" (⟨"v3", 6⟩ : Blob)).nbytes = exCache.nbytes + (2 + 6) :=
  have h1 := (lru_Add_store_effect exCache exCache_reachable "k1" (⟨"w", 9⟩ : Blob)).2.2.1
    [⟨1, ⟨"k2", ⟨"v2", 6⟩⟩⟩] ⟨0, ⟨"k1", ⟨"v1", 6⟩⟩⟩ [] rfl rfl
  have h2 := (lru_Add_store_effect exCache exCache_reachable "k3" (⟨"v3", 6⟩ : Blob)).2.2.2
    (by decide)
  ⟨exCache_reachable, h1.1, h1.2.1, h1.2.2.2 (by decide) (by decide), h2.1,
    h2.2.2 (by decide) (by decide)⟩

/-! ### Unbounded cache (budget 0) -/

/-- With budget 0 the eviction loop does not run: `Add` is `Add_store`. -/
theorem Add_of_zero [Value V] {c : Cache V} (h : c.maxBytes = 0) (fuel : Nat) (key : String)
    (value : V) : Add fuel c key value = some (Add_store c key value) := by
  have hob : overBudget (Add_store c key value) = false := by
    simp [overBudget, (Add_store_fields c key value).1, h]
  unfold Add
  cases fuel <;> simp [Add_evict, hob]

/-- A sequence of `Add` calls on a well-formed cache with budget 0 returns, keeps
the callback log, and leaves exactly the old keys and the added keys resident. -/
theorem run_adds_zero [Value V] (adds : List (Nat × String × V)) (c₀ : Cache V)
    (h₀ : Inv c₀) (hb : c₀.maxBytes = 0) :
    ∃ c, run c₀ (addOps adds) = some c ∧ c.maxBytes = 0 ∧ c.evicted = c₀.evicted ∧
      ∀ k, k ∈ keysOf c.ll ↔ k ∈ keysOf c₀.ll ∨ k ∈ adds.map (fun a => a.2.1) := by
  induction adds generalizing c₀ with
  | nil => exact ⟨c₀, rfl, hb, rfl, fun k => by simp⟩
  | cons a adds ih =>
    have hf := Add_store_fields c₀ a.2.1 a.2.2
    obtain ⟨c, hr, h1, h2, h3⟩ := ih (Add_store c₀ a.2.1 a.2.2)
      (Inv_Add_store h₀ a.2.1 a.2.2) (by rw [hf.1]; exact hb)
    refine ⟨c, ?_, h1, by rw [h2, hf.2.2.1], fun k => ?_⟩
    · simp only [addOps, List.map_cons, run, step, Add_of_zero hb, Option.some_bind]
      exact hr
    · rw [h3, mem_keysOf_Add_store h₀]
      simp only [List.map_cons, List.mem_cons]
      tauto

/-- C13: on a cache created with budget 0, every sequence of `Add` calls returns
a cache on which a further `Add` never enters the eviction loop; the callback
has not been invoked; `Len` is the number of distinct keys added; every added
key is found by `Get` with the value of its most recent `Add`; the entries are
exactly those latest values; and `nbytes` is the (`int64`) sum of their sizes,
the exact sum whenever it fits in 64 bits. -/
theorem lru_budget_zero_never_evicts [Value V] (onEvicted : Bool)
    (adds : List (Nat × String × V)) :
    ∃ c, run (New 0 onEvicted) (addOps adds) = some c ∧
      (∀ fuel key value, Add fuel c key value = some (Add_store c key value)) ∧
      c.evicted = [] ∧
      Len c = ((adds.map (fun a => a.2.1)).dedup).length ∧
      (∀ a ∈ adds, ∃ v, lastAdd a.2.1 (addOps adds) = some v ∧ (Get c a.2.1).2 = some v) ∧
      (∀ e ∈ c.ll, lastAdd e.Value.key (addOps adds) = some e.Value.value) ∧
      c.nbytes = int64 (sizeSum c.ll) ∧
      (-2 ^ 63 ≤ sizeSum c.ll → sizeSum c.ll < 2 ^ 63 → c.nbytes = sizeSum c.ll) := by
  obtain ⟨c, hr, hmb, hev, hkeys⟩ := run_adds_zero adds (New 0 onEvicted)
    (Inv_New 0 onEvicted) rfl
  have hi : Inv c := inv_of_reachableFrom (run_reachableFrom _ hr) (Inv_New 0 onEvicted)
  have hlast : ∀ e ∈ c.ll, lastAdd e.Value.key (addOps adds) = some e.Value.value := by
    intro e he
    have := run_lastAdd (addOps adds) (New 0 onEvicted) c (fun _ => none)
      (Inv_New 0 onEvicted) (fun x hx => by simp [New] at hx) hr e he
    cases hl : lastAdd e.Value.key (addOps adds) with
    | some w =>
      rw [hl] at this
      exact this
    | none =>
      rw [hl] at this
      cases this
  have hb := hi.bytes
  unfold total at hb
  refine ⟨c, hr, fun fuel key value => Add_of_zero hmb fuel key value, by rw [hev]; rfl,
    ?_, ?_, hlast, hb, fun h1 h2 => by rw [hb, int64_of_range h1 h2]⟩
  · have hp : (keysOf c.ll).Perm ((adds.map (fun a => a.2.1)).dedup) := by
      refine (List.perm_ext_iff_of_nodup hi.keys (List.nodup_dedup _)).2 (fun k => ?_)
      rw [hkeys, List.mem_dedup]
      simp [New, keysOf]
    have := hp.length_eq
    simp only [keysOf, List.length_map] at this
    exact this
  · intro a ha
    have hk : a.2.1 ∈ keysOf c.ll :=
      (hkeys a.2.1).2 (Or.inr (List.mem_map_of_mem (fun a => a.2.1) ha))
    obtain ⟨e, l₁, l₂, hl, hek⟩ := mem_keysOf hk
    refine ⟨e.Value.value, ?_, ?_⟩
    · rw [← hek]
      exact hlast e (by rw [hl]; simp)
    · rw [← hek, Get_hit hi hl]

theorem lru_budget_zero_never_evicts_witness :
    ∃ c, run (New 0 true)
        (addOps [(0, "a", (⟨"x", 1⟩ : Blob)), (0, "b", ⟨"y", 2⟩), (0, "a", ⟨"z", 3⟩)]) =
          some c ∧
      c.evicted = [] ∧ Len c = 2 ∧
      ∃ v, lastAdd "a"
          (addOps [(0, "a", (⟨"x", 1⟩ : Blob)), (0, "b", ⟨"y", 2⟩), (0, "a", ⟨"z", 3⟩)]) =
            some v ∧
        (Get c "a").2 = some v :=
  (lru_budget_zero_never_evicts true
      [(0, "a", (⟨"x", 1⟩ : Blob)), (0, "b", ⟨"y", 2⟩), (0, "a", ⟨"z", 3⟩)]).elim
    fun c h => ⟨c, h.1, h.2.2.1, h.2.2.2.1, h.2.2.2.2.1 (0, "a", ⟨"x", 1⟩) (by decide)⟩

/-! ### Termination of the eviction loop -/

/-- On an empty cache with a negative budget the loop condition is true and
stays true: the loop does not stop, whatever the fuel. -/
theorem Add_evict_diverges [Value V] (c : Cache V) (hl : c.ll = []) (hn : c.nbytes = 0)
    (hb : c.maxBytes < 0) (fuel : Nat) : Add_evict fuel c = none := by
  have hob : overBudget c = true := by
    rw [overBudget_iff]
    omega
  induction fuel with
  | zero => simp [Add_evict, hob]
  | succ n ih =>
    unfold Add_evict
    simp only [hob, if_true]
    rw [RemoveOldest_nil hl]
    exact ih

/-- C19: for a cache created by `New` with budget `maxBytes ≥ 0`, on every
reachable state the eviction loop of `Add` stops within as many iterations
(one `RemoveOldest` call each) as the list has entries after the insert/promote
step, so `Add` returns, whatever `Len()` the values report.  With a negative
budget the loop condition is true on every reachable empty cache and stays so,
and an `Add` of an entry of non-negative size on the new cache never returns. -/
theorem lru_Add_eviction_terminates [Value V] (maxBytes : Int) (onEvicted : Bool) :
    (0 ≤ maxBytes → ∀ c : Cache V, ReachableFrom (New maxBytes onEvicted) c →
      ∀ key value,
        (∃ c', Add_evict (Add_store c key value).ll.length (Add_store c key value) = some c') ∧
        (∀ fuel, (Add_store c key value).ll.length ≤ fuel →
          ∃ c', Add fuel c key value = some c')) ∧
    (maxBytes < 0 →
      (∀ c : Cache V, ReachableFrom (New maxBytes onEvicted) c → c.ll = [] →
        overBudget c = true ∧ RemoveOldest c = c ∧ ∀ fuel, Add_evict fuel c = none) ∧
      (∀ (key : String) (value : V), 0 ≤ Value.Len value →
        (key.utf8ByteSize : Int) + Value.Len value < 2 ^ 63 →
        ∀ fuel, Add fuel (New maxBytes onEvicted) key value = none)) := by
  constructor
  · intro hb c hc key value
    have hi : Inv c := inv_of_reachableFrom hc (Inv_New maxBytes onEvicted)
    have hm : c.maxBytes = maxBytes := maxBytes_of_reachableFrom hc (Inv_New maxBytes onEvicted)
    have hs := Inv_Add_store hi key value
    have hmb : 0 ≤ (Add_store c key value).maxBytes := by
      rw [(Add_store_fields c key value).1, hm]
      exact hb
    exact ⟨Add_evict_total _ hs hmb (le_refl _), fun fuel hf => Add_evict_total fuel hs hmb hf⟩
  · intro hb
    constructor
    · intro c hc hl
      have hi : Inv c := inv_of_reachableFrom hc (Inv_New maxBytes onEvicted)
      have hm : c.maxBytes = maxBytes :=
        maxBytes_of_reachableFrom hc (Inv_New maxBytes onEvicted)
      have hn : c.nbytes = 0 := by
        rw [hi.bytes, hl]
        simp [total, sizeSum, int64_zero]
      refine ⟨?_, RemoveOldest_nil hl, Add_evict_diverges c hl hn (by rw [hm]; exact hb)⟩
      rw [overBudget_iff]
      omega
    · intro key value hv hfit fuel
      have hi := Inv_New (V := V) maxBytes onEvicted
      have hs := Inv_Add_store hi key value
      have hst := @Add_store_miss V _ _ hi key (by simp [New, keysOf]) value
      have hll : (Add_store (New maxBytes onEvicted) key value).ll =
          [] ++ [(⟨0, ⟨key, value⟩⟩ : Element V)] := by
        rw [hst]
        rfl
      have hnb : (Add_store (New maxBytes onEvicted) key value).nbytes =
          (key.utf8ByteSize : Int) + Value.Len value := by
        rw [hs.bytes, hll]
        simp only [List.nil_append, total, sizeSum_cons, sizeSum_nil, add_zero, size]
        exact int64_of_range (by omega) hfit
      have hmb : (Add_store (New maxBytes onEvicted) key value).maxBytes = maxBytes :=
        (Add_store_fields _ key value).1
      have hob : overBudget (Add_store (New maxBytes onEvicted) key value) = true := by
        rw [overBudget_iff, hnb, hmb]
        omega
      have hri := Inv_RemoveOldest hs
      have hrl : (RemoveOldest (Add_store (New maxBytes onEvicted) key value)).ll = [] := by
        rw [RemoveOldest_snoc hs hll]
      have hrn : (RemoveOldest (Add_store (New maxBytes onEvicted) key value)).nbytes = 0 := by
        rw [hri.bytes, hrl]
        simp [total, sizeSum, int64_zero]
      have hrm : (RemoveOldest (Add_store (New maxBytes onEvicted) key value)).maxBytes < 0 := by
        rw [(RemoveOldest_fields _).1, hmb]
        exact hb
      unfold Add
      cases fuel with
      | zero => simp [Add_evict, hob]
      | succ n =>
        unfold Add_evict
        simp only [hob, if_true]
        exact Add_evict_diverges _ hrl hrn hrm n

theorem lru_Add_eviction_terminates_witness :
    ((0 : Int) ≤ 18 ∧ ReachableFrom (New 18 true) exCache ∧
      ∃ c', Add 3 exCache "k3" (⟨"v3", 6⟩ : Blob) = some c') ∧
    ((-1 : Int) < 0 ∧ (0 : Int) ≤ Value.Len (⟨"v", 1⟩ : Blob) ∧
      (("k".utf8ByteSize : Nat) : Int) + Value.Len (⟨"v", 1⟩ : Blob) < 2 ^ 63 ∧
      ∀ fuel, Add fuel (New (-1) false) "k" (⟨"v", 1⟩ : Blob) = none) :=
  ⟨⟨by decide, exCache_reachableFrom,
      ((lru_Add_eviction_terminates 18 true).1 (by decide) exCache exCache_reachableFrom "k3"
        (⟨"v3", 6⟩ : Blob)).2 3 (by decide)⟩,
    ⟨by decide, by decide, by decide,
      ((lru_Add_eviction_terminates (-1) false).2 (by decide)).2 "k" (⟨"v", 1⟩ : Blob)
        (by decide) (by decide)⟩⟩

end lru

namespace consistenthash

/-! ### Size and content of the ring -/

theorem length_vnodes (m : Map) (ids : List String) :
    (vnodes m ids).length = m.replicas.toNat * ids.length := by
  unfold vnodes
  induction ids with
  | nil => simp
  | cons id ids ih =>
    rw [List.flatMap_cons, List.length_append, ih]
    simp only [List.length_map, List.length_range, List.length_cons]
    ring

theorem map_fst_vnodes (m : Map) (ids : List String) :
    (vnodes m ids).map Prod.fst =
      ids.flatMap (fun id =>
        (List.range m.replicas.toNat).map (fun i => hashOf m (Itoa i ++ id))) := by
  unfold vnodes
  induction ids with
  | nil => rfl
  | cons id ids ih =>
    rw [List.flatMap_cons, List.flatMap_cons, List.map_append, ih, List.map_map]
    rfl

theorem Add_replicas (m : Map) (ids : List String) : (Add m ids).replicas = m.replicas :=
  (foldl_Add_key ids m).2.1

/-- A ring with `replicas = 0` stays empty. -/
theorem empty_of_replicas_zero {m : Map} (h : Reachable m) (hr : m.replicas = 0) :
    m.keys = [] ∧ m.hashMap = [] := by
  induction h with
  | new replicas fn => exact ⟨rfl, rfl⟩
  | add m ids _ ih =>
    rw [Add_replicas] at hr
    obtain ⟨h1, h2⟩ := ih hr
    obtain ⟨_, hk, hm⟩ := Add_fields m ids
    have hv : vnodes m ids = [] := List.length_eq_zero.1 (by rw [length_vnodes, hr]; simp)
    rw [hk, hm, hv, h1, h2]
    exact ⟨rfl, rfl⟩

/-- C14: on every ring state and for every list of ids, the key sequence after
`Add(ids...)` is the ascending sort of the previous sequence followed by the
values `hash(Itoa(i) + id)` for each id and each `i` in `[0, replicas)`.  It is
sorted ascending and its length grows by the size of that range times `|ids|`,
which is `replicas × |ids|` for `replicas ≥ 0`, also when an id was already
present.  With `replicas = 0` the ring is unchanged and stays empty, so `Get`
returns the no-match value `""` and no non-empty added id. -/
theorem ring_Add_key_sequence (m : Map) (hm : Reachable m) (ids : List String) :
    (Add m ids).keys = sortInts (m.keys ++
      ids.flatMap (fun id =>
        (List.range m.replicas.toNat).map (fun i => hashOf m (Itoa i ++ id)))) ∧
    (Add m ids).keys.Sorted (fun a b => a ≤ b) ∧
    (Add m ids).keys.length = m.keys.length + m.replicas.toNat * ids.length ∧
    (0 ≤ m.replicas →
      ((Add m ids).keys.length : Int) = (m.keys.length : Int) + m.replicas * (ids.length : Int)) ∧
    (m.replicas = 0 →
      (Add m ids).keys = m.keys ∧ (Add m ids).hashMap = m.hashMap ∧
      ∀ key, Get (Add m ids) key = "" ∧ ∀ id ∈ ids, id ≠ "" → Get (Add m ids) key ≠ id) := by
  obtain ⟨_, hk, hmap⟩ := Add_fields m ids
  have hlen : (Add m ids).keys.length = m.keys.length + m.replicas.toNat * ids.length := by
    rw [hk]
    unfold sortInts
    rw [List.length_insertionSort, List.length_append, List.length_map, length_vnodes]
  refine ⟨?_, sortInts_sorted _ |> (by rw [hk]; exact ·), hlen, ?_, ?_⟩
  · rw [hk, map_fst_vnodes]
  · intro h0
    rw [hlen]
    push_cast
    rw [Int.toNat_of_nonneg h0]
  · intro hr
    obtain ⟨h1, h2⟩ := empty_of_replicas_zero hm hr
    obtain ⟨h3, h4⟩ := empty_of_replicas_zero (Reachable.add m ids hm)
      (by rw [Add_replicas]; exact hr)
    refine ⟨by rw [h3, h1], by rw [h4, h2], fun key => ?_⟩
    have hg := Get_empty (Add m ids) key h3
    refine ⟨hg, fun id _ hne => ?_⟩
    rw [hg]
    exact fun h => hne h.symm

theorem ring_Add_key_sequence_witness :
    Reachable exRing ∧ (0 : Int) ≤ exRing.replicas ∧
    (Add exRing ["A"]).keys = [113, 113, 114, 114, 115, 116] ∧
    (Add exRing ["A"]).keys.Sorted (fun a b => a ≤ b) ∧
    ((Add exRing ["A"]).keys.length : Int) =
      (exRing.keys.length : Int) + exRing.replicas * ((["A"] : List String).length : Int) ∧
    Reachable (New 0 (some byteSum)) ∧ (New 0 (some byteSum)).replicas = 0 ∧
    Get (Add (New 0 (some byteSum)) ["A"]) "q" = "" :=
  have hr : Reachable exRing := Reachable.add _ _ (Reachable.new 2 (some byteSum))
  have h := ring_Add_key_sequence exRing hr ["A"]
  have h0 := ring_Add_key_sequence (New 0 (some byteSum)) (Reachable.new 0 (some byteSum)) ["A"]
  ⟨hr, by decide, h.1.trans (by decide), h.2.1, h.2.2.2.1 (by decide),
    Reachable.new 0 (some byteSum), rfl, ((h0.2.2.2.2 rfl).2.2 "q").1⟩

/-- Reading the map after `Add` at the level of map entries: a hash placed by
this `Add` has an entry for one of the added ids, any other hash has the entry
it had. -/
theorem lookup_Add (m : Map) (ids : List String) (x : Int) :
    (x ∈ (vnodes m ids).map Prod.fst →
      ∃ id ∈ ids, (Add m ids).hashMap.lookup x = some id) ∧
    (x ∉ (vnodes m ids).map Prod.fst →
      (Add m ids).hashMap.lookup x = m.hashMap.lookup x) := by
  rw [(Add_fields m ids).2.2, List.lookup_append]
  cases hl : (vnodes m ids).reverse.lookup x with
  | some id =>
    have hmem : (x, id) ∈ vnodes m ids := List.mem_reverse.1 (mem_of_lookup hl)
    exact ⟨fun _ => ⟨id, mem_vnodes hmem, rfl⟩,
      fun hx => absurd (List.mem_map_of_mem Prod.fst hmem) hx⟩
  | none =>
    constructor
    · intro hx
      obtain ⟨p, hp, hpx⟩ := List.mem_map.1 hx
      have := List.lookup_eq_none_iff.1 hl p (List.mem_reverse.2 hp)
      simp [hpx] at this
    · intro _
      simp

/-- One `Add` keeps the invariant that every ring value has a map entry for an
id passed to some `Add`. -/
theorem mapped_Add {m : Map} {all : List String}
    (h : ∀ x ∈ m.keys, ∃ id ∈ all, m.hashMap.lookup x = some id) (ids : List String) :
    ∀ x ∈ (Add m ids).keys, ∃ id ∈ all ++ ids, (Add m ids).hashMap.lookup x = some id := by
  intro x hx
  rw [(Add_fields m ids).2.1, mem_sortInts, List.mem_append] at hx
  by_cases hnew : x ∈ (vnodes m ids).map Prod.fst
  · obtain ⟨id, hid, hl⟩ := (lookup_Add m ids x).1 hnew
    exact ⟨id, List.mem_append_right _ hid, hl⟩
  · rcases hx with hx | hx
    · obtain ⟨id, hid, hl⟩ := h x hx
      exact ⟨id, List.mem_append_left _ hid, by rw [(lookup_Add m ids x).2 hnew]; exact hl⟩
    · exact absurd hx hnew

theorem foldl_Add_mapped (calls : List (List String)) (m : Map) (all : List String)
    (hr : Reachable m) (h : ∀ x ∈ m.keys, ∃ id ∈ all, m.hashMap.lookup x = some id) :
    Reachable (calls.foldl Add m) ∧
      ∀ x ∈ (calls.foldl Add m).keys,
        ∃ id ∈ all ++ calls.flatten, (calls.foldl Add m).hashMap.lookup x = some id := by
  induction calls generalizing m all with
  | nil => simpa using ⟨hr, h⟩
  | cons ids calls ih =>
    have := ih (Add m ids) (all ++ ids) (Reachable.add m ids hr) (mapped_Add h ids)
    simpa [List.append_assoc] using this

/-- C20: on a ring built from `New` by any sequence of `Add` calls, every value
of the key sequence has an entry in the map, holding an id passed to one of the
`Add` calls; so on a non-empty ring `Get` returns such an id for every key, and
`Get` returns the empty string only when the ring is empty or the empty string
was itself added as an id. -/
theorem ring_keys_are_mapped (replicas : Int) (fn : Option Hash)
    (calls : List (List String)) :
    (∀ x ∈ (build replicas fn calls).keys,
      ∃ id ∈ calls.flatten, (build replicas fn calls).hashMap.lookup x = some id) ∧
    ((build replicas fn calls).keys ≠ [] →
      ∀ key, Get (build replicas fn calls) key ∈ calls.flatten) ∧
    (∀ key, Get (build replicas fn calls) key = "" →
      (build replicas fn calls).keys = [] ∨ "" ∈ calls.flatten) := by
  obtain ⟨hr, hmapped⟩ := foldl_Add_mapped calls (New replicas fn) []
    (Reachable.new replicas fn) (fun x hx => by simp [New] at hx)
  simp only [List.nil_append] at hmapped
  have hb : calls.foldl Add (New replicas fn) = build replicas fn calls := rfl
  rw [hb] at hr hmapped
  have hget : (build replicas fn calls).keys ≠ [] →
      ∀ key, Get (build replicas fn calls) key ∈ calls.flatten := by
    intro hne key
    obtain ⟨v, hv, hg⟩ := Get_owner (build replicas fn calls) key (sorted_of_reachable hr) hne
    obtain ⟨id, hid, hl⟩ := hmapped v hv.1
    rw [hg]
    unfold mapGet
    rw [hl]
    exact hid
  refine ⟨hmapped, hget, fun key hk => ?_⟩
  by_cases hne : (build replicas fn calls).keys = []
  · exact Or.inl hne
  · right
    rw [← hk]
    exact hget hne key

theorem ring_keys_are_mapped_witness :
    (build 2 (some byteSum) [["A"], ["C"]]).keys ≠ [] ∧
    Get (build 2 (some byteSum) [["A"], ["C"]]) "zz" ∈ [["A"], ["C"]].flatten ∧
    ∃ id ∈ [["A"], ["C"]].flatten,
      (build 2 (some byteSum) [["A"], ["C"]]).hashMap.lookup 115 = some id :=
  have h := ring_keys_are_mapped 2 (some byteSum) [["A"], ["C"]]
  ⟨by decide, h.2.1 (by decide) "zz", h.1 115 (by decide)⟩

end consistenthash

namespace geecache

/-! ### Peer fetch and loader errors -/

/-- C15: for a reachable group whose peer-picker selects, for a non-empty
uncached key, a peer whose transport fetch succeeds, `Group.Get` returns the
bytes of the peer's response with no error after one `PickPeer` and one fetch;
the loader is not called, the local cache is exactly what it was, and the key
still misses locally. -/
theorem group_Get_from_peer (g : Group) (hg : Group.Reachable g) (picker : PeerPicker)
    (hp : g.peers = some picker) (key : String) (hk : key ≠ "")
    (hmiss : (g.mainCache.get key).2 = none)
    (peer : PeerGetter) (hpick : picker.PickPeer key = some peer)
    (value : List UInt8) (hok : peer.Get g.name key = Except.ok value) (fuel : Nat) :
    ∃ g', Group.Get fuel g key = some ((⟨value⟩, none), g') ∧
      g'.log = g.log ++ [Event.pick key, Event.fetch g.name key] ∧
      loadsOf g'.log = loadsOf g.log ∧
      g'.mainCache = g.mainCache ∧
      (g'.mainCache.get key).2 = none := by
  have hsame := cache_get_miss (Inv_of_reachable_group hg) hmiss
  clear hg
  obtain ⟨name, getter, mainCache, peers, log⟩ := g
  simp only at hp hmiss hok hsame
  subst hp
  refine ⟨{ name := name, getter := getter, mainCache := mainCache, peers := some picker
            log := log ++ [Event.pick key] ++ [Event.fetch name key] },
    ?_, by simp, ?_, rfl, hmiss⟩
  · simp only [Group.Get, hk, if_false, hmiss, hsame, Group.load, hpick, Group.getFromPeer, hok]
  · simp [loadsOf_append, loadsOf]

theorem group_Get_from_peer_witness :
    Group.Reachable
      { exGroup 4 with peers := some ⟨fun _ => some ⟨fun _ _ => Except.ok [1, 2]⟩⟩ } ∧
    observe (Group.Get 0
      { exGroup 4 with peers := some ⟨fun _ => some ⟨fun _ _ => Except.ok [1, 2]⟩⟩ } "k") =
      some ((⟨[1, 2]⟩, none), [Event.pick "k", Event.fetch "g" "k"]) ∧
    ∃ g', Group.Get 0
        { exGroup 4 with peers := some ⟨fun _ => some ⟨fun _ _ => Except.ok [1, 2]⟩⟩ } "k" =
          some ((⟨[1, 2]⟩, none), g') ∧
      loadsOf g'.log = [] ∧ g'.mainCache = (exGroup 4).mainCache ∧
      (g'.mainCache.get "k").2 = none :=
  have hr : Group.Reachable
      { exGroup 4 with peers := some ⟨fun _ => some ⟨fun _ _ => Except.ok [1, 2]⟩⟩ } :=
    Group.Reachable.registerPeers (exGroup 4) _ ⟨fun _ => some ⟨fun _ _ => Except.ok [1, 2]⟩⟩
      (Group.Reachable.new [] [("g", exGroup 4)] "g" 4 (some exGetter) (exGroup 4) rfl) rfl
  ⟨hr, by decide,
    (group_Get_from_peer _ hr ⟨fun _ => some ⟨fun _ _ => Except.ok [1, 2]⟩⟩ rfl "k"
      (by decide) (by decide) ⟨fun _ _ => Except.ok [1, 2]⟩ rfl [1, 2] rfl 0).elim
      fun g' h => ⟨g', h.1, h.2.2.1, h.2.2.2.1, h.2.2.2.2⟩⟩

/-- A local load whose loader call fails: the error is returned with an empty
value after that one call, and the cache is not touched. -/
theorem getLocally_error {g : Group} {key err : String}
    (hload : g.getter (loadsOf g.log) key = Except.error err) (fuel : Nat) :
    Group.getLocally fuel g key =
      some ((⟨[]⟩, some err), { g with log := g.log ++ [Event.load key] }) := by
  unfold Group.getLocally
  simp only [hload]

/-- Whatever `Group.getLocally` returns is a value without error or an error
with the empty value. -/
theorem getLocally_value_or_error {g g' : Group} {fuel : Nat} {key : String}
    {r : ByteView × Error} (h : Group.getLocally fuel g key = some (r, g')) :
    r.2 = none ∨ r.1 = ⟨[]⟩ := by
  unfold Group.getLocally at h
  split at h
  · simp only [Option.some.injEq, Prod.mk.injEq] at h
    right
    rw [← h.1]
  · simp only [Option.map_eq_some', Prod.mk.injEq] at h
    obtain ⟨_, _, h1, _⟩ := h
    left
    rw [← h1]

/-- Whatever `Group.Get` returns is a value without error or an error with the
empty value, never both. -/
theorem Get_value_or_error {g g' : Group} {fuel : Nat} {key : String}
    {r : ByteView × Error} (h : Group.Get fuel g key = some (r, g')) :
    r.2 = none ∨ r.1 = ⟨[]⟩ := by
  unfold Group.Get at h
  split at h
  · simp only [Option.some.injEq, Prod.mk.injEq] at h
    right
    rw [← h.1]
  · split at h
    · simp only [Option.some.injEq, Prod.mk.injEq] at h
      left
      rw [← h.1]
    · unfold Group.load at h
      split at h
      · split at h
        · split at h
          · simp only [Option.some.injEq, Prod.mk.injEq] at h
            left
            rw [← h.1]
          · exact getLocally_value_or_error h
        · exact getLocally_value_or_error h
      · exact getLocally_value_or_error h

/-- C16: for a reachable group and a non-empty uncached key that is served
locally (no peer-picker, or the picker selects no peer, or the selected peer's
fetch fails), a failing loader call makes `Group.Get` return exactly the
loader's error together with the empty value, after exactly one loader call,
with the cache exactly what it was; and whatever `Group.Get` returns on this
group is a value without error or an error with the empty value. -/
theorem group_Get_loader_error (g : Group) (hg : Group.Reachable g) (key : String)
    (hk : key ≠ "") (hmiss : (g.mainCache.get key).2 = none)
    (hlocal : g.peers = none ∨ ∃ picker, g.peers = some picker ∧
      (picker.PickPeer key = none ∨
        ∃ peer perr, picker.PickPeer key = some peer ∧
          peer.Get g.name key = Except.error perr))
    (err : String) (hload : g.getter (loadsOf g.log) key = Except.error err) (fuel : Nat) :
    (∃ g', Group.Get fuel g key = some ((⟨[]⟩, some err), g') ∧
      loadsOf g'.log = loadsOf g.log ++ [key] ∧
      g'.mainCache = g.mainCache) ∧
    (∀ fuel' k r g', Group.Get fuel' g k = some (r, g') → r.2 = none ∨ r.1 = ⟨[]⟩) := by
  refine ⟨?_, fun fuel' k r g' h => Get_value_or_error h⟩
  have hsame := cache_get_miss (Inv_of_reachable_group hg) hmiss
  clear hg
  obtain ⟨name, getter, mainCache, peers, log⟩ := g
  simp only at hmiss hsame hlocal hload
  rcases hlocal with hp | ⟨picker, hp, hpick | ⟨peer, perr, hpick, hfail⟩⟩
  · subst hp
    refine ⟨{ name := name, getter := getter, mainCache := mainCache, peers := none
              log := log ++ [Event.load key] }, ?_, by simp [loadsOf_append, loadsOf], rfl⟩
    simp only [Group.Get, hk, if_false, hmiss, hsame, Group.load]
    exact getLocally_error hload fuel
  · subst hp
    have hload' : getter (loadsOf (log ++ [Event.pick key])) key = Except.error err := by
      rw [loadsOf_append]
      simpa [loadsOf] using hload
    refine ⟨{ name := name, getter := getter, mainCache := mainCache, peers := some picker
              log := log ++ [Event.pick key] ++ [Event.load key] }, ?_,
      by simp [loadsOf_append, loadsOf], rfl⟩
    simp only [Group.Get, hk, if_false, hmiss, hsame, Group.load, hpick]
    exact getLocally_error
      (g := { name := name, getter := getter, mainCache := mainCache, peers := some picker
              log := log ++ [Event.pick key] }) hload' fuel
  · subst hp
    have hload' : getter
        (loadsOf (log ++ [Event.pick key] ++ [Event.fetch name key])) key =
          Except.error err := by
      rw [loadsOf_append, loadsOf_append]
      simpa [loadsOf] using hload
    refine ⟨{ name := name, getter := getter, mainCache := mainCache, peers := some picker
              log := log ++ [Event.pick key] ++ [Event.fetch name key] ++ [Event.load key] },
      ?_, by simp [loadsOf_append, loadsOf], rfl⟩
    simp only [Group.Get, hk, if_false, hmiss, hsame, Group.load, hpick, Group.getFromPeer,
      hfail]
    exact getLocally_error
      (g := { name := name, getter := getter, mainCache := mainCache, peers := some picker
              log := log ++ [Event.pick key] ++ [Event.fetch name key] }) hload' fuel

theorem group_Get_loader_error_witness :
    Group.Reachable exBadGroup ∧ "k" ≠ "" ∧ (exBadGroup.mainCache.get "k").2 = none ∧
    exBadGroup.peers = none ∧
    exBadGroup.getter (loadsOf exBadGroup.log) "k" = Except.error "no such key" ∧
    ∃ g', Group.Get 0 exBadGroup "k" = some ((⟨[]⟩, some "no such key"), g') ∧
      loadsOf g'.log = loadsOf exBadGroup.log ++ ["k"] ∧
      g'.mainCache = exBadGroup.mainCache :=
  have hr : Group.Reachable exBadGroup :=
    Group.Reachable.new [] [("g", exBadGroup)] "g" 4 (some exBadGetter) exBadGroup rfl
  ⟨hr, by decide, by decide, rfl, rfl,
    (group_Get_loader_error exBadGroup hr "k" (by decide) (by decide) (Or.inl rfl)
      "no such key" rfl 0).1⟩

end geecache

namespace consistenthash

/-- On a ring made by one `Add` on a new map, an answer of `Get` other than the
empty string is one of the added ids. -/
theorem Get_Add_New_mem (replicas : Int) (fn : Option Hash) (ids : List String) (key : String)
    (hne : Get (Add (New replicas fn) ids) key ≠ "") :
    Get (Add (New replicas fn) ids) key ∈ ids := by
  obtain ⟨hr, hmapped⟩ := foldl_Add_mapped [ids] (New replicas fn) []
    (Reachable.new replicas fn) (fun x hx => by simp [New] at hx)
  simp only [List.foldl_cons, List.foldl_nil, List.nil_append, List.flatten_cons,
    List.flatten_nil, List.append_nil] at hr hmapped
  have hk : (Add (New replicas fn) ids).keys ≠ [] := fun he => hne (Get_empty _ key he)
  obtain ⟨v, hv, hg⟩ := Get_owner _ key (sorted_of_reachable hr) hk
  obtain ⟨id, hid, hl⟩ := hmapped v hv.1
  rw [hg]
  unfold mapGet
  rw [hl]
  exact hid

end consistenthash

namespace geecache

/-! ### The peer pool -/

/-- The map of transports built by `Set` holds, for every peer of the list, the
transport with that peer's base URL. -/
theorem lookup_getters (basePath : String) (peers : List String)
    (m : List (String × httpGetter)) (id : String) :
    (peers.foldl
        (fun m peer => (peer, ({ baseURL := peer ++ basePath } : httpGetter)) :: m) m).lookup id =
      if id ∈ peers then some { baseURL := id ++ basePath } else m.lookup id := by
  induction peers generalizing m with
  | nil => simp
  | cons a peers ih =>
    rw [List.foldl_cons, ih]
    by_cases h1 : id ∈ peers
    · simp [h1]
    · by_cases h2 : id = a
      · subst h2
        simp [h1]
      · have hb : (id == a) = false := by simpa using h2
        simp [h1, h2, List.lookup_cons, hb]

/-- C17: on a pool on which `Set(peers...)` has been called, `PickPeer(key)`
returns the transport that `Set` created for the peer the ring resolves the key
to (base URL: peer id followed by the base path) together with `true` when that
peer id is non-empty and differs from the pool's own identity, and
`(nil, false)` otherwise; so a key that the ring gives to the pool itself gets
no remote transport. -/
theorem pool_PickPeer_after_Set (p : HTTPPool) (peers : List String) (key : String) :
    (p.Set peers).PickPeer key =
      some (if consistenthash.Get (peerRing peers) key ≠ "" ∧
              consistenthash.Get (peerRing peers) key ≠ p.self
            then (some (httpGetter.mk (consistenthash.Get (peerRing peers) key ++ p.basePath)),
              true)
            else (none, false)) ∧
    (consistenthash.Get (peerRing peers) key = p.self →
      (p.Set peers).PickPeer key = some (none, false)) := by
  have hpick : (p.Set peers).PickPeer key =
      some (if consistenthash.Get (peerRing peers) key ≠ "" ∧
              consistenthash.Get (peerRing peers) key ≠ p.self
            then (some (httpGetter.mk (consistenthash.Get (peerRing peers) key ++ p.basePath)),
              true)
            else (none, false)) := by
    simp only [HTTPPool.PickPeer, HTTPPool.Set]
    by_cases hc : consistenthash.Get (peerRing peers) key ≠ "" ∧
        consistenthash.Get (peerRing peers) key ≠ p.self
    · have hmem := consistenthash.Get_Add_New_mem defaultReplicas none peers key hc.1
      rw [if_pos hc, if_pos hc, lookup_getters]
      unfold peerRing
      rw [if_pos hmem]
    · rw [if_neg hc, if_neg hc]
  refine ⟨hpick, fun hself => ?_⟩
  rw [hpick, if_neg]
  intro hc
  exact hc.2 hself

/-- With a single peer every key resolves to that peer. -/
theorem peerRing_single (id key : String) :
    consistenthash.Get (peerRing [id]) key = id := by
  have hlen := consistenthash.length_vnodes (consistenthash.New defaultReplicas none) [id]
  have hk := (consistenthash.Add_fields (consistenthash.New defaultReplicas none) [id]).2.1
  have hne : (peerRing [id]).keys ≠ [] := by
    unfold peerRing
    rw [hk]
    intro he
    have h0 := congrArg List.length he
    unfold consistenthash.sortInts at h0
    rw [List.length_insertionSort, List.length_append, List.length_map, hlen] at h0
    simp [consistenthash.New, defaultReplicas] at h0
  obtain ⟨hr, hmapped⟩ := consistenthash.foldl_Add_mapped [[id]]
    (consistenthash.New defaultReplicas none) []
    (consistenthash.Reachable.new defaultReplicas none)
    (fun x hx => by simp [consistenthash.New] at hx)
  simp only [List.foldl_cons, List.foldl_nil, List.nil_append, List.flatten_cons,
    List.flatten_nil, List.append_nil] at hr hmapped
  obtain ⟨v, hv, hg⟩ := consistenthash.Get_owner _ key
    (consistenthash.sorted_of_reachable hr) hne
  obtain ⟨w, hw, hl⟩ := hmapped v hv.1
  simp only [List.mem_singleton] at hw
  subst hw
  unfold peerRing
  rw [hg]
  unfold consistenthash.mapGet
  rw [hl]
  rfl

theorem pool_PickPeer_after_Set_witness :
    consistenthash.Get (peerRing ["http://a"]) "Tom" = (NewHTTPPool "http://a").self ∧
    ((NewHTTPPool "http://a").Set ["http://a"]).PickPeer "Tom" = some (none, false) ∧
    ((NewHTTPPool "http://b").Set ["http://a"]).PickPeer "Tom" =
      some (some (httpGetter.mk "http://a/_geecache/"), true) :=
  ⟨peerRing_single "http://a" "Tom",
    (pool_PickPeer_after_Set (NewHTTPPool "http://a") ["http://a"] "Tom").2
      (peerRing_single "http://a" "Tom"),
    (pool_PickPeer_after_Set (NewHTTPPool "http://b") ["http://a"] "Tom").1.trans
      (by rw [peerRing_single]; decide)⟩

/-! ### The inbound request handler -/

theorem span_no_slash (s : List Char) (h : '/' ∉ s) :
    s.span (fun ch => ch != '/') = (s, []) := by
  induction s with
  | nil => rfl
  | cons a s ih =>
    have ha : (a != '/') = true := by
      have : a ≠ '/' := fun he => h (by rw [he]; simp)
      simpa using this
    have hs : '/' ∉ s := fun hm => h (List.mem_cons_of_mem _ hm)
    have ih' := ih hs
    rw [List.span_eq_take_drop] at ih' ⊢
    simp only [Prod.mk.injEq] at ih'
    simp only [List.takeWhile_cons, List.dropWhile_cons, ha, if_true, ih'.1, ih'.2]

theorem span_slash (a b : List Char) (h : '/' ∉ a) :
    (a ++ '/' :: b).span (fun ch => ch != '/') = (a, '/' :: b) := by
  induction a with
  | nil =>
    rw [List.span_eq_take_drop]
    simp
  | cons x a ih =>
    have hx : (x != '/') = true := by
      have : x ≠ '/' := fun he => h (by rw [he]; simp)
      simpa using this
    have hs : '/' ∉ a := fun hm => h (List.mem_cons_of_mem _ hm)
    have ih' := ih hs
    rw [List.span_eq_take_drop] at ih' ⊢
    simp only [Prod.mk.injEq] at ih'
    simp only [List.cons_append, List.takeWhile_cons, List.dropWhile_cons, hx, if_true,
      ih'.1, ih'.2]

/-- Without a slash `strings.SplitN(s, "/", 2)` has one part. -/
theorem SplitN2_one (s : List Char) (h : '/' ∉ s) : SplitN2 s = [s] := by
  unfold SplitN2
  rw [span_no_slash s h]

/-- With a slash `strings.SplitN(s, "/", 2)` has two parts, split at the first
slash. -/
theorem SplitN2_two (a b : List Char) (h : '/' ∉ a) : SplitN2 (a ++ '/' :: b) = [a, b] := by
  unfold SplitN2
  rw [span_slash a b h]

/-- C18: for a request path that starts with the pool's base path, the handler
answers with status 400 and the body `bad request` when no slash follows the
base path; and when the rest of the path is a group name, a slash and a key
(the key being everything after that first slash): with status 404 when no
group is registered under the name; otherwise it calls the group's `Get` with
the key, does not return when `Get` does not, answers with status 500 and the
error text as plain-text body (followed by the newline that `http.Error`
writes) when `Get` returns an error, with status 200 and the wire-encoded value
as an octet stream when `Get` returns a value and the codec encodes it, and
with status 500 when the codec fails. -/
theorem pool_ServeHTTP_status (Marshal : List UInt8 → Except String (List UInt8))
    (p : HTTPPool) (groups : Registry) (path : String)
    (hpre : p.basePath.data.isPrefixOf path.data = true) :
    ('/' ∉ path.data.drop p.basePath.data.length →
      ∀ fuel, HTTPPool.ServeHTTP Marshal fuel p groups path =
        some (Served.reply
          (Response.mk 400 "text/plain; charset=utf-8" (bytesOf "bad request\n")) groups)) ∧
    (∀ gname key, path.data.drop p.basePath.data.length = gname ++ '/' :: key →
      '/' ∉ gname →
      (GetGroup groups (String.mk gname) = none →
        ∀ fuel, HTTPPool.ServeHTTP Marshal fuel p groups path =
          some (Served.reply
            (Response.mk 404 "text/plain; charset=utf-8"
              (bytesOf ("no such group: " ++ String.mk gname ++ "\n"))) groups)) ∧
      (∀ group, GetGroup groups (String.mk gname) = some group → ∀ fuel,
        (Group.Get fuel group (String.mk key) = none →
          HTTPPool.ServeHTTP Marshal fuel p groups path = none) ∧
        (∀ v err group', Group.Get fuel group (String.mk key) = some ((v, some err), group') →
          HTTPPool.ServeHTTP Marshal fuel p groups path =
            some (Served.reply
              (Response.mk 500 "text/plain; charset=utf-8" (bytesOf (err ++ "\n")))
              ((String.mk gname, group') :: groups))) ∧
        (∀ v group' body, Group.Get fuel group (String.mk key) = some ((v, none), group') →
          Marshal v.ByteSlice = Except.ok body →
          HTTPPool.ServeHTTP Marshal fuel p groups path =
            some (Served.reply (Response.mk 200 "application/octet-stream" body)
              ((String.mk gname, group') :: groups))) ∧
        (∀ v group' err, Group.Get fuel group (String.mk key) = some ((v, none), group') →
          Marshal v.ByteSlice = Except.error err →
          HTTPPool.ServeHTTP Marshal fuel p groups path =
            some (Served.reply
              (Response.mk 500 "text/plain; charset=utf-8" (bytesOf (err ++ "\n")))
              ((String.mk gname, group') :: groups))))) := by
  constructor
  · intro hno fuel
    unfold HTTPPool.ServeHTTP
    rw [if_pos hpre, SplitN2_one _ hno]
    rfl
  · intro gname key hrest hg
    have hsplit := SplitN2_two gname key hg
    rw [← hrest] at hsplit
    constructor
    · intro hnone fuel
      unfold HTTPPool.ServeHTTP
      rw [if_pos hpre, hsplit]
      simp only [hnone, httpError]
    · intro group hsome fuel
      refine ⟨?_, ?_, ?_, ?_⟩
      · intro hget
        unfold HTTPPool.ServeHTTP
        rw [if_pos hpre, hsplit]
        simp only [hsome, hget]
      · intro v err group' hget
        unfold HTTPPool.ServeHTTP
        rw [if_pos hpre, hsplit]
        simp only [hsome, hget, httpError]
      · intro v group' body hget hm
        unfold HTTPPool.ServeHTTP
        rw [if_pos hpre, hsplit]
        simp only [hsome, hget, hm]
      · intro v group' err hget hm
        unfold HTTPPool.ServeHTTP
        rw [if_pos hpre, hsplit]
        simp only [hsome, hget, hm, httpError]

set_option maxRecDepth 8000 in
theorem pool_ServeHTTP_status_witness :
    (defaultBasePath.data.isPrefixOf "/_geecache/g/k".data = true ∧
      ∃ g', Group.Get 1 (exGroup 2) "k" = some ((⟨[65]⟩, none), g') ∧
        HTTPPool.ServeHTTP exMarshal 1 (NewHTTPPool "me") exRegistry "/_geecache/g/k" =
          some (Served.reply (Response.mk 200 "application/octet-stream" [10, 65])
            (("g", g') :: exRegistry))) ∧
    (defaultBasePath.data.isPrefixOf "/_geecache/g".data = true ∧
      (HTTPPool.ServeHTTP exMarshal 1 (NewHTTPPool "me") exRegistry "/_geecache/g").bind
          Served.response =
        some (Response.mk 400 "text/plain; charset=utf-8"
          [98, 97, 100, 32, 114, 101, 113, 117, 101, 115, 116, 10])) ∧
    (defaultBasePath.data.isPrefixOf "/_geecache/x/k".data = true ∧
      (HTTPPool.ServeHTTP exMarshal 1 (NewHTTPPool "me") exRegistry "/_geecache/x/k").bind
          Served.response =
        some (Response.mk 404 "text/plain; charset=utf-8" (bytesOf "no such group: x\n"))) ∧
    (defaultBasePath.data.isPrefixOf "/_geecache/g/k".data = true ∧
      (HTTPPool.ServeHTTP exMarshal 1 (NewHTTPPool "me") [("g", exBadGroup)]
          "/_geecache/g/k").bind Served.response =
        some (Response.mk 500 "text/plain; charset=utf-8" (bytesOf "no such key\n"))) := by
  have h := ((pool_ServeHTTP_status exMarshal (NewHTTPPool "me") exRegistry "/_geecache/g/k"
    (by decide)).2 "g".data "k".data (by decide) (by decide)).2 (exGroup 2) rfl 1
  have hget : ∃ g', Group.Get 1 (exGroup 2) "k" = some ((⟨[65]⟩, none), g') := ⟨_, rfl⟩
  obtain ⟨g', hg'⟩ := hget
  have h200 := h.2.2.1 ⟨[65]⟩ g' [10, 65] hg' rfl
  have h400 := (pool_ServeHTTP_status exMarshal (NewHTTPPool "me") exRegistry "/_geecache/g"
    (by decide)).1 (by decide) 1
  have h404 := ((pool_ServeHTTP_status exMarshal (NewHTTPPool "me") exRegistry "/_geecache/x/k"
    (by decide)).2 "x".data "k".data (by decide) (by decide)).1 rfl 1
  have hbad : ∃ g', Group.Get 1 exBadGroup "k" = some ((⟨[]⟩, some "no such key"), g') :=
    ⟨_, rfl⟩
  obtain ⟨b', hb'⟩ := hbad
  have h500 := (((pool_ServeHTTP_status exMarshal (NewHTTPPool "me") [("g", exBadGroup)]
    "/_geecache/g/k" (by decide)).2 "g".data "k".data (by decide) (by decide)).2
      exBadGroup rfl 1).2.1 ⟨[]⟩ "no such key" b' hb'
  refine ⟨⟨by decide, g', hg', h200⟩, ⟨by decide, ?_⟩, ⟨by decide, ?_⟩, ⟨by decide, ?_⟩⟩
  · rw [h400]
    decide
  · rw [h404]
    rfl
  · rw [h500]
    rfl

end geecache

namespace lru

variable {V : Type}

/-! ### The budget bound after every call -/

/-- One call keeps the exact sum of the entry sizes within the budget and below
`2^63` when the entry sizes are non-negative and the budget plus the size of an
added entry is below `2^63`. -/
theorem step_fits [Value V] {c c' : Cache V} (hi : Inv c) (hb : 0 < c.maxBytes)
    (hnn : ∀ e ∈ c.ll, 0 ≤ size e) (hle : sizeSum c.ll ≤ c.maxBytes)
    (hlt : sizeSum c.ll < 2 ^ 63) (op : Op V)
    (hop : ∀ fuel key value, op = Op.add fuel key value →
      0 ≤ Value.Len value ∧
        c.maxBytes + ((key.utf8ByteSize : Int) + Value.Len value) < 2 ^ 63)
    (hs : step c op = some c') :
    (∀ e ∈ c'.ll, 0 ≤ size e) ∧ sizeSum c'.ll ≤ c'.maxBytes ∧ sizeSum c'.ll < 2 ^ 63 := by
  cases op with
  | get key =>
    simp only [step, Option.some.injEq] at hs
    subst hs
    by_cases hk : key ∈ keysOf c.ll
    · obtain ⟨e, l₁, l₂, hl, hek⟩ := mem_keysOf hk
      have hg := Get_hit hi hl
      rw [hek] at hg
      rw [hg]
      simp only
      have hp : (e :: (l₁ ++ l₂)).Perm c.ll := by
        rw [hl]
        exact List.perm_middle.symm
      refine ⟨fun x hx => hnn x (hp.mem_iff.mp hx), ?_, ?_⟩
      · rw [sizeSum_perm hp]
        exact hle
      · rw [sizeSum_perm hp]
        exact hlt
    · rw [Get_miss hi hk]
      exact ⟨hnn, hle, hlt⟩
  | removeOldest =>
    simp only [step, Option.some.injEq] at hs
    subst hs
    rcases List.eq_nil_or_concat c.ll with hl | ⟨l, e, hl⟩
    · rw [RemoveOldest_nil hl]
      exact ⟨hnn, hle, hlt⟩
    · rw [List.concat_eq_append] at hl
      rw [RemoveOldest_snoc hi hl]
      simp only
      have he0 : 0 ≤ size e := hnn e (by rw [hl]; simp)
      have hsum : sizeSum c.ll = sizeSum l + size e := by
        rw [hl, sizeSum_append, sizeSum_cons, sizeSum_nil, add_zero]
      exact ⟨fun x hx => hnn x (by rw [hl]; exact List.mem_append_left _ hx),
        by omega, by omega⟩
  | add fuel key value =>
    obtain ⟨hv, hfit⟩ := hop fuel key value rfl
    simp only [step, Add] at hs
    have his := Inv_Add_store hi key value
    obtain ⟨n, hn⟩ := Add_evict_char fuel his hs
    have hf := Add_store_fields c key value
    have hkey : (0 : Int) ≤ (key.utf8ByteSize : Int) := Int.natCast_nonneg _
    have hstore : (∀ e ∈ (Add_store c key value).ll, 0 ≤ size e) ∧
        sizeSum (Add_store c key value).ll ≤
          sizeSum c.ll + ((key.utf8ByteSize : Int) + Value.Len value) := by
      by_cases hk : key ∈ keysOf c.ll
      · obtain ⟨e, l₁, l₂, hl, hek⟩ := mem_keysOf hk
        have ha := Add_store_hit hi hl value
        rw [hek] at ha
        rw [ha]
        simp only
        have he0 : 0 ≤ size e := hnn e (by rw [hl]; simp)
        have hsum : sizeSum c.ll = sizeSum l₁ + (size e + sizeSum l₂) := by
          rw [hl, sizeSum_append, sizeSum_cons]
        constructor
        · intro x hx
          rcases List.mem_cons.mp hx with hx | hx
          · rw [hx]
            unfold size
            simp only
            omega
          · refine hnn x ?_
            rw [hl]
            rcases List.mem_append.mp hx with h1 | h2
            · exact List.mem_append_left _ h1
            · exact List.mem_append_right _ (List.mem_cons_of_mem _ h2)
        · rw [sizeSum_cons, sizeSum_append, hsum]
          unfold size
          simp only
          unfold size at he0
          omega
      · rw [Add_store_miss hi hk value]
        simp only
        constructor
        · intro x hx
          rcases List.mem_cons.mp hx with hx | hx
          · rw [hx]
            unfold size
            simp only
            omega
          · exact hnn x hx
        · rw [sizeSum_cons]
          unfold size
          simp only
          omega
    have htake : ∀ e ∈ (Add_store c key value).ll.take n, 0 ≤ size e :=
      fun e he => hstore.1 e (List.mem_of_mem_take he)
    have h0 := sizeSum_nonneg htake
    have h1 := sizeSum_take_le hstore.1 n
    have hmb : c'.maxBytes = c.maxBytes := by rw [hn.maxBytes, hf.1]
    have hnb : c'.nbytes = sizeSum ((Add_store c key value).ll.take n) := by
      rw [hn.nbytes]
      exact total_eq_sizeSum h0 (by omega)
    have hle' := le_of_fits (by omega : c'.maxBytes ≠ 0) hn.fits
    rw [hn.ll]
    exact ⟨htake, by omega, by omega⟩

/-- A sequence of calls keeps the representation invariant, the budget, and,
for entries of non-negative size that fit, the exact sum within the budget. -/
theorem run_fits [Value V] (maxBytes : Int) (hb : 0 < maxBytes) (ops : List (Op V))
    (hops : ∀ fuel key value, Op.add fuel key value ∈ ops →
      0 ≤ Value.Len value ∧ maxBytes + ((key.utf8ByteSize : Int) + Value.Len value) < 2 ^ 63)
    (c₀ c : Cache V) (hi : Inv c₀) (hm : c₀.maxBytes = maxBytes)
    (hnn : ∀ e ∈ c₀.ll, 0 ≤ size e) (hle : sizeSum c₀.ll ≤ maxBytes)
    (hlt : sizeSum c₀.ll < 2 ^ 63) (hr : run c₀ ops = some c) :
    Inv c ∧ (∀ e ∈ c.ll, 0 ≤ size e) ∧ sizeSum c.ll ≤ maxBytes ∧ sizeSum c.ll < 2 ^ 63 := by
  induction ops generalizing c₀ with
  | nil =>
    simp only [run, Option.some.injEq] at hr
    rw [← hr]
    exact ⟨hi, hnn, hle, hlt⟩
  | cons op ops ih =>
    simp only [run, Option.bind_eq_some] at hr
    obtain ⟨c₁, hs, hr⟩ := hr
    have hreach : ReachableFrom c₀ c₁ :=
      run_reachableFrom [op] (by simp only [run, hs, Option.some_bind])
    have hi₁ := inv_of_reachableFrom hreach hi
    have hm₁ : c₁.maxBytes = maxBytes := by rw [maxBytes_of_reachableFrom hreach hi, hm]
    have hstep := step_fits hi (by rw [hm]; exact hb) hnn (by rw [hm]; exact hle) hlt op
      (fun fuel key value he => by
        rw [hm]
        exact hops fuel key value (by rw [he]; exact List.mem_cons_self _ _)) hs
    rw [hm₁] at hstep
    exact ih (fun fuel key value he => hops fuel key value (List.mem_cons_of_mem _ he))
      c₁ hi₁ hm₁ hstep.1 hstep.2.1 hstep.2.2 hr

/-- C1 (amended): for a cache created by `New` with `maxBytes > 0` and taken
through any sequence of `Get`, `Add` and `RemoveOldest` calls, every further
`Add` returns (fuel `Len + 1` is enough for its loop) and leaves
`nbytes ≤ maxBytes`, and a `Get` leaves `nbytes` as it is.  When moreover every
`Add` of the sequence has a value with `Len() ≥ 0` and `maxBytes` plus the size
of the added entry is below `2^63`, then after the whole sequence, whatever its
last call was, `nbytes` is the exact sum of the entry sizes and at most
`maxBytes`, and a further `RemoveOldest` does not raise it. -/
theorem lru_nbytes_le_maxBytes_after_Add [Value V] (maxBytes : Int) (onEvicted : Bool)
    (hb : 0 < maxBytes) :
    (∀ c : Cache V, ReachableFrom (New maxBytes onEvicted) c → ∀ key value,
      (∀ fuel, c.ll.length + 1 ≤ fuel → ∃ c', Add fuel c key value = some c') ∧
      (∀ fuel c', Add fuel c key value = some c' → c'.nbytes ≤ maxBytes) ∧
      (Get c key).1.nbytes = c.nbytes) ∧
    (∀ (ops : List (Op V)) (c : Cache V),
      (∀ fuel key value, Op.add fuel key value ∈ ops →
        0 ≤ Value.Len value ∧
          maxBytes + ((key.utf8ByteSize : Int) + Value.Len value) < 2 ^ 63) →
      run (New maxBytes onEvicted) ops = some c →
      c.nbytes = sizeSum c.ll ∧ c.nbytes ≤ maxBytes ∧
        (RemoveOldest c).nbytes ≤ c.nbytes ∧ (RemoveOldest c).nbytes ≤ maxBytes) := by
  constructor
  · intro c hc key value
    have hi : Inv c := inv_of_reachableFrom hc (Inv_New maxBytes onEvicted)
    have hm : c.maxBytes = maxBytes :=
      maxBytes_of_reachableFrom hc (Inv_New maxBytes onEvicted)
    have hs := Inv_Add_store hi key value
    have hf := Add_store_fields c key value
    refine ⟨?_, ?_, ?_⟩
    rotate_left 2
    · unfold Get
      split
      · split <;> rfl
      · rfl
    · intro fuel hfuel
      exact Add_evict_total fuel hs (by rw [hf.1, hm]; omega) (by omega)
    · intro fuel c' hr
      obtain ⟨n, hn⟩ := Add_evict_char fuel hs hr
      have hmb : c'.maxBytes = maxBytes := by rw [hn.maxBytes, hf.1, hm]
      have hle := le_of_fits (by omega : c'.maxBytes ≠ 0) hn.fits
      omega
  · intro ops c hops hr
    have h := run_fits maxBytes hb ops hops (New maxBytes onEvicted) c
      (Inv_New maxBytes onEvicted) rfl (by simp [New]) (by simp [New, sizeSum]; omega)
      (by simp [New, sizeSum]) hr
    obtain ⟨hi, hnn, hle, hlt⟩ := h
    have h0 := sizeSum_nonneg hnn
    have hnb : c.nbytes = sizeSum c.ll := by
      rw [hi.bytes]
      exact total_eq_sizeSum h0 hlt
    have hro := RemoveOldest_nbytes_le hi hnn hlt
    exact ⟨hnb, by omega, hro, by omega⟩

theorem lru_nbytes_le_maxBytes_after_Add_witness :
    (0 : Int) < 18 ∧
    (ReachableFrom (New 18 true) exCache ∧
      ∃ c', Add 3 exCache "k3" (⟨"v3", 6⟩ : Blob) = some c' ∧ c'.nbytes ≤ 18) ∧
    (run (New 18 true) [Op.add 1 "k1" (⟨"v1", 6⟩ : Blob), Op.add 2 "k2" ⟨"v2", 6⟩,
        Op.removeOldest] = some exCacheAfterRemove ∧
      exCacheAfterRemove.nbytes = sizeSum exCacheAfterRemove.ll ∧
      exCacheAfterRemove.nbytes ≤ 18 ∧
      (RemoveOldest exCacheAfterRemove).nbytes ≤ 18) :=
  have h := lru_nbytes_le_maxBytes_after_Add 18 true (by decide)
  have ha := h.1 exCache exCache_reachableFrom "k3" (⟨"v3", 6⟩ : Blob)
  have hr : run (New 18 true) [Op.add 1 "k1" (⟨"v1", 6⟩ : Blob), Op.add 2 "k2" ⟨"v2", 6⟩,
      Op.removeOldest] = some exCacheAfterRemove := by decide
  have hb := h.2 _ exCacheAfterRemove
    (fun fuel key value hmem => by
      simp only [List.mem_cons, Op.add.injEq, List.mem_singleton, List.not_mem_nil,
        or_false, reduceCtorEq] at hmem
      rcases hmem with ⟨_, hk, hv⟩ | ⟨_, hk, hv⟩ <;> subst hk <;> subst hv <;> decide) hr
  ⟨by decide,
    ⟨exCache_reachableFrom, (ha.1 3 (by decide)).elim fun c' hc' => ⟨c', hc', ha.2.1 3 c' hc'⟩⟩,
    ⟨hr, hb.1, hb.2.1, hb.2.2.2⟩⟩

/-- C1 as stated fails after a `RemoveOldest` when a resident value reports a
negative `Len()`: with budget 5, `Add("a", x)` with `x.Len() = -10` and
`Add("k", y)` with `y.Len() = 10` both return without evicting (`nbytes` is
`-9`, then `2`), and the following `RemoveOldest` removes `("a", x)` and leaves
`nbytes = 11 > 5`. -/
theorem lru_nbytes_le_maxBytes_after_Add_counterexample :
    (0 : Int) < 5 ∧
    run (New 5 false) [Op.add 1 "a" (⟨"x", -10⟩ : Blob), Op.add 2 "k" ⟨"y", 10⟩,
        Op.removeOldest] = some exNegCacheAfterRemove ∧
    ReachableFrom (New 5 false) exNegCacheAfterRemove ∧
    exNegCacheAfterRemove.nbytes = 11 ∧
    ¬ (exNegCacheAfterRemove.nbytes ≤ 5) :=
  have hr : run (New 5 false) [Op.add 1 "a" (⟨"x", -10⟩ : Blob), Op.add 2 "k" ⟨"y", 10⟩,
      Op.removeOldest] = some exNegCacheAfterRemove := by decide
  ⟨by decide, hr, run_reachableFrom _ hr, by decide, by decide⟩

end lru
